import Mathlib

/-!
Verification of the vibe-editor content pipeline.

This file embeds, as pure Lean functions, the content-tree addressing,
flatten, field-write, array-operation, publish, draft-sync and ai-edit
logic of the repository (the Astro API routes, the localStorage draft
store and the ai-edit apply path), and proves or refutes the frozen
claims about them.

Modelling conventions for the JavaScript source:
- A YAML frontmatter content tree is a Node: string leaves, ordered
  arrays, ordered field lists (JS object insertion order).
- Mutation through live references is modelled by functional update at
  the slot where the walk found the child.
- A JS assignment of a non-index property on an array creates an
  expando property that the YAML serializer drops; the visible tree is
  unchanged, so the model returns the tree unchanged there.
- A JS property assignment on a string primitive throws a TypeError in
  strict mode (all route files are ES modules); the request then ends
  in a 500 response and the file is never written, so the model
  returns none there.
- Writing an array index beyond the current length creates a sparse
  array, which the design notes declare undefined behavior; the model
  returns none there (no such input is exercised by any claim).
- Built-in properties of arrays and strings (such as length) are
  outside the model; reading them yields none.
-/

namespace VibeEditor

/-- Value of a maximal leading run of decimal digits. -/
def digitsVal (cs : List Char) : Nat :=
  cs.foldl (fun a c => a * 10 + (c.toNat - 48)) 0

/-- Model of JS parseInt(s, 10) on a string already stripped of leading
whitespace: optional sign, then a maximal run of digits; NaN (none) when
no digit follows. Trailing garbage is ignored, as parseInt does. -/
def jsParseIntCore (cs : List Char) : Option Int :=
  match cs with
  | [] => none
  | c :: rest =>
      if c = '-' then
        let ds := rest.takeWhile Char.isDigit
        if ds.isEmpty then none else some (-(digitsVal ds : Int))
      else if c = '+' then
        let ds := rest.takeWhile Char.isDigit
        if ds.isEmpty then none else some (digitsVal ds : Int)
      else
        let ds := (c :: rest).takeWhile Char.isDigit
        if ds.isEmpty then none else some (digitsVal ds : Int)

/-- Model of JS parseInt(s, 10): leading whitespace skipped. -/
def jsParseInt (s : String) : Option Int :=
  jsParseIntCore (s.data.dropWhile Char.isWhitespace)

/-- Models the isNaN test of the routes: isIndexSeg s is true exactly
when !isNaN(parseInt(s, 10)). -/
def isIndexSeg (s : String) : Bool :=
  (jsParseInt s).isSome

/-- A canonical JS array index string: "0" or digits without a leading
zero. Property access obj[key] treats exactly these keys as indices
(the 2^32 bound on array indices is ignored; no claim reaches it). -/
def canonIndex (s : String) : Option Nat :=
  match s.data with
  | [] => none
  | c :: rest =>
      if c = '0' then (if rest = [] then some 0 else none)
      else if c.isDigit ∧ rest.all Char.isDigit then some (digitsVal s.data)
      else none

/-- Model of JS String.prototype.split on the separator dot: the
accumulator collects the current segment in reverse. -/
def splitDotAux : List Char → List Char → List String
  | [], acc => [String.mk acc.reverse]
  | c :: cs, acc =>
      if c = '.' then String.mk acc.reverse :: splitDotAux cs []
      else splitDotAux cs (c :: acc)

/-- Model of pathStr.split(fullstop) in the route helpers; the empty
string splits to a single empty segment, as in JS. -/
def jsSplitDot (s : String) : List String :=
  splitDotAux s.data []

/-- Key joining of flattenMicrotext: a falsy (empty) accumulated key is
replaced by the bare key. -/
def joinKey (pre key : String) : String :=
  if pre = "" then key else pre ++ "." ++ key

/-- The content tree held in the microtext frontmatter field: string
leaves, arrays, and JS objects as ordered field lists. -/
inductive Node where
  | leaf (s : String) : Node
  | arr (items : List Node) : Node
  | obj (fields : List (String × Node)) : Node
deriving Repr

/-- Structural induction for the nested inductive Node. -/
def Node.inductionOn {P : Node → Prop}
    (hleaf : ∀ s, P (.leaf s))
    (harr : ∀ items, (∀ x ∈ items, P x) → P (.arr items))
    (hobj : ∀ fs, (∀ p ∈ fs, P p.2) → P (.obj fs)) : ∀ v, P v
  | .leaf s => hleaf s
  | .arr items => harr items (fun x hx =>
      have : sizeOf x < 1 + sizeOf items :=
        Nat.lt_of_lt_of_le (List.sizeOf_lt_of_mem hx) (by omega)
      Node.inductionOn hleaf harr hobj x)
  | .obj fs => hobj fs (fun p hp =>
      have h1 : sizeOf p < sizeOf fs := List.sizeOf_lt_of_mem hp
      have h2 : sizeOf p.2 < sizeOf p := by
        obtain ⟨a, b⟩ := p; simp
      have : sizeOf p.2 < 1 + sizeOf fs := by omega
      Node.inductionOn hleaf harr hobj p.2)
termination_by v => sizeOf v

mutual
/-- Boolean equality on Node. -/
def Node.beq : Node → Node → Bool
  | .leaf a, .leaf b => a == b
  | .arr a, .arr b => Node.beqItems a b
  | .obj a, .obj b => Node.beqFields a b
  | _, _ => false
/-- Boolean equality on item lists. -/
def Node.beqItems : List Node → List Node → Bool
  | [], [] => true
  | x :: xs, y :: ys => Node.beq x y && Node.beqItems xs ys
  | _, _ => false
/-- Boolean equality on field lists. -/
def Node.beqFields : List (String × Node) → List (String × Node) → Bool
  | [], [] => true
  | (k1, v1) :: xs, (k2, v2) :: ys =>
      k1 == k2 && Node.beq v1 v2 && Node.beqFields xs ys
  | _, _ => false
end

mutual
theorem Node.beq_iff : ∀ a b : Node, Node.beq a b = true ↔ a = b
  | .leaf a, .leaf b => by
      simp [Node.beq]
  | .leaf _, .arr _ => by simp [Node.beq]
  | .leaf _, .obj _ => by simp [Node.beq]
  | .arr _, .leaf _ => by simp [Node.beq]
  | .arr a, .arr b => by
      simp [Node.beq, Node.beqItems_iff a b]
  | .arr _, .obj _ => by simp [Node.beq]
  | .obj _, .leaf _ => by simp [Node.beq]
  | .obj _, .arr _ => by simp [Node.beq]
  | .obj a, .obj b => by
      simp [Node.beq, Node.beqFields_iff a b]

theorem Node.beqItems_iff : ∀ a b : List Node, Node.beqItems a b = true ↔ a = b
  | [], [] => by simp [Node.beqItems]
  | [], _ :: _ => by simp [Node.beqItems]
  | _ :: _, [] => by simp [Node.beqItems]
  | x :: xs, y :: ys => by
      simp [Node.beqItems, Node.beq_iff x y, Node.beqItems_iff xs ys]

theorem Node.beqFields_iff :
    ∀ a b : List (String × Node), Node.beqFields a b = true ↔ a = b
  | [], [] => by simp [Node.beqFields]
  | [], _ :: _ => by simp [Node.beqFields]
  | _ :: _, [] => by simp [Node.beqFields]
  | (k1, v1) :: xs, (k2, v2) :: ys => by
      simp [Node.beqFields, Node.beq_iff v1 v2, Node.beqFields_iff xs ys, and_assoc]
end

instance : DecidableEq Node := fun a b =>
  decidable_of_iff (Node.beq a b = true) (Node.beq_iff a b)

/-- JS object property read: first binding of the key. -/
def objGet : List (String × Node) → String → Option Node
  | [], _ => none
  | (k, v) :: fs, key => if k = key then some v else objGet fs key

/-- JS object property write: overwrite in place, else append, which is
exactly JS insertion-order semantics for non-integer keys. -/
def objSet : List (String × Node) → String → Node → List (String × Node)
  | [], key, v => [(key, v)]
  | (k, w) :: fs, key, v =>
      if k = key then (k, v) :: fs else (k, w) :: objSet fs key v

/-- Property read current[key] as the setNestedValue walk performs it:
raw key on objects, canonical-index access on arrays, and character
access on strings (a character is a fresh one-character string). -/
def childGetForSet : Node → String → Option Node
  | .obj fs, key => objGet fs key
  | .arr items, key => (canonIndex key).bind fun i => items.get? i
  | .leaf s, key =>
      (canonIndex key).bind fun i => (s.data.get? i).map fun c => .leaf (String.mk [c])

/-- Property write current[key] = v with a raw key, as in the
microtext-array setNestedValue last step and in container creation.
On arrays a canonical index replaces or appends; a non-index key makes
an expando property that YAML serialization drops (visible tree
unchanged); an index past the length makes a sparse array (undefined
behavior, none); on a string primitive the assignment throws (none). -/
def childStore : Node → String → Node → Option Node
  | .obj fs, key, v => some (.obj (objSet fs key v))
  | .arr items, key, v =>
      match canonIndex key with
      | some i =>
          if i < items.length then some (.arr (items.set i v))
          else if i = items.length then some (.arr (items ++ [v]))
          else none
      | none => some (.arr items)
  | .leaf _, _, _ => none

/-- Functional update at a slot where the walk already found a child;
used to model in-place mutation through a live reference. -/
def replaceAt : Node → String → Node → Node
  | .obj fs, key, v => .obj (objSet fs key v)
  | .arr items, key, v =>
      match canonIndex key with
      | some i => .arr (items.set i v)
      | none => .arr items
  | .leaf s, _, _ => .leaf s

/-- Last step of the ai-edit and microtext setNestedValue: the last key
is parsed with parseInt; a parsed index on an array writes that index
(replace or append; negative indices become invisible properties and
beyond-length writes are sparse, hence none); otherwise the raw
property is written. -/
def setLastParsed (cur : Node) (lastKey : String) (v : Node) : Option Node :=
  match cur with
  | .arr items =>
      match jsParseInt lastKey with
      | some i =>
          if i < 0 then some (.arr items)
          else if i.toNat < items.length then some (.arr (items.set i.toNat v))
          else if i.toNat = items.length then some (.arr (items ++ [v]))
          else none
      | none => some (.arr items)
  | .obj fs => some (.obj (objSet fs lastKey v))
  | .leaf _ => none

/-- The fresh container created for a missing intermediate slot: the
type is chosen by the next path segment (numeric means array). -/
def freshFor (next : String) : Node :=
  if isIndexSeg next then .arr [] else .obj []

/-- The setNestedValue walk over split path segments. lastRaw selects
the last-step variant: false for the ai-edit and microtext routes
(parseInt on the last key), true for the microtext-array route (raw
property write). A missing intermediate slot is created with freshFor;
on an array only an append-position canonical index is representable
(an expando slot leaves the visible tree unchanged, a sparse slot is
undefined). none models a request that ends in a 500 with no write. -/
def setSegs (lastRaw : Bool) : Node → List String → Node → Option Node
  | cur, [last], v => if lastRaw then childStore cur last v else setLastParsed cur last v
  | cur, key :: next :: rest, v =>
      match childGetForSet cur key with
      | some c =>
          match setSegs lastRaw c (next :: rest) v with
          | none => none
          | some c2 => some (replaceAt cur key c2)
      | none =>
          match cur with
          | .leaf _ => none
          | .obj fs =>
              match setSegs lastRaw (freshFor next) (next :: rest) v with
              | none => none
              | some c2 => some (.obj (objSet fs key c2))
          | .arr items =>
              match canonIndex key with
              | none => some (.arr items)
              | some i =>
                  if i = items.length then
                    match setSegs lastRaw (freshFor next) (next :: rest) v with
                    | none => none
                    | some c2 => some (.arr (items ++ [c2]))
                  else none
  | cur, [], _ => some cur

/-- setNestedValue of the ai-edit route and of the microtext route
(the two files contain the identical function). -/
def setNestedValue (root : Node) (pathStr : String) (v : Node) : Option Node :=
  setSegs false root (jsSplitDot pathStr) v

/-- One reduce step of getNestedValue: parseInt index access on arrays,
raw property access otherwise (character access on strings). -/
def getStep (cur : Option Node) (key : String) : Option Node :=
  match cur with
  | none => none
  | some (.arr items) =>
      match jsParseInt key with
      | some i => if 0 ≤ i ∧ i.toNat < items.length then items.get? i.toNat else none
      | none => none
  | some (.obj fs) => objGet fs key
  | some (.leaf s) =>
      (canonIndex key).bind fun i => (s.data.get? i).map fun c => .leaf (String.mk [c])

/-- The getNestedValue reduce over already split segments. -/
def getNestedSegs (root : Node) (segs : List String) : Option Node :=
  segs.foldl getStep (some root)

/-- getNestedValue of the microtext route (dot path, parseInt array
indices, undefined propagation). -/
def getNestedValue (root : Node) (pathStr : String) : Option Node :=
  getNestedSegs root (jsSplitDot pathStr)

/-- Decimal digit characters. -/
def digitChar : Nat → Char
  | 0 => '0'
  | 1 => '1'
  | 2 => '2'
  | 3 => '3'
  | 4 => '4'
  | 5 => '5'
  | 6 => '6'
  | 7 => '7'
  | 8 => '8'
  | _ => '9'

/-- Decimal digits of a positive number, most significant first; the
fuel bounds the recursion and the number itself is always enough. -/
def natDigits : Nat → Nat → List Char
  | 0, _ => []
  | fuel + 1, n => if n = 0 then [] else natDigits fuel (n / 10) ++ [digitChar (n % 10)]

/-- Decimal rendering of an array index, as JS template interpolation
renders a number: the digits without sign, leading zeros or exponent. -/
def natStr (n : Nat) : String :=
  if n = 0 then "0" else String.mk (natDigits n n)

mutual
/-- flattenMicrotext on one value at its accumulated key. String
leaves emit one entry (the source emits them from the parent loop;
hoisting the emission into the child is the same entry list). -/
def flattenVal : Node → String → List (String × String)
  | .leaf s, full => [(full, s)]
  | .arr items, full => flattenItems items full 0
  | .obj fs, full => flattenFields fs full
/-- flattenMicrotext over object entries in insertion order. -/
def flattenFields : List (String × Node) → String → List (String × String)
  | [], _ => []
  | (k, v) :: fs, pre => flattenVal v (joinKey pre k) ++ flattenFields fs pre
/-- flattenMicrotext over array items with the running index. -/
def flattenItems : List Node → String → Nat → List (String × String)
  | [], _, _ => []
  | it :: its, pre, i => flattenVal it (joinKey pre (natStr i)) ++ flattenItems its pre (i + 1)
end

/-- flattenMicrotext of the ai-edit route (the MCP server carries the
identical helper): depth-first emission of one path-value entry per
string leaf, starting from the empty key accumulator. -/
def flattenMicrotext (root : Node) : List (String × String) :=
  flattenVal root ""

/-- A parsed MDX file: the frontmatter field list and the opaque MDX
body. The matter parse and matter.stringify calls of the routes are
modelled as identities on this parsed representation. -/
structure MdxDoc where
  front : List (String × Node)
  body : String
deriving Repr, DecidableEq

/-- JS truthiness of a frontmatter value: a missing field and an
empty-string leaf are falsy; containers and other strings are truthy. -/
def truthy : Option Node → Bool
  | none => false
  | some (.leaf s) => !(s == "")
  | some (.arr _) => true
  | some (.obj _) => true

/-- The ensure step of the mutating routes: when frontmatter.microtext
is falsy it is replaced by a fresh empty object; returns the updated
field list together with the microtext value the route works on. -/
def ensuredMicrotext (front : List (String × Node)) : List (String × Node) × Node :=
  match objGet front "microtext" with
  | some v => if truthy (some v) then (front, v)
              else (objSet front "microtext" (.obj []), .obj [])
  | none => (objSet front "microtext" (.obj []), .obj [])

/-- Outcome of a route handler on one parsed document: err carries the
status of an error response, and the file is then never written. -/
inductive RouteResult (α : Type) where
  | ok (doc : MdxDoc) (out : α)
  | err (status : Nat) (msg : String)
deriving Repr, DecidableEq

/-- POST /api/microtext after the file has been located and read:
validates id, ensures microtext, reads the old value (nested get for
dotted ids, raw property read otherwise), writes the new value, and
reconstructs the file around the unchanged body. A thrown TypeError
from the setter is a 500 with no write. -/
def microtextPost (doc : MdxDoc) (id value : String) : RouteResult (Option Node) :=
  if id = "" then .err 400 "Missing required fields: id, value"
  else
    let p := ensuredMicrotext doc.front
    let dotted := id.data.contains '.'
    let oldValue := if dotted then getNestedValue p.2 id else childGetForSet p.2 id
    let newMt := if dotted then setNestedValue p.2 id (.leaf value)
                 else childStore p.2 id (.leaf value)
    match newMt with
    | none => .err 500 "Failed to update microtext"
    | some mt2 => .ok ⟨objSet p.1 "microtext" mt2, doc.body⟩ oldValue

namespace ArrayApi

/-- getNestedValue of the microtext-array route: identical to the
microtext one except that a falsy (empty) path returns the whole
object. -/
def getNestedValue (root : Node) (pathStr : String) : Option Node :=
  if pathStr = "" then some root
  else VibeEditor.getNestedSegs root (VibeEditor.jsSplitDot pathStr)

/-- setNestedValue of the microtext-array route: the last step writes
the raw property instead of parsing the last key as an index. -/
def setNestedValue (root : Node) (pathStr : String) (v : Node) : Option Node :=
  VibeEditor.setSegs true root (VibeEditor.jsSplitDot pathStr) v

end ArrayApi

/-- Functional image of the in-place splice or push on an array the
getter resolved inside the tree: rebuild the tree with the new value
at the resolved location, mirroring the getNestedValue walk. Branches
the getter could not have taken return the tree unchanged; they are
unreachable when the getter resolved an array through this path. -/
def updateAtGet : Node → List String → Node → Node
  | _, [], newv => newv
  | cur, k :: ks, newv =>
      match cur with
      | .obj fs =>
          match objGet fs k with
          | some c => .obj (objSet fs k (updateAtGet c ks newv))
          | none => .obj fs
      | .arr items =>
          match jsParseInt k with
          | some i =>
              if 0 ≤ i then
                match items.get? i.toNat with
                | some c => .arr (items.set i.toNat (updateAtGet c ks newv))
                | none => .arr items
              else .arr items
          | none => .arr items
      | .leaf s => .leaf s

/-- The two actions of the microtext-array route. -/
inductive ArrAction where
  | add
  | remove
deriving Repr, DecidableEq

/-- The result object of a successful array operation. -/
structure ArrayOpOut where
  action : ArrAction
  arrayPath : String
  index : Int
  item : Node
  newLength : Nat
deriving Repr, DecidableEq

/-- Shared tail of the array route: the in-place mutation when the
array was aliased from the tree, the redundant write-back (a thrown
error is a 500 with no file write) and the file reconstruction around
the unchanged body. -/
def arrayFinish (front1 : List (String × Node)) (body : String) (mt : Node)
    (aliased : Bool) (arrayPath : String) (arr1 : List Node) (out : ArrayOpOut) :
    RouteResult ArrayOpOut :=
  let mtMid := if aliased then updateAtGet mt (jsSplitDot arrayPath) (.arr arr1) else mt
  match ArrayApi.setNestedValue mtMid arrayPath (.arr arr1) with
  | none => .err 500 "Failed to modify array"
  | some mtFin => .ok ⟨objSet front1 "microtext" mtFin, body⟩ out

/-- POST /api/microtext-array after the file has been located and
read: validation, array lookup (a path not holding an array defaults
to a fresh, unaliased empty array), push or bounds-checked splice,
then the shared write-back tail. -/
def arrayPost (doc : MdxDoc) (arrayPath : String) (action : ArrAction)
    (index : Option Int) (template : Option Node) : RouteResult ArrayOpOut :=
  if arrayPath = "" then .err 400 "Missing required fields: arrayPath, action"
  else if action = .remove ∧ index = none then .err 400 "index is required for remove action"
  else
    let p := ensuredMicrotext doc.front
    let found := ArrayApi.getNestedValue p.2 arrayPath
    let arr0 : List Node := match found with | some (.arr l) => l | _ => []
    let aliased : Bool := match found with | some (.arr _) => true | _ => false
    match action with
    | .add =>
        let newItem := template.getD
          (.obj [("title", .leaf "New Item"), ("desc", .leaf "Description")])
        arrayFinish p.1 doc.body p.2 aliased arrayPath (arr0 ++ [newItem])
          ⟨.add, arrayPath, (arr0.length : Int), newItem, arr0.length + 1⟩
    | .remove =>
        match index with
        | none => .err 400 "index is required for remove action"
        | some i =>
            if i < 0 ∨ (arr0.length : Int) ≤ i then
              .err 400 "Index out of bounds"
            else
              match arr0.get? i.toNat with
              | none => .err 400 "Index out of bounds"
              | some removed =>
                  arrayFinish p.1 doc.body p.2 aliased arrayPath (arr0.eraseIdx i.toNat)
                    ⟨.remove, arrayPath, i, removed, (arr0.eraseIdx i.toNat).length⟩

/-- One proposed edit of the ai-edit interpreter. -/
structure MicrotextChange where
  id : String
  oldValue : String
  newValue : String
  reasoning : String
deriving Repr, DecidableEq

/-- applyChanges of the ai-edit route: re-reads the page, requires a
truthy microtext, applies every change unconditionally with
setNestedValue (the oldValue of a change is never compared against
the live value), and writes back around the unchanged body. none is a
thrown error: 500, no write. -/
def applyChanges (doc : MdxDoc) (changes : List MicrotextChange) : Option MdxDoc :=
  match objGet doc.front "microtext" with
  | none => none
  | some mt =>
      if truthy (some mt) = false then none
      else
        match changes.foldlM (fun t ch => setNestedValue t ch.id (.leaf ch.newValue)) mt with
        | none => none
        | some mt2 => some ⟨objSet doc.front "microtext" mt2, doc.body⟩

/-- Response of POST /api/ai-edit (status, success, the proposed
changes, and whether they were applied). -/
structure AiEditResp where
  status : Nat
  success : Bool
  changes : List MicrotextChange
  applied : Bool
deriving Repr, DecidableEq

/-- POST /api/ai-edit over the state of one page: validation, page
read, flatten for the interpreter, interpretation (the external
language-model call is the parameter interp, as the design notes
prescribe), and application through applyChanges only when the apply
flag is present and true. Returns the page state afterwards together
with the response. -/
def aiEditPost (page : Option MdxDoc) (instruction pageSlug : String)
    (applyFlag : Option Bool)
    (interp : String → List (String × String) → List MicrotextChange) :
    Option MdxDoc × AiEditResp :=
  let app := applyFlag.getD false
  if instruction = "" ∨ pageSlug = "" then (page, ⟨400, false, [], false⟩)
  else
    match page with
    | none => (page, ⟨404, false, [], false⟩)
    | some doc =>
        match objGet doc.front "microtext" with
        | none => (page, ⟨400, false, [], false⟩)
        | some mt =>
            if truthy (some mt) = false then (page, ⟨400, false, [], false⟩)
            else
              let changes := interp instruction (flattenMicrotext mt)
              if changes = [] then (page, ⟨200, true, [], false⟩)
              else if app then
                match applyChanges doc changes with
                | none => (page, ⟨500, false, [], false⟩)
                | some doc2 => (some doc2, ⟨200, true, changes, true⟩)
              else (page, ⟨200, true, changes, false⟩)

namespace PublishApi

/-- The version-control primitive the publish route shells out to,
which the spec treats as an atomic stage-plus-commit black box: the
pending porcelain status lines for the pages directory, and the
commits made so far. -/
structure GitState where
  changed : List String
  commits : List String
deriving Repr, DecidableEq

/-- Response of POST /api/publish. A no-op success carries no
filesChanged field at all, modelled as none. -/
structure PublishResp where
  status : Nat
  success : Bool
  filesChanged : Option Nat
deriving Repr, DecidableEq

/-- POST /api/publish: porcelain status of the pages directory; when
clean, a no-op success without commit; otherwise stage everything
under the pages directory, commit once with the supplied or generated
message, and report the number of status lines as filesChanged. -/
def publishPost (g : GitState) (message : Option String) (nowIso : String) :
    GitState × PublishResp :=
  let msg := match message with
    | some m => if m = "" then "Content update " ++ nowIso else m
    | none => "Content update " ++ nowIso
  if g.changed = [] then
    (g, ⟨200, true, none⟩)
  else
    ({ changed := [], commits := g.commits ++ [msg] },
     ⟨200, true, some g.changed.length⟩)

/-- GET /api/publish: the count of outstanding status lines. -/
def publishStatus (g : GitState) : Nat := g.changed.length

end PublishApi

namespace Store

/-- One localStorage draft entry. -/
structure DraftEdit where
  value : String
  timestamp : Nat
deriving Repr, DecidableEq

/-- The storage key of a microtext item. -/
def getKey (pageSlug id : String) : String := "vibe:" ++ pageSlug ++ ":" ++ id

/-- The whole localStorage, as ordered key-value pairs; localStorage
keys are unique, which theorems assume through a Nodup hypothesis. -/
abbrev LocalStorage := List (String × DraftEdit)

/-- The key namespace of one page. -/
def pageKeyStart (pageSlug : String) : String := "vibe:" ++ pageSlug ++ ":"

/-- Model of JS String.prototype.startsWith. -/
def jsStartsWith (s pre : String) : Bool := pre.data.isPrefixOf s.data

/-- Model of JS String.prototype.slice from a character position. -/
def jsSlice (s : String) (n : Nat) : String := String.mk (s.data.drop n)

/-- getPageDrafts: every stored key that starts with the page
namespace, with the namespace sliced off. -/
def getPageDrafts (ls : LocalStorage) (pageSlug : String) : List (String × DraftEdit) :=
  (ls.filter (fun e => jsStartsWith e.1 (pageKeyStart pageSlug))).map
    (fun e => (jsSlice e.1 (pageKeyStart pageSlug).length, e.2))

/-- clearDraft: localStorage.removeItem of the one draft key. -/
def clearDraft (ls : LocalStorage) (pageSlug id : String) : LocalStorage :=
  ls.filter (fun e => e.1 ≠ getKey pageSlug id)

/-- Result of syncDraftsToServer. -/
structure SyncResult where
  success : Bool
  synced : Nat
  errors : List String
deriving Repr, DecidableEq

/-- The per-entry loop of syncDraftsToServer over the snapshot of the
page drafts: POST each entry (the server outcome is srv; a non-ok
response and a thrown network error both record an error), clear the
entry on success, keep it and continue on failure. -/
def syncLoop (pageSlug : String) (srv : String → String → Bool) :
    List (String × DraftEdit) → LocalStorage → Nat → List String →
    LocalStorage × Nat × List String
  | [], ls, synced, errors => (ls, synced, errors)
  | (id, d) :: rest, ls, synced, errors =>
      if srv id d.value then
        syncLoop pageSlug srv rest (clearDraft ls pageSlug id) (synced + 1) errors
      else
        syncLoop pageSlug srv rest ls synced (errors ++ [id ++ ": Failed"])

/-- syncDraftsToServer: snapshot the page drafts, then run the loop;
success means no error was recorded. -/
def syncDraftsToServer (ls : LocalStorage) (pageSlug : String)
    (srv : String → String → Bool) : LocalStorage × SyncResult :=
  let drafts := getPageDrafts ls pageSlug
  if drafts = [] then (ls, ⟨true, 0, []⟩)
  else
    let r := syncLoop pageSlug srv drafts ls 0 []
    (r.1, ⟨r.2.2.isEmpty, r.2.1, r.2.2⟩)

/-- Concrete storage used by the sync witness: two drafts of the page
home and one of another page. -/
def syncLsW : LocalStorage :=
  [("vibe:home:a", ⟨"1", 5⟩), ("vibe:home:b", ⟨"2", 6⟩), ("vibe:blog:c", ⟨"3", 7⟩)]

/-- Concrete server outcome used by the sync witness: the write of key
a succeeds and every other write fails. -/
def syncSrvW : String → String → Bool := fun id _ => id == "a"

end Store

/-- Posix path segment normalization: collapse empty and single-dot
segments, resolve a dot-dot segment against the collected segments,
keep leading dot-dot segments for relative paths and drop them for
absolute ones. Models the Node path.normalize calls of the route
files; trailing-slash preservation is not modelled (no claim reaches
it). -/
def normSegs (absolute : Bool) : List String → List String → List String
  | [], acc => acc.reverse
  | "" :: rest, acc => normSegs absolute rest acc
  | "." :: rest, acc => normSegs absolute rest acc
  | ".." :: rest, acc =>
      match acc with
      | [] => if absolute then normSegs absolute rest []
              else normSegs absolute rest [".."]
      | ".." :: _ => normSegs absolute rest (".." :: acc)
      | _ :: acc2 => normSegs absolute rest acc2
  | s :: rest, acc => normSegs absolute rest (s :: acc)

/-- Splitting a character list at every slash, as String.split does on
the path separator. -/
def splitSlash : List Char → List Char → List String
  | [], acc => [String.mk acc.reverse]
  | c :: rest, acc =>
      if c = '/' then String.mk acc.reverse :: splitSlash rest []
      else splitSlash rest (c :: acc)

/-- Joining path segments back with slashes. -/
def joinSegs : List String → String
  | [] => ""
  | [a] => a
  | a :: rest => a ++ "/" ++ joinSegs rest

/-- Model of Node path.normalize on posix paths. -/
def pathNormalize (p : String) : String :=
  if p = "" then "."
  else
    let absolute := Store.jsStartsWith p "/"
    let core := joinSegs (normSegs absolute (splitSlash p.data []) [])
    if absolute then "/" ++ core
    else if core = "" then "." else core

/-- Model of Node path.join of two parts: concatenation with a
separator, then normalization. -/
def pathJoin (a b : String) : String := pathNormalize (a ++ "/" ++ b)

/-- One step of the anchored replace of the routes, which strips a
maximal leading run of dot-dot components, each closed by a slash, a
backslash, or the end of the string. -/
def stripDotDotAux : Nat → String → String
  | 0, s => s
  | fuel + 1, s =>
      if s = ".." then ""
      else if Store.jsStartsWith s "../" ∨ Store.jsStartsWith s "..\\" then
        stripDotDotAux fuel (Store.jsSlice s 3)
      else s

/-- The traversal-stripping replace applied to the normalized slug. -/
def stripDotDot (s : String) : String := stripDotDotAux s.length s

/-- The ambient filesystem for the path-safety claims: realpath is
canonicalization following symlinks (none when the file does not
exist); contents maps canonical paths to parsed documents. -/
structure Fs where
  realpath : String → Option String
  contents : String → Option MdxDoc

/-- Writing a file follows symlinks: the contents at the canonical
location of the target are replaced. -/
def Fs.write (fs : Fs) (p : String) (d : MdxDoc) : Fs :=
  { fs with contents := fun q =>
      if q = ((fs.realpath p).getD p) then some d else fs.contents q }

/-- The fixed content root of every route file. -/
def pagesDir (cwd : String) : String := pathJoin cwd "src/pages"

/-- File resolution outcome of POST /api/microtext. -/
inductive Resolved where
  | notFound
  | invalid
  | ok (filePath realPath : String)
deriving Repr, DecidableEq

/-- File resolution of POST /api/microtext: empty slug means index;
normalize, strip leading traversal components; realpath of slug.mdx,
else of slug/index.mdx, else 404; a canonical location outside the
pages directory is a 403 Invalid path, checked before any read. -/
def resolveMicrotextPost (fs : Fs) (cwd slug0 : String) : Resolved :=
  let slug := if slug0 = "" then "index" else slug0
  let safe := stripDotDot (pathNormalize slug)
  let fp1 := pathJoin (pagesDir cwd) (safe ++ ".mdx")
  match fs.realpath fp1 with
  | some rp => if Store.jsStartsWith rp (pagesDir cwd) then .ok fp1 rp else .invalid
  | none =>
      let fp2 := pathJoin (pathJoin (pagesDir cwd) safe) "index.mdx"
      match fs.realpath fp2 with
      | some rp => if Store.jsStartsWith rp (pagesDir cwd) then .ok fp2 rp else .invalid
      | none => .notFound

/-- getFilePath of the microtext-array route: the same resolution, but
every failure, including a canonical location outside the pages
directory, falls through to null; the route reports null as a 404
Page not found. -/
def getFilePath (fs : Fs) (cwd slug0 : String) : Option String :=
  let slug := if slug0 = "" then "index" else slug0
  let safe := stripDotDot (pathNormalize slug)
  let fp1 := pathJoin (pagesDir cwd) (safe ++ ".mdx")
  match fs.realpath fp1 with
  | some rp => if Store.jsStartsWith rp (pagesDir cwd) then some fp1 else none
  | none =>
      let fp2 := pathJoin (pathJoin (pagesDir cwd) safe) "index.mdx"
      match fs.realpath fp2 with
      | some rp => if Store.jsStartsWith rp (pagesDir cwd) then some fp2 else none
      | none => none

/-- GET /api/microtext: lexical normalization and traversal stripping
only; no realpath containment check is performed before the read, so
the read goes through whatever canonical location the candidate path
resolves to. -/
def microtextGet (fs : Fs) (cwd slug0 : String) : Option MdxDoc :=
  let slug := if slug0 = "" then "index" else slug0
  let safe := stripDotDot (pathNormalize slug)
  let fp := pathJoin (pagesDir cwd) (safe ++ ".mdx")
  (fs.realpath fp).bind fs.contents

/-- POST /api/microtext at the route level over the ambient
filesystem: returns the filesystem afterwards, the response status,
and on success the reported previousValue. -/
def microtextRoute (fs : Fs) (cwd slug id value : String) :
    Fs × Nat × Option (Option Node) :=
  if id = "" then (fs, 400, none)
  else
    match resolveMicrotextPost fs cwd slug with
    | .notFound => (fs, 404, none)
    | .invalid => (fs, 403, none)
    | .ok fp rp =>
        match fs.contents rp with
        | none => (fs, 500, none)
        | some doc =>
            match microtextPost doc id value with
            | .err st _ => (fs, st, none)
            | .ok doc2 prev => (Fs.write fs fp doc2, 200, some prev)

/-- POST /api/microtext-array at the route level: validation first (as
in the source), then getFilePath, read, operate, write. -/
def arrayRoute (fs : Fs) (cwd slug arrayPath : String) (action : ArrAction)
    (index : Option Int) (template : Option Node) :
    Fs × Nat × Option ArrayOpOut :=
  if arrayPath = "" then (fs, 400, none)
  else if action = .remove ∧ index = none then (fs, 400, none)
  else
    match getFilePath fs cwd slug with
    | none => (fs, 404, none)
    | some fp =>
        match (fs.realpath fp).bind fs.contents with
        | none => (fs, 500, none)
        | some doc =>
            match arrayPost doc arrayPath action index template with
            | .err st _ => (fs, st, none)
            | .ok doc2 out => (Fs.write fs fp doc2, 200, some out)

/-- The file state after a route result: an error response means the
file was never written. -/
def afterDoc {α : Type} (r : RouteResult α) (doc : MdxDoc) : MdxDoc :=
  match r with
  | .ok d _ => d
  | .err _ _ => doc

/-- One replay step of the round-trip property: apply one flattened
entry with the targeted single-path write. -/
def applyEntry (acc : Option Node) (e : String × String) : Option Node :=
  acc.bind fun t => setNestedValue t e.1 (.leaf e.2)

/-- Replaying a flattened entry list over a starting tree with the
targeted single-path write of the routes. -/
def replayFlat (entries : List (String × String)) (start : Node) : Option Node :=
  entries.foldl applyEntry (some start)

/-- The round-trip of the flatten and unflatten-into pair: flatten,
then replay every emitted entry with setNestedValue starting from an
empty tree. -/
def roundTrip (root : Node) : Option Node :=
  replayFlat (flattenMicrotext root) (.obj [])

mutual
/-- Segment-level counterpart of flattenVal: the emitted key as its
list of path segments instead of the joined dotted string. -/
def segFlattenVal : Node → List (List String × String)
  | .leaf s => [([], s)]
  | .arr items => segItems items 0
  | .obj fs => segFields fs
/-- Segment-level counterpart of flattenFields. -/
def segFields : List (String × Node) → List (List String × String)
  | [] => []
  | (k, v) :: fs => (segFlattenVal v).map (fun e => (k :: e.1, e.2)) ++ segFields fs
/-- Segment-level counterpart of flattenItems. -/
def segItems : List Node → Nat → List (List String × String)
  | [], _ => []
  | it :: its, i =>
      (segFlattenVal it).map (fun e => (natStr i :: e.1, e.2)) ++ segItems its (i + 1)
end

/-- One replay step over already split path segments. -/
def applySegEntry (acc : Option Node) (e : List String × String) : Option Node :=
  acc.bind fun t => setSegs false t e.1 (.leaf e.2)

/-- Replaying segment-level entries over a starting tree. -/
def replaySegs (entries : List (List String × String)) (start : Node) : Option Node :=
  entries.foldl applySegEntry (some start)

/-- Dotted join of path segments. -/
def dotJoin : List String → String
  | [] => ""
  | [s] => s
  | s :: rest => s ++ "." ++ dotJoin rest

/-- A frontmatter key the round-trip keeps in place: nonempty, without
dots, and not index-like under parseInt. -/
def goodKey (k : String) : Bool :=
  !(k == "") && k.data.all (fun c => c != '.') && !(isIndexSeg k)

/-- Pairwise-distinct keys of a field list. -/
def distinctKeys : List (String × Node) → Bool
  | [] => true
  | (k, _) :: fs => !(fs.any (fun e => e.1 == k)) && distinctKeys fs

mutual
/-- A value the flatten entries can rebuild: containers are nonempty
and object keys are good and distinct. -/
def goodVal : Node → Bool
  | .leaf _ => true
  | .arr items => !(items.isEmpty) && goodItems items
  | .obj fs => !(fs.isEmpty) && distinctKeys fs && goodFields fs
/-- goodVal over array items. -/
def goodItems : List Node → Bool
  | [] => true
  | it :: its => goodVal it && goodItems its
/-- goodVal over object fields, together with the key conditions. -/
def goodFields : List (String × Node) → Bool
  | [] => true
  | (k, v) :: fs => goodKey k && goodVal v && goodFields fs
end

/-- A microtext root the flatten entries rebuild exactly: an object of
good bindings (the root itself may be empty). -/
def goodRoot : Node → Bool
  | .obj fs => distinctKeys fs && goodFields fs
  | _ => false

/-- The empty container of the same kind: the state from which the
replay rebuilds a container. -/
def emptyLike : Node → Node
  | .leaf s => .leaf s
  | .arr _ => .arr []
  | .obj _ => .obj []

/-- A path segment the dotted join and split keep intact: nonempty and
without dots. -/
def goodSeg (s : String) : Bool :=
  !(s == "") && s.data.all (fun c => c != '.')

/-- One container distinguishes the written key from an observed key:
objects by the raw property name, arrays by the parseInt reading both
walks use; on a string leaf every write throws, so any key pair is
vacuously distinguished. -/
def stepDiverges : Node → String → String → Bool
  | .obj _, k, k2 => !(k2 == k)
  | .arr _, k, k2 => !(jsParseInt k2 == jsParseInt k)
  | .leaf _, _, _ => true

/-- The observed path q departs from the written path p inside the
existing tree: the two walks either address different slots of the
current container now, or enter the same existing child and diverge
below it. A q that never leaves p (a prefix, an extension, or a path
entering a slot the write creates) is part of the addressed subtree
and is not certified. -/
def diverges : Node → List String → List String → Bool
  | cur, k :: rest, k2 :: rest2 =>
      stepDiverges cur k k2 ||
      (k2 == k &&
        match childGetForSet cur k with
        | some c => diverges c rest rest2
        | none => false)
  | _, _, _ => false

/-- The microtext tree of a parsed document (an absent field reads as
the empty object, as the routes ensure before writing). -/
def microtextOf (doc : MdxDoc) : Node :=
  (objGet doc.front "microtext").getD (.obj [])

/-- Document used by the mutation-frame witness: two sibling microtext
bindings beside the ones the witness mutations address. -/
def frameW : MdxDoc :=
  ⟨[("title", .leaf "T"),
    ("microtext", .obj [("a", .leaf "1"), ("b", .obj [("c", .leaf "2")]),
      ("arr", .arr [.leaf "x", .leaf "y"])])], "BODY"⟩

/-- The first candidate location tried by both route resolvers: the
slug (empty meaning index), normalized and stripped of leading
traversal components, joined under the pages directory with the mdx
extension. -/
def firstCandidate (cwd slug0 : String) : String :=
  pathJoin (pagesDir cwd)
    (stripDotDot (pathNormalize (if slug0 = "" then "index" else slug0)) ++ ".mdx")

/-- Filesystem with a page file whose canonical location (through a
symlink) lies outside the pages directory. -/
def fsOutW : Fs where
  realpath := fun p =>
    if p = "/site/src/pages/evil.mdx" then some "/etc/secret.mdx" else none
  contents := fun p =>
    if p = "/etc/secret.mdx" then
      some ⟨[("microtext", .obj [("k", .leaf "classified")])], "SECRET"⟩
    else none

/-- Filesystem with a page file whose canonical location lies in a
prefix-sharing sibling of the pages directory (src/pages-backup): the
location is outside the pages directory but passes the string-prefix
containment test of the routes. -/
def fsSibW : Fs where
  realpath := fun p =>
    if p = "/site/src/pages/evil2.mdx" then some "/site/src/pages-backup/secret.mdx"
    else none
  contents := fun p =>
    if p = "/site/src/pages-backup/secret.mdx" then
      some ⟨[("microtext", .obj [("k", .leaf "old")])], "B"⟩
    else none

theorem objGet_objSet_self (fs : List (String × Node)) (k : String) (v : Node) :
    objGet (objSet fs k v) k = some v := by
  induction fs with
  | nil => simp [objSet, objGet]
  | cons p fs ih =>
      obtain ⟨k1, v1⟩ := p
      by_cases h : k1 = k <;> simp [objSet, objGet, h, ih]

theorem objGet_objSet_ne (fs : List (String × Node)) (k k2 : String) (v : Node)
    (h : k2 ≠ k) : objGet (objSet fs k v) k2 = objGet fs k2 := by
  induction fs with
  | nil =>
      simp only [objSet, objGet]
      rw [if_neg (fun hh => h hh.symm)]
  | cons p fs ih =>
      obtain ⟨k1, v1⟩ := p
      by_cases h1 : k1 = k
      · subst h1
        simp only [objSet, if_pos rfl, objGet]
        rw [if_neg (fun hh => h hh.symm), if_neg (fun hh => h hh.symm)]
      · simp only [objSet, if_neg h1, objGet, ih]

theorem objSet_filter_ne (fs : List (String × Node)) (k : String) (v : Node) :
    (objSet fs k v).filter (fun e => e.1 != k) = fs.filter (fun e => e.1 != k) := by
  induction fs with
  | nil => simp [objSet]
  | cons p fs ih =>
      obtain ⟨k1, v1⟩ := p
      by_cases h1 : k1 = k
      · subst h1
        simp [objSet]
      · simp [objSet, h1, List.filter_cons, ih]

/-- The non-microtext frontmatter fields, in order. -/
def headerFields (front : List (String × Node)) : List (String × Node) :=
  front.filter (fun e => e.1 != "microtext")

theorem ensuredMicrotext_headers (front : List (String × Node)) :
    headerFields (ensuredMicrotext front).1 = headerFields front := by
  unfold ensuredMicrotext headerFields
  cases hm : objGet front "microtext" with
  | none => simp [objSet_filter_ne]
  | some v => by_cases ht : truthy (some v) <;> simp [ht, objSet_filter_ne]

theorem headerFields_objSet (fs : List (String × Node)) (v : Node) :
    headerFields (objSet fs "microtext" v) = headerFields fs :=
  objSet_filter_ne fs "microtext" v

theorem microtextPost_preserves (doc : MdxDoc) (id value : String) :
    (afterDoc (microtextPost doc id value) doc).body = doc.body ∧
    headerFields (afterDoc (microtextPost doc id value) doc).front
      = headerFields doc.front := by
  unfold microtextPost
  dsimp only
  repeat' split
  all_goals simp [afterDoc, headerFields_objSet, ensuredMicrotext_headers]

theorem arrayFinish_preserves (doc : MdxDoc) (front1 : List (String × Node)) (mt : Node)
    (aliased : Bool) (arrayPath : String) (arr1 : List Node) (out : ArrayOpOut)
    (hf : headerFields front1 = headerFields doc.front) :
    (afterDoc (arrayFinish front1 doc.body mt aliased arrayPath arr1 out) doc).body
      = doc.body ∧
    headerFields (afterDoc (arrayFinish front1 doc.body mt aliased arrayPath arr1 out) doc).front
      = headerFields doc.front := by
  unfold arrayFinish
  dsimp only
  split
  · exact ⟨rfl, rfl⟩
  · exact ⟨rfl, by simp [afterDoc, headerFields_objSet, hf]⟩

theorem arrayPost_preserves (doc : MdxDoc) (arrayPath : String)
    (action : ArrAction) (index : Option Int) (template : Option Node) :
    (afterDoc (arrayPost doc arrayPath action index template) doc).body = doc.body ∧
    headerFields (afterDoc (arrayPost doc arrayPath action index template) doc).front
      = headerFields doc.front := by
  unfold arrayPost
  dsimp only
  repeat' split
  all_goals first
    | exact ⟨rfl, rfl⟩
    | exact arrayFinish_preserves doc _ _ _ _ _ _ (ensuredMicrotext_headers doc.front)

theorem applyChanges_preserves (doc : MdxDoc) (changes : List MicrotextChange) :
    ((applyChanges doc changes).getD doc).body = doc.body ∧
    headerFields ((applyChanges doc changes).getD doc).front = headerFields doc.front := by
  unfold applyChanges
  repeat' split
  all_goals simp [headerFields_objSet]

theorem foldlM_set_ignores_oldValue (mt : Node) (chs : List MicrotextChange)
    (f g : MicrotextChange → String) :
    (chs.map fun ch => MicrotextChange.mk ch.id (f ch) ch.newValue (g ch)).foldlM
        (fun t ch => setNestedValue t ch.id (.leaf ch.newValue)) mt
      = chs.foldlM (fun t ch => setNestedValue t ch.id (.leaf ch.newValue)) mt := by
  induction chs generalizing mt with
  | nil => rfl
  | cons ch chs ih =>
      simp only [List.map_cons, List.foldlM_cons]
      cases setNestedValue mt ch.id (.leaf ch.newValue) with
      | none => rfl
      | some mt2 => exact ih mt2

/-- C1 amended: the ai-edit apply path performs no compare-and-set at
all. The outcome of applyChanges is entirely independent of the
oldValue carried by each proposed entry (and of its rationale): every
entry is written unconditionally, whether or not its expected old
value still matches the live value. -/
theorem applyChanges_ignores_oldValue (doc : MdxDoc) (chs : List MicrotextChange)
    (f g : MicrotextChange → String) :
    applyChanges doc (chs.map fun ch => MicrotextChange.mk ch.id (f ch) ch.newValue (g ch))
      = applyChanges doc chs := by
  unfold applyChanges
  split
  · rfl
  · split
    · rfl
    · rw [foldlM_set_ignores_oldValue]

/-- C1 counterexample: a proposed entry whose expected old value B no
longer matches the live value A is still written (the new value C
lands in the file), not skipped: the compare-and-set described by the
claim does not happen. -/
theorem applyChanges_writes_mismatched_entry :
    (flattenMicrotext (.obj [("headline", .leaf "A")])) = [("headline", "A")] ∧
    ("B" : String) ≠ "A" ∧
    applyChanges ⟨[("microtext", .obj [("headline", .leaf "A")])], "BODY"⟩
        [⟨"headline", "B", "C", "stale expectation"⟩]
      = some ⟨[("microtext", .obj [("headline", .leaf "C")])], "BODY"⟩ := by
  refine ⟨rfl, by decide, by decide⟩

/-- C10: when the apply flag of an ai-edit request is omitted or
false, the page file is left completely unchanged; the proposed
changes are only computed and returned. -/
theorem aiEdit_preview_leaves_file (page : Option MdxDoc)
    (instruction pageSlug : String)
    (interp : String → List (String × String) → List MicrotextChange) :
    (aiEditPost page instruction pageSlug none interp).1 = page ∧
    (aiEditPost page instruction pageSlug (some false) interp).1 = page := by
  constructor <;>
    · unfold aiEditPost
      dsimp only
      repeat' split
      all_goals first | rfl | simp_all [Option.getD]

namespace PublishApi

/-- C5 amended: with no pending status line, publish returns a no-op
success with no commit performed and no filesChanged field in the
response (the field is absent, not zero); otherwise it stages the
changed files, performs exactly one commit, and reports the count of
status lines as filesChanged. -/
theorem publish_noop_or_single_commit (g : GitState) (message : Option String)
    (nowIso : String) :
    (g.changed = [] → publishPost g message nowIso = (g, ⟨200, true, none⟩)) ∧
    (g.changed ≠ [] →
      (publishPost g message nowIso).1.changed = [] ∧
      (publishPost g message nowIso).1.commits.length = g.commits.length + 1 ∧
      (publishPost g message nowIso).2 = ⟨200, true, some g.changed.length⟩) := by
  constructor
  · intro h
    simp [publishPost, h]
  · intro h
    simp [publishPost, h]

/-- Witness for the publish theorem at two concrete repository
states: one clean, one with two changed files. -/
theorem publish_noop_or_single_commit_witness :
    (publishPost ⟨[], []⟩ none "2026-02-03" = (⟨[], []⟩, ⟨200, true, none⟩)) ∧
    ((publishPost ⟨["M a.mdx", "M b.mdx"], ["old"]⟩ (some "msg") "2026-02-03").1.changed = [] ∧
      (publishPost ⟨["M a.mdx", "M b.mdx"], ["old"]⟩ (some "msg") "2026-02-03").1.commits.length
        = ([("old" : String)]).length + 1 ∧
      (publishPost ⟨["M a.mdx", "M b.mdx"], ["old"]⟩ (some "msg") "2026-02-03").2
        = ⟨200, true, some ([("M a.mdx" : String), "M b.mdx"]).length⟩) :=
  ⟨(publish_noop_or_single_commit ⟨[], []⟩ none "2026-02-03").1 rfl,
   (publish_noop_or_single_commit ⟨["M a.mdx", "M b.mdx"], ["old"]⟩ (some "msg")
      "2026-02-03").2 (by decide)⟩

/-- C5 counterexample: on a clean state the publish response carries
no filesChanged field at all, so its filesChanged is not the number 0
the claim promises; the state is untouched. -/
theorem publish_noop_filesChanged_missing :
    (publishPost ⟨[], []⟩ none "2026-02-03").1 = ⟨[], []⟩ ∧
    (publishPost ⟨[], []⟩ none "2026-02-03").2.success = true ∧
    (publishPost ⟨[], []⟩ none "2026-02-03").2.filesChanged ≠ some 0 := by
  refine ⟨rfl, rfl, by decide⟩

end PublishApi

namespace Store

theorem getKey_eq (page id : String) : getKey page id = pageKeyStart page ++ id := rfl

theorem jsStartsWith_append (pre s : String) : jsStartsWith (pre ++ s) pre = true := by
  show (pre.data.isPrefixOf (pre ++ s).data) = true
  rw [String.data_append, List.isPrefixOf_iff_prefix]
  exact List.prefix_append pre.data s.data

theorem jsSlice_append (pre s : String) : jsSlice (pre ++ s) pre.length = s := by
  show String.mk ((pre ++ s).data.drop pre.data.length) = s
  rw [String.data_append, List.drop_left]

theorem jsStartsWith_key_recover (k pre : String) (h : jsStartsWith k pre = true) :
    pre ++ jsSlice k pre.length = k := by
  unfold jsStartsWith at h
  rw [List.isPrefixOf_iff_prefix] at h
  obtain ⟨t, ht⟩ := h
  have : jsSlice k pre.length = String.mk t := by
    unfold jsSlice
    rw [show k.data = pre.data ++ t from ht.symm,
        show pre.length = pre.data.length from rfl, List.drop_left]
  rw [this]
  apply String.ext
  rw [String.data_append, ← ht]

/-- The storage left by the sync loop: an entry is removed exactly
when some snapshot entry succeeded at its key. -/
theorem syncLoop_storage (page : String) (srv : String → String → Bool) :
    ∀ (entries : List (String × DraftEdit)) (ls : LocalStorage) (n : Nat)
      (errs : List String),
      (syncLoop page srv entries ls n errs).1
        = ls.filter (fun e =>
            !(entries.any (fun x => srv x.1 x.2.value && (e.1 == getKey page x.1)))) := by
  intro entries
  induction entries with
  | nil => intro ls n errs; simp [syncLoop]
  | cons x rest ih =>
      intro ls n errs
      obtain ⟨id, d⟩ := x
      by_cases hs : srv id d.value
      · simp only [syncLoop]
        rw [if_pos hs, ih]
        unfold clearDraft
        rw [List.filter_filter]
        apply List.filter_congr
        intro e _
        by_cases he : e.1 = getKey page id <;> simp [he, hs]
      · simp only [syncLoop]
        rw [if_neg hs, ih]
        apply List.filter_congr
        intro e _
        simp [hs]

/-- The synced count of the sync loop: one per successful entry. -/
theorem syncLoop_synced (page : String) (srv : String → String → Bool) :
    ∀ (entries : List (String × DraftEdit)) (ls : LocalStorage) (n : Nat)
      (errs : List String),
      (syncLoop page srv entries ls n errs).2.1
        = n + (entries.filter (fun x => srv x.1 x.2.value)).length := by
  intro entries
  induction entries with
  | nil => intro ls n errs; simp [syncLoop]
  | cons x rest ih =>
      intro ls n errs
      obtain ⟨id, d⟩ := x
      by_cases hs : srv id d.value
      · simp only [syncLoop]
        rw [if_pos hs, ih]
        simp [List.filter_cons, hs]
        omega
      · simp only [syncLoop]
        rw [if_neg hs, ih]
        simp [List.filter_cons, hs]

/-- The error list of the sync loop: one message per failed entry, in
order, appended after the incoming list; the loop never stops early. -/
theorem syncLoop_errors (page : String) (srv : String → String → Bool) :
    ∀ (entries : List (String × DraftEdit)) (ls : LocalStorage) (n : Nat)
      (errs : List String),
      (syncLoop page srv entries ls n errs).2.2
        = errs ++ (entries.filter (fun x => !(srv x.1 x.2.value))).map
            (fun x => x.1 ++ ": Failed") := by
  intro entries
  induction entries with
  | nil => intro ls n errs; simp [syncLoop]
  | cons x rest ih =>
      intro ls n errs
      obtain ⟨id, d⟩ := x
      by_cases hs : srv id d.value
      · simp only [syncLoop]
        rw [if_pos hs, ih]
        simp [List.filter_cons, hs]
      · simp only [syncLoop]
        rw [if_neg hs, ih]
        simp [List.filter_cons, hs]

theorem key_unique {β : Type} (l : List (String × β)) (h : (l.map Prod.fst).Nodup)
    {e1 e2 : String × β} (h1 : e1 ∈ l) (h2 : e2 ∈ l) (hk : e1.1 = e2.1) : e1 = e2 := by
  induction l with
  | nil => cases h1
  | cons a l ih =>
      simp only [List.map_cons, List.nodup_cons] at h
      rcases List.mem_cons.mp h1 with rfl | h1t
      · rcases List.mem_cons.mp h2 with rfl | h2t
        · rfl
        · exact absurd (hk ▸ List.mem_map_of_mem Prod.fst h2t) h.1
      · rcases List.mem_cons.mp h2 with rfl | h2t
        · exact absurd (hk ▸ List.mem_map_of_mem Prod.fst h1t) h.1
        · exact ih h.2 h1t h2t

/-- Page view of the storage left by the loop: exactly the failed
entries remain. -/
theorem getPageDrafts_after_filter (ls : LocalStorage) (page : String)
    (srv : String → String → Bool) (hnd : (ls.map Prod.fst).Nodup) :
    getPageDrafts (ls.filter (fun e =>
        !((getPageDrafts ls page).any (fun x =>
            srv x.1 x.2.value && (e.1 == getKey page x.1))))) page
      = (getPageDrafts ls page).filter (fun e => !(srv e.1 e.2.value)) := by
  unfold getPageDrafts
  rw [List.filter_filter, List.filter_map, List.filter_filter]
  apply congrArg
  apply List.filter_congr
  intro e he
  cases hp : jsStartsWith e.1 (pageKeyStart page) with
  | false => simp [hp]
  | true =>
      simp only [hp, Bool.and_true, Bool.true_and, Function.comp]
      cases hsrv : srv (jsSlice e.1 (pageKeyStart page).length) e.2.value with
      | true =>
          have hmem : (jsSlice e.1 (pageKeyStart page).length, e.2) ∈ getPageDrafts ls page := by
            unfold getPageDrafts
            exact List.mem_map_of_mem _ (List.mem_filter.mpr ⟨he, hp⟩)
          have hany : (getPageDrafts ls page).any (fun x =>
              srv x.1 x.2.value && (e.1 == getKey page x.1)) = true := by
            rw [List.any_eq_true]
            refine ⟨_, hmem, ?_⟩
            rw [hsrv, getKey_eq, jsStartsWith_key_recover e.1 (pageKeyStart page) hp]
            simp
          unfold getPageDrafts at hany
          rw [hany]
      | false =>
          have hany : (getPageDrafts ls page).any (fun x =>
              srv x.1 x.2.value && (e.1 == getKey page x.1)) = false := by
            rw [List.any_eq_false]
            intro x hx
            simp only [Bool.and_eq_true, beq_iff_eq, not_and]
            intro hx1 hx2
            unfold getPageDrafts at hx
            obtain ⟨e2, he2, rfl⟩ := List.mem_map.mp hx
            have he2f := List.mem_filter.mp he2
            have hkey : e.1 = e2.1 := by
              rw [hx2, getKey_eq]
              exact jsStartsWith_key_recover e2.1 (pageKeyStart page) he2f.2
            have : e = e2 := key_unique ls hnd he he2f.1 hkey
            subst this
            rw [hx1] at hsrv
            cases hsrv
          unfold getPageDrafts at hany
          rw [hany]

/-- C6: sync attempts a Document Store write for every pending draft
entry of the page; an entry is cleared from the cache exactly when its
write succeeds; a failed entry is left in place with its failure
recorded in the error list; remaining entries are still attempted
after a failure (every success counted, every failure reported); and
re-invoking sync after a partial failure only touches the entries
still pending, so a retry against the same outcomes leaves the
storage unchanged. -/
theorem syncDraftsToServer_empty (ls : LocalStorage) (page : String)
    (srv : String → String → Bool) (h : getPageDrafts ls page = []) :
    syncDraftsToServer ls page srv = (ls, ⟨true, 0, []⟩) := by
  simp only [syncDraftsToServer]
  rw [if_pos h]

theorem syncDraftsToServer_nonempty (ls : LocalStorage) (page : String)
    (srv : String → String → Bool) (h : ¬ getPageDrafts ls page = []) :
    syncDraftsToServer ls page srv
      = ((syncLoop page srv (getPageDrafts ls page) ls 0 []).1,
          ⟨(syncLoop page srv (getPageDrafts ls page) ls 0 []).2.2.isEmpty,
           (syncLoop page srv (getPageDrafts ls page) ls 0 []).2.1,
           (syncLoop page srv (getPageDrafts ls page) ls 0 []).2.2⟩) := by
  simp only [syncDraftsToServer]
  rw [if_neg h]

theorem syncDrafts_per_entry (ls : LocalStorage) (page : String)
    (srv : String → String → Bool) (hnd : (ls.map Prod.fst).Nodup) :
    getPageDrafts (syncDraftsToServer ls page srv).1 page
      = (getPageDrafts ls page).filter (fun e => !(srv e.1 e.2.value)) ∧
    (syncDraftsToServer ls page srv).2.synced
      = ((getPageDrafts ls page).filter (fun e => srv e.1 e.2.value)).length ∧
    (syncDraftsToServer ls page srv).2.errors
      = ((getPageDrafts ls page).filter (fun e => !(srv e.1 e.2.value))).map
          (fun e => e.1 ++ ": Failed") ∧
    (syncDraftsToServer (syncDraftsToServer ls page srv).1 page srv).1
      = (syncDraftsToServer ls page srv).1 := by
  by_cases hd : getPageDrafts ls page = []
  · rw [syncDraftsToServer_empty ls page srv hd]
    rw [syncDraftsToServer_empty ls page srv hd]
    simp [hd]
  · have h1 : getPageDrafts (syncDraftsToServer ls page srv).1 page
        = (getPageDrafts ls page).filter (fun e => !(srv e.1 e.2.value)) := by
      rw [syncDraftsToServer_nonempty ls page srv hd, syncLoop_storage]
      exact getPageDrafts_after_filter ls page srv hnd
    refine ⟨h1, ?_, ?_, ?_⟩
    · rw [syncDraftsToServer_nonempty ls page srv hd]
      rw [syncLoop_synced]
      simp
    · rw [syncDraftsToServer_nonempty ls page srv hd]
      rw [syncLoop_errors]
      simp
    · by_cases hd2 : getPageDrafts (syncDraftsToServer ls page srv).1 page = []
      · rw [syncDraftsToServer_empty _ page srv hd2]
      · rw [syncDraftsToServer_nonempty _ page srv hd2, syncLoop_storage]
        conv_rhs => rw [← List.filter_true (syncDraftsToServer ls page srv).1]
        apply List.filter_congr
        intro e _
        have hall : ∀ x ∈ getPageDrafts (syncDraftsToServer ls page srv).1 page,
            srv x.1 x.2.value = false := by
          intro x hx
          rw [h1] at hx
          have := (List.mem_filter.mp hx).2
          simpa using this
        have hany : (getPageDrafts (syncDraftsToServer ls page srv).1 page).any
            (fun x => srv x.1 x.2.value && (e.1 == getKey page x.1)) = false := by
          rw [List.any_eq_false]
          intro x hx
          simp [hall x hx]
        rw [hany]
        rfl

/-- Witness for the sync theorem at a concrete storage: the page home
holds drafts a and b, the write of a succeeds and the write of b
fails. -/
theorem syncDrafts_per_entry_witness :
    ((syncLsW.map Prod.fst).Nodup) ∧
    (getPageDrafts (syncDraftsToServer syncLsW "home" syncSrvW).1 "home"
      = (getPageDrafts syncLsW "home").filter (fun e => !(syncSrvW e.1 e.2.value)) ∧
    (syncDraftsToServer syncLsW "home" syncSrvW).2.synced
      = ((getPageDrafts syncLsW "home").filter (fun e => syncSrvW e.1 e.2.value)).length ∧
    (syncDraftsToServer syncLsW "home" syncSrvW).2.errors
      = ((getPageDrafts syncLsW "home").filter (fun e => !(syncSrvW e.1 e.2.value))).map
          (fun e => e.1 ++ ": Failed") ∧
    (syncDraftsToServer (syncDraftsToServer syncLsW "home" syncSrvW).1 "home" syncSrvW).1
      = (syncDraftsToServer syncLsW "home" syncSrvW).1) :=
  ⟨by decide, syncDrafts_per_entry syncLsW "home" syncSrvW (by decide)⟩

end Store

theorem list_set_of_get {α : Type} (l : List α) (i : Nat) (a : α)
    (h : l.get? i = some a) : l.set i a = l := by
  induction l generalizing i with
  | nil => simp at h
  | cons x xs ih =>
      cases i with
      | zero => simp_all [List.get?]
      | succ n => simp_all [List.get?, List.set]

theorem digit_not_ws (c : Char) (h : c.isDigit = true) : c.isWhitespace = false := by
  by_cases h1 : c = ' '
  · subst h1; exact absurd h (by decide)
  · by_cases h2 : c = '\t'
    · subst h2; exact absurd h (by decide)
    · by_cases h3 : c = '\r'
      · subst h3; exact absurd h (by decide)
      · by_cases h4 : c = '\n'
        · subst h4; exact absurd h (by decide)
        · simp [Char.isWhitespace, h1, h2, h3, h4]

theorem digit_not_minus (c : Char) (h : c.isDigit = true) : c ≠ '-' := by
  intro hc; subst hc; exact absurd h (by decide)

theorem digit_not_plus (c : Char) (h : c.isDigit = true) : c ≠ '+' := by
  intro hc; subst hc; exact absurd h (by decide)

theorem takeWhile_all {α : Type} (p : α → Bool) (l : List α)
    (h : ∀ a ∈ l, p a = true) : l.takeWhile p = l := by
  induction l with
  | nil => rfl
  | cons x xs ih =>
      rw [List.takeWhile_cons, h x (List.mem_cons_self x xs)]
      simp [ih (fun a ha => h a (List.mem_cons_of_mem x ha))]

/-- A canonical index string parses back to the same value. -/
theorem canonIndex_parseInt (s : String) (i : Nat) (h : canonIndex s = some i) :
    jsParseInt s = some (i : Int) := by
  unfold canonIndex at h
  unfold jsParseInt jsParseIntCore
  cases hd : s.data with
  | nil => rw [hd] at h; cases h
  | cons c rest =>
      rw [hd] at h
      dsimp only at h
      by_cases hc : c = '0'
      · subst hc
        rw [if_pos rfl] at h
        by_cases hr : rest = ([] : List Char)
        · subst hr
          simp at h
          subst h
          decide
        · rw [if_neg hr] at h; cases h
      · rw [if_neg hc] at h
        by_cases hdig : c.isDigit = true ∧ rest.all Char.isDigit = true
        · rw [if_pos hdig] at h
          simp only [Option.some.injEq] at h
          have hall : ∀ a ∈ c :: rest, a.isDigit = true := by
            intro a ha
            rcases List.mem_cons.mp ha with rfl | ha2
            · exact hdig.1
            · exact (List.all_eq_true.mp hdig.2) a ha2
          rw [show (c :: rest).dropWhile Char.isWhitespace = c :: rest by
            rw [List.dropWhile_cons, digit_not_ws c hdig.1]
            simp]
          dsimp only
          rw [if_neg (digit_not_minus c hdig.1), if_neg (digit_not_plus c hdig.1)]
          rw [takeWhile_all Char.isDigit (c :: rest) hall]
          simp [h]
        · rw [if_neg hdig] at h; cases h

/-- A walk into a string leaf never writes visibly. -/
def pathFits : Node → List String → Bool
  | cur, [last] =>
      match cur with
      | .obj _ => true
      | .arr items =>
          match jsParseInt last with
          | some i => decide (0 ≤ i ∧ i.toNat ≤ items.length)
          | none => false
      | .leaf _ => false
  | cur, key :: next :: rest =>
      match childGetForSet cur key with
      | some c => pathFits c (next :: rest)
      | none =>
          (match cur with
           | .obj _ => true
           | .arr items => decide (canonIndex key = some items.length)
           | .leaf _ => false)
          && pathFits (freshFor next) (next :: rest)
  | _, [] => true

theorem getSteps_none (rest : List String) : rest.foldl getStep none = none := by
  induction rest with
  | nil => rfl
  | cons s rest ih => simpa [List.foldl_cons, getStep] using ih

theorem getNestedSegs_cons (t : Node) (s : String) (rest : List String) :
    getNestedSegs t (s :: rest)
      = match getStep (some t) s with
        | some c => getNestedSegs c rest
        | none => none := by
  show (s :: rest).foldl getStep (some t) = _
  rw [List.foldl_cons]
  cases getStep (some t) s with
  | none => exact getSteps_none rest
  | some c => rfl

theorem getStep_obj_set (fs : List (String × Node)) (s : String) (c2 : Node) :
    getStep (some (.obj (objSet fs s c2))) s = some c2 := by
  simp [getStep, objGet_objSet_self]

theorem getStep_arr_set (items : List Node) (s : String) (i : Nat) (c2 : Node)
    (hc : canonIndex s = some i) (hi : i < items.length) :
    getStep (some (.arr (items.set i c2))) s = some c2 := by
  simp only [getStep, canonIndex_parseInt s i hc]
  have h0 : (0 : Int) ≤ (i : Int) := Int.natCast_nonneg i
  have ht : ((i : Int)).toNat = i := Int.toNat_natCast i
  rw [ht]
  simp only [List.length_set]
  rw [if_pos ⟨h0, hi⟩]
  simp [List.get?_eq_getElem?, List.getElem?_set_self, hi, List.getElem?_eq_getElem]

theorem getStep_arr_append (items : List Node) (s : String) (c2 : Node)
    (hc : canonIndex s = some items.length) :
    getStep (some (.arr (items ++ [c2]))) s = some c2 := by
  simp only [getStep, canonIndex_parseInt s items.length hc]
  have h0 : (0 : Int) ≤ (items.length : Int) := Int.natCast_nonneg _
  have ht : ((items.length : Int)).toNat = items.length := Int.toNat_natCast _
  rw [ht]
  have hlen : items.length < (items ++ [c2]).length := by simp
  rw [if_pos ⟨h0, hlen⟩]
  simp [List.get?_eq_getElem?, List.getElem?_concat_length]

theorem leaf_not_fits : ∀ (rest : List String) (s str : String),
    pathFits (.leaf str) (s :: rest) = false := by
  intro rest
  induction rest with
  | nil => intro s str; rfl
  | cons next rest2 ih =>
      intro s str
      simp only [pathFits, childGetForSet]
      cases hci : canonIndex s with
      | none => simp
      | some i =>
          simp only [Option.bind]
          cases hgc : str.data.get? i with
          | none => simp [hgc]
          | some c => simp [hgc, ih]

theorem get?_lt {α : Type} {l : List α} {i : Nat} {a : α}
    (h : l.get? i = some a) : i < l.length := by
  by_contra hc
  rw [List.get?_eq_getElem?, List.getElem?_eq_none (by omega)] at h
  cases h

/-- After a successful visible write, reading the same path returns
the written value. -/
theorem setSegs_get_of_fits :
    ∀ (rest : List String) (s : String) (cur v t' : Node),
      pathFits cur (s :: rest) = true →
      setSegs false cur (s :: rest) v = some t' →
      getNestedSegs t' (s :: rest) = some v := by
  intro rest
  induction rest with
  | nil =>
      intro s cur v t' hfit hset
      simp only [setSegs, Bool.false_eq_true, if_false] at hset
      cases cur with
      | leaf str => simp [pathFits] at hfit
      | obj fs =>
          simp only [setLastParsed, Option.some.injEq] at hset
          subst hset
          rw [getNestedSegs_cons, getStep_obj_set]
          rfl
      | arr items =>
          simp only [pathFits] at hfit
          cases hpi : jsParseInt s with
          | none => rw [hpi] at hfit; cases hfit
          | some i =>
              rw [hpi] at hfit
              have hcond := of_decide_eq_true hfit
              simp only [setLastParsed, hpi] at hset
              rw [if_neg (by omega : ¬ i < 0)] at hset
              by_cases hlt : i.toNat < items.length
              · rw [if_pos hlt] at hset
                simp only [Option.some.injEq] at hset
                subst hset
                rw [getNestedSegs_cons]
                simp only [getStep, hpi, List.length_set]
                rw [if_pos ⟨hcond.1, hlt⟩]
                simp [List.get?_eq_getElem?, List.getElem?_set_self, hlt,
                  List.getElem?_eq_getElem, getNestedSegs]
              · rw [if_neg hlt] at hset
                have heq : i.toNat = items.length := by omega
                rw [if_pos heq] at hset
                simp only [Option.some.injEq] at hset
                subst hset
                rw [getNestedSegs_cons]
                simp only [getStep, hpi]
                have hlen : i.toNat < (items ++ [v]).length := by
                  simp [heq]
                rw [if_pos ⟨hcond.1, hlen⟩, heq]
                simp [List.get?_eq_getElem?, List.getElem?_concat_length, getNestedSegs]
  | cons next rest2 ih =>
      intro s cur v t' hfit hset
      cases hchild : childGetForSet cur s with
      | some c =>
          simp only [setSegs, hchild] at hset
          have hfit2 : pathFits c (next :: rest2) = true := by
            simp only [pathFits, hchild] at hfit
            exact hfit
          cases hrec : setSegs false c (next :: rest2) v with
          | none => simp only [hrec] at hset; cases hset
          | some c2 =>
              simp only [hrec, Option.some.injEq] at hset
              subst hset
              have hg := ih next c v c2 hfit2 hrec
              rw [getNestedSegs_cons]
              cases cur with
              | leaf str =>
                  exfalso
                  simp only [childGetForSet] at hchild
                  cases hci : canonIndex s with
                  | none => rw [hci] at hchild; cases hchild
                  | some i =>
                      rw [hci] at hchild
                      simp only [Option.bind] at hchild
                      cases hgc : str.data.get? i with
                      | none => rw [hgc] at hchild; cases hchild
                      | some ch =>
                          rw [hgc] at hchild
                          simp only [Option.map, Option.some.injEq] at hchild
                          rw [← hchild] at hfit2
                          rw [leaf_not_fits] at hfit2
                          cases hfit2
              | obj fs =>
                  simp only [replaceAt]
                  rw [getStep_obj_set]
                  exact hg
              | arr items =>
                  simp only [childGetForSet] at hchild
                  cases hci : canonIndex s with
                  | none => rw [hci] at hchild; cases hchild
                  | some i =>
                      rw [hci] at hchild
                      simp only [Option.bind] at hchild
                      have hi : i < items.length := get?_lt hchild
                      simp only [replaceAt, hci]
                      rw [getStep_arr_set items s i c2 hci hi]
                      exact hg
      | none =>
          cases cur with
          | leaf str => simp [setSegs, hchild] at hset
          | obj fs =>
              simp only [setSegs, hchild] at hset
              simp only [pathFits, hchild, Bool.true_and] at hfit
              cases hrec : setSegs false (freshFor next) (next :: rest2) v with
              | none => simp only [hrec] at hset; cases hset
              | some c2 =>
                  simp only [hrec, Option.some.injEq] at hset
                  subst hset
                  have hg := ih next (freshFor next) v c2 hfit hrec
                  rw [getNestedSegs_cons, getStep_obj_set]
                  exact hg
          | arr items =>
              simp only [setSegs, hchild] at hset
              simp only [pathFits, hchild, Bool.and_eq_true, decide_eq_true_eq] at hfit
              simp only [hfit.1] at hset
              rw [if_pos trivial] at hset
              cases hrec : setSegs false (freshFor next) (next :: rest2) v with
              | none => simp only [hrec] at hset; cases hset
              | some c2 =>
                  simp only [hrec, Option.some.injEq] at hset
                  subst hset
                  have hg := ih next (freshFor next) v c2 hfit.2 hrec
                  rw [getNestedSegs_cons, getStep_arr_append items s c2 hfit.1]
                  exact hg

theorem objSet_objSet (fs : List (String × Node)) (k : String) (a b : Node) :
    objSet (objSet fs k a) k b = objSet fs k b := by
  induction fs with
  | nil => simp [objSet]
  | cons p fs ih =>
      obtain ⟨k1, v1⟩ := p
      by_cases h : k1 = k <;> simp [objSet, h, ih]

theorem childGet_obj_set (fs : List (String × Node)) (s : String) (c2 : Node) :
    childGetForSet (.obj (objSet fs s c2)) s = some c2 := by
  simp [childGetForSet, objGet_objSet_self]

theorem childGet_arr_set (items : List Node) (s : String) (i : Nat) (c2 : Node)
    (hc : canonIndex s = some i) (hi : i < items.length) :
    childGetForSet (.arr (items.set i c2)) s = some c2 := by
  simp only [childGetForSet, hc, Option.bind]
  simp [List.get?_eq_getElem?, List.getElem?_set_self, hi, List.getElem?_eq_getElem]

theorem childGet_arr_append (items : List Node) (s : String) (c2 : Node)
    (hc : canonIndex s = some items.length) :
    childGetForSet (.arr (items ++ [c2])) s = some c2 := by
  simp only [childGetForSet, hc, Option.bind]
  simp [List.get?_eq_getElem?, List.getElem?_concat_length]

/-- A visible write is idempotent: repeating the same write on its own
result returns the result unchanged. -/
theorem setSegs_idem_of_fits :
    ∀ (rest : List String) (s : String) (cur v t' : Node),
      pathFits cur (s :: rest) = true →
      setSegs false cur (s :: rest) v = some t' →
      setSegs false t' (s :: rest) v = some t' := by
  intro rest
  induction rest with
  | nil =>
      intro s cur v t' hfit hset
      simp only [setSegs, Bool.false_eq_true, if_false] at hset ⊢
      cases cur with
      | leaf str => simp [pathFits] at hfit
      | obj fs =>
          simp only [setLastParsed, Option.some.injEq] at hset
          subst hset
          simp [setLastParsed, objSet_objSet]
      | arr items =>
          simp only [pathFits] at hfit
          cases hpi : jsParseInt s with
          | none => rw [hpi] at hfit; cases hfit
          | some i =>
              rw [hpi] at hfit
              have hcond := of_decide_eq_true hfit
              simp only [setLastParsed, hpi] at hset
              rw [if_neg (by omega : ¬ i < 0)] at hset
              by_cases hlt : i.toNat < items.length
              · rw [if_pos hlt] at hset
                simp only [Option.some.injEq] at hset
                subst hset
                simp only [setLastParsed, hpi]
                rw [if_neg (by omega : ¬ i < 0)]
                rw [if_pos (by simpa using hlt)]
                rw [List.set_set]
              · rw [if_neg hlt] at hset
                have heq : i.toNat = items.length := by omega
                rw [if_pos heq] at hset
                simp only [Option.some.injEq] at hset
                subst hset
                simp only [setLastParsed, hpi]
                rw [if_neg (by omega : ¬ i < 0)]
                have hlen : i.toNat < (items ++ [v]).length := by simp [heq]
                rw [if_pos hlen]
                rw [heq, list_set_of_get (items ++ [v]) items.length v
                  (by simp [List.get?_eq_getElem?, List.getElem?_concat_length])]
  | cons next rest2 ih =>
      intro s cur v t' hfit hset
      cases hchild : childGetForSet cur s with
      | some c =>
          simp only [setSegs, hchild] at hset
          have hfit2 : pathFits c (next :: rest2) = true := by
            simp only [pathFits, hchild] at hfit
            exact hfit
          cases hrec : setSegs false c (next :: rest2) v with
          | none => simp only [hrec] at hset; cases hset
          | some c2 =>
              simp only [hrec, Option.some.injEq] at hset
              subst hset
              have hidem := ih next c v c2 hfit2 hrec
              cases cur with
              | leaf str =>
                  exfalso
                  simp only [childGetForSet] at hchild
                  cases hci : canonIndex s with
                  | none => rw [hci] at hchild; cases hchild
                  | some i =>
                      rw [hci] at hchild
                      simp only [Option.bind] at hchild
                      cases hgc : str.data.get? i with
                      | none => rw [hgc] at hchild; cases hchild
                      | some ch =>
                          rw [hgc] at hchild
                          simp only [Option.map, Option.some.injEq] at hchild
                          rw [← hchild] at hfit2
                          rw [leaf_not_fits] at hfit2
                          cases hfit2
              | obj fs =>
                  simp only [replaceAt]
                  simp only [setSegs, childGet_obj_set, hidem, replaceAt,
                    objSet_objSet]
              | arr items =>
                  simp only [childGetForSet] at hchild
                  cases hci : canonIndex s with
                  | none => rw [hci] at hchild; cases hchild
                  | some i =>
                      rw [hci] at hchild
                      simp only [Option.bind] at hchild
                      have hi : i < items.length := get?_lt hchild
                      simp only [replaceAt, hci]
                      simp only [setSegs, childGet_arr_set items s i c2 hci hi,
                        hidem, replaceAt, hci, List.set_set]
      | none =>
          cases cur with
          | leaf str => simp [setSegs, hchild] at hset
          | obj fs =>
              simp only [setSegs, hchild] at hset
              simp only [pathFits, hchild, Bool.true_and] at hfit
              cases hrec : setSegs false (freshFor next) (next :: rest2) v with
              | none => simp only [hrec] at hset; cases hset
              | some c2 =>
                  simp only [hrec, Option.some.injEq] at hset
                  subst hset
                  have hidem := ih next (freshFor next) v c2 hfit hrec
                  simp only [setSegs, childGet_obj_set, hidem, replaceAt,
                    objSet_objSet]
          | arr items =>
              simp only [setSegs, hchild] at hset
              simp only [pathFits, hchild, Bool.and_eq_true, decide_eq_true_eq] at hfit
              simp only [hfit.1] at hset
              rw [if_pos trivial] at hset
              cases hrec : setSegs false (freshFor next) (next :: rest2) v with
              | none => simp only [hrec] at hset; cases hset
              | some c2 =>
                  simp only [hrec, Option.some.injEq] at hset
                  subst hset
                  have hidem := ih next (freshFor next) v c2 hfit.2 hrec
                  simp only [setSegs, childGet_arr_append items s c2 hfit.1,
                    hidem, replaceAt, hfit.1]
                  rw [list_set_of_get (items ++ [c2]) items.length c2
                    (by simp [List.get?_eq_getElem?, List.getElem?_concat_length])]

theorem jsSplitDot_ne_nil (s : String) : jsSplitDot s ≠ [] := by
  unfold jsSplitDot
  generalize s.data = cs
  generalize ([] : List Char) = acc
  induction cs generalizing acc with
  | nil => simp [splitDotAux]
  | cons c cs ih =>
      simp only [splitDotAux]
      by_cases h : c = '.' <;> simp [h, ih]

theorem setSegs_leaf_none (b : Bool) :
    ∀ (rest : List String) (s str : String) (v : Node),
      setSegs b (.leaf str) (s :: rest) v = none := by
  intro rest
  induction rest with
  | nil =>
      intro s str v
      cases b <;> simp [setSegs, childStore, setLastParsed]
  | cons next rest2 ih =>
      intro s str v
      simp only [setSegs, childGetForSet]
      cases hci : canonIndex s with
      | none => rfl
      | some i =>
          simp only [Option.bind]
          cases hgc : str.data.get? i with
          | none => rfl
          | some c => simp [ih]

/-- A successful nested write never leaves a bare string at the root:
the root keeps its container constructor. -/
theorem setSegs_not_leaf (b : Bool) :
    ∀ (rest : List String) (s : String) (cur v t' : Node),
      setSegs b cur (s :: rest) v = some t' →
      ((∃ fs, cur = .obj fs ∧ ∃ fs2, t' = .obj fs2) ∨
       (∃ l, cur = .arr l ∧ ∃ l2, t' = .arr l2)) := by
  intro rest
  cases rest with
  | nil =>
      intro s cur v t' hset
      cases cur with
      | leaf str => rw [setSegs_leaf_none] at hset; cases hset
      | obj fs =>
          left
          refine ⟨fs, rfl, ?_⟩
          cases b
          · simp only [setSegs, Bool.false_eq_true, if_false, setLastParsed,
              Option.some.injEq] at hset
            exact ⟨_, hset.symm⟩
          · simp only [setSegs, if_true, childStore, Option.some.injEq] at hset
            exact ⟨_, hset.symm⟩
      | arr items =>
          right
          refine ⟨items, rfl, ?_⟩
          cases b
          · simp only [setSegs, Bool.false_eq_true, if_false, setLastParsed] at hset
            cases hpi : jsParseInt s with
            | none =>
                simp only [hpi] at hset
                simp only [Option.some.injEq] at hset
                exact ⟨_, hset.symm⟩
            | some i =>
                simp only [hpi] at hset
                by_cases h1 : i < 0
                · rw [if_pos h1] at hset
                  simp only [Option.some.injEq] at hset
                  exact ⟨_, hset.symm⟩
                · rw [if_neg h1] at hset
                  by_cases h2 : i.toNat < items.length
                  · rw [if_pos h2] at hset
                    simp only [Option.some.injEq] at hset
                    exact ⟨_, hset.symm⟩
                  · rw [if_neg h2] at hset
                    by_cases h3 : i.toNat = items.length
                    · rw [if_pos h3] at hset
                      simp only [Option.some.injEq] at hset
                      exact ⟨_, hset.symm⟩
                    · rw [if_neg h3] at hset; cases hset
          · simp only [setSegs, if_true, childStore] at hset
            cases hci : canonIndex s with
            | none =>
                simp only [hci] at hset
                simp only [Option.some.injEq] at hset
                exact ⟨_, hset.symm⟩
            | some i =>
                simp only [hci] at hset
                by_cases h2 : i < items.length
                · rw [if_pos h2] at hset
                  simp only [Option.some.injEq] at hset
                  exact ⟨_, hset.symm⟩
                · rw [if_neg h2] at hset
                  by_cases h3 : i = items.length
                  · rw [if_pos h3] at hset
                    simp only [Option.some.injEq] at hset
                    exact ⟨_, hset.symm⟩
                  · rw [if_neg h3] at hset; cases hset
  | cons next rest2 =>
      intro s cur v t' hset
      cases cur with
      | leaf str => rw [setSegs_leaf_none] at hset; cases hset
      | obj fs =>
          left
          refine ⟨fs, rfl, ?_⟩
          cases hchild : childGetForSet (.obj fs) s with
          | some c =>
              simp only [setSegs, hchild] at hset
              cases hrec : setSegs b c (next :: rest2) v with
              | none => simp only [hrec] at hset; cases hset
              | some c2 =>
                  simp only [hrec, Option.some.injEq] at hset
                  exact ⟨_, hset.symm⟩
          | none =>
              simp only [setSegs, hchild] at hset
              cases hrec : setSegs b (freshFor next) (next :: rest2) v with
              | none => simp only [hrec] at hset; cases hset
              | some c2 =>
                  simp only [hrec, Option.some.injEq] at hset
                  exact ⟨_, hset.symm⟩
      | arr items =>
          right
          refine ⟨items, rfl, ?_⟩
          cases hchild : childGetForSet (.arr items) s with
          | some c =>
              simp only [setSegs, hchild] at hset
              cases hrec : setSegs b c (next :: rest2) v with
              | none => simp only [hrec] at hset; cases hset
              | some c2 =>
                  simp only [hrec, Option.some.injEq] at hset
                  rw [← hset]
                  simp only [replaceAt]
                  cases canonIndex s <;> exact ⟨_, rfl⟩
          | none =>
              simp only [setSegs, hchild] at hset
              cases hci : canonIndex s with
              | none =>
                  simp only [hci] at hset
                  simp only [Option.some.injEq] at hset
                  exact ⟨_, hset.symm⟩
              | some i =>
                  simp only [hci] at hset
                  by_cases h3 : i = items.length
                  · rw [if_pos h3] at hset
                    cases hrec : setSegs b (freshFor next) (next :: rest2) v with
                    | none => simp only [hrec] at hset; cases hset
                    | some c2 =>
                        simp only [hrec, Option.some.injEq] at hset
                        exact ⟨_, hset.symm⟩
                  · rw [if_neg h3] at hset; cases hset

/-- Visible addressing of one setField call: for a dotted id the
parsed-path walk fits; for a plain id the single raw slot is an object
field or a canonical in-range or append array index. -/
def setFieldFits (mt : Node) (id : String) : Bool :=
  if id.data.contains '.' then pathFits mt (jsSplitDot id)
  else
    match mt with
    | .obj _ => true
    | .arr items =>
        match canonIndex id with
        | some i => decide (i ≤ items.length)
        | none => false
    | .leaf _ => false

theorem microtextPost_eq_dotted (doc : MdxDoc) (id value : String)
    (hid : ¬ id = "") (hdot : id.data.contains '.' = true) :
    microtextPost doc id value
      = match setNestedValue (ensuredMicrotext doc.front).2 id (.leaf value) with
        | none => .err 500 "Failed to update microtext"
        | some mt2 =>
            .ok ⟨objSet (ensuredMicrotext doc.front).1 "microtext" mt2, doc.body⟩
              (getNestedValue (ensuredMicrotext doc.front).2 id) := by
  unfold microtextPost
  rw [if_neg hid]
  dsimp only
  rw [if_pos hdot, if_pos hdot]

theorem microtextPost_eq_plain (doc : MdxDoc) (id value : String)
    (hid : ¬ id = "") (hdot : id.data.contains '.' = false) :
    microtextPost doc id value
      = match childStore (ensuredMicrotext doc.front).2 id (.leaf value) with
        | none => .err 500 "Failed to update microtext"
        | some mt2 =>
            .ok ⟨objSet (ensuredMicrotext doc.front).1 "microtext" mt2, doc.body⟩
              (childGetForSet (ensuredMicrotext doc.front).2 id) := by
  unfold microtextPost
  rw [if_neg hid]
  dsimp only
  rw [if_neg (by rw [hdot]; simp), if_neg (by rw [hdot]; simp)]

theorem ensuredMicrotext_of_truthy (front : List (String × Node)) (mt : Node)
    (h : objGet front "microtext" = some mt) (ht : truthy (some mt) = true) :
    ensuredMicrotext front = (front, mt) := by
  unfold ensuredMicrotext
  simp only [h]
  rw [if_pos ht]

theorem truthy_of_container (mt : Node)
    (h : (∃ fs, mt = .obj fs) ∨ (∃ l, mt = .arr l)) : truthy (some mt) = true := by
  rcases h with ⟨fs, rfl⟩ | ⟨l, rfl⟩ <;> rfl

/-- C9 amended: calling setField twice with the same id and identical
value is idempotent whenever the first write is visible (the id
addresses object fields and canonical array indices): the document
after the second call equals the document after the first call, and
the second response reports previousValue equal to the written value.
When the id instead names a non-index property of an array, the first
call succeeds without changing the file and the claim fails (see the
counterexample). -/
theorem setField_idempotent (doc doc2 : MdxDoc) (id value : String)
    (prev : Option Node)
    (hfit : setFieldFits (ensuredMicrotext doc.front).2 id = true)
    (hok : microtextPost doc id value = .ok doc2 prev) :
    microtextPost doc2 id value = .ok doc2 (some (.leaf value)) := by
  by_cases hid : id = ""
  · rw [hid] at hok
    simp [microtextPost] at hok
  · unfold setFieldFits at hfit
    cases hdot : id.data.contains '.' with
    | true =>
        rw [hdot, if_pos rfl] at hfit
        rw [microtextPost_eq_dotted doc id value hid hdot] at hok
        obtain ⟨shd, stl, hsegs⟩ : ∃ a l, jsSplitDot id = a :: l := by
          cases hsp : jsSplitDot id with
          | nil => exact absurd hsp (jsSplitDot_ne_nil id)
          | cons a l => exact ⟨a, l, rfl⟩
        rw [hsegs] at hfit
        cases hset : setNestedValue (ensuredMicrotext doc.front).2 id (.leaf value) with
        | none => rw [hset] at hok; cases hok
        | some mt2 =>
            rw [hset] at hok
            simp only [RouteResult.ok.injEq] at hok
            obtain ⟨hdoc2, _⟩ := hok
            have hsetSegs : setSegs false (ensuredMicrotext doc.front).2
                (shd :: stl) (.leaf value) = some mt2 := by
              rw [← hsegs]
              exact hset
            have hget := setSegs_get_of_fits stl shd _ (.leaf value) mt2 hfit hsetSegs
            have hidem := setSegs_idem_of_fits stl shd _ (.leaf value) mt2 hfit hsetSegs
            have hkind := setSegs_not_leaf false stl shd _ (.leaf value) mt2 hsetSegs
            have htr : truthy (some mt2) = true := by
              apply truthy_of_container
              rcases hkind with ⟨fs, _, h2⟩ | ⟨l, _, h2⟩
              · exact Or.inl h2
              · exact Or.inr h2
            have hens : ensuredMicrotext doc2.front = (doc2.front, mt2) := by
              apply ensuredMicrotext_of_truthy _ _ _ htr
              rw [← hdoc2]
              exact objGet_objSet_self _ _ _
            have hset2 : setNestedValue mt2 id (.leaf value) = some mt2 := by
              unfold setNestedValue
              rw [hsegs]
              exact hidem
            have hget2 : getNestedValue mt2 id = some (.leaf value) := by
              unfold getNestedValue
              rw [hsegs]
              exact hget
            have hfront : objSet doc2.front "microtext" mt2 = doc2.front := by
              rw [← hdoc2]
              exact objSet_objSet _ _ _ _
            rw [microtextPost_eq_dotted doc2 id value hid hdot, hens]
            simp only [hset2, hget2, hfront]
    | false =>
        rw [hdot] at hfit
        rw [if_neg (by simp)] at hfit
        rw [microtextPost_eq_plain doc id value hid hdot] at hok
        cases hset : childStore (ensuredMicrotext doc.front).2 id (.leaf value) with
        | none => rw [hset] at hok; cases hok
        | some mt2 =>
            rw [hset] at hok
            simp only [RouteResult.ok.injEq] at hok
            obtain ⟨hdoc2, _⟩ := hok
            cases hmt : (ensuredMicrotext doc.front).2 with
            | leaf str => rw [hmt] at hfit; cases hfit
            | obj fs =>
                rw [hmt] at hset
                simp only [childStore, Option.some.injEq] at hset
                subst hset
                have htr : truthy (some (Node.obj (objSet fs id (.leaf value)))) = true := rfl
                have hens : ensuredMicrotext doc2.front
                    = (doc2.front, .obj (objSet fs id (.leaf value))) := by
                  apply ensuredMicrotext_of_truthy _ _ _ htr
                  rw [← hdoc2]
                  exact objGet_objSet_self _ _ _
                have hcs : childStore (Node.obj (objSet fs id (.leaf value))) id (.leaf value)
                    = some (.obj (objSet fs id (.leaf value))) := by
                  simp [childStore, objSet_objSet]
                have hfront : objSet doc2.front "microtext"
                    (Node.obj (objSet fs id (.leaf value))) = doc2.front := by
                  rw [← hdoc2]
                  exact objSet_objSet _ _ _ _
                rw [microtextPost_eq_plain doc2 id value hid hdot, hens]
                simp only [hcs, childGet_obj_set, hfront]
            | arr items =>
                rw [hmt] at hfit hset
                cases hci : canonIndex id with
                | none => rw [hci] at hfit; cases hfit
                | some i =>
                    rw [hci] at hfit
                    have hile : i ≤ items.length := of_decide_eq_true hfit
                    simp only [childStore, hci] at hset
                    by_cases hlt : i < items.length
                    · rw [if_pos hlt] at hset
                      simp only [Option.some.injEq] at hset
                      subst hset
                      have htr : truthy (some (Node.arr (items.set i (.leaf value)))) = true := rfl
                      have hens : ensuredMicrotext doc2.front
                          = (doc2.front, .arr (items.set i (.leaf value))) := by
                        apply ensuredMicrotext_of_truthy _ _ _ htr
                        rw [← hdoc2]
                        exact objGet_objSet_self _ _ _
                      have hcs : childStore (Node.arr (items.set i (.leaf value))) id (.leaf value)
                          = some (.arr (items.set i (.leaf value))) := by
                        simp only [childStore, hci, List.length_set]
                        rw [if_pos hlt, List.set_set]
                      have hfront : objSet doc2.front "microtext"
                          (Node.arr (items.set i (.leaf value))) = doc2.front := by
                        rw [← hdoc2]
                        exact objSet_objSet _ _ _ _
                      rw [microtextPost_eq_plain doc2 id value hid hdot, hens]
                      simp only [hcs, childGet_arr_set items id i (.leaf value) hci hlt, hfront]
                    · rw [if_neg hlt] at hset
                      have heq : i = items.length := by omega
                      rw [if_pos heq] at hset
                      simp only [Option.some.injEq] at hset
                      subst hset
                      subst heq
                      have htr : truthy (some (Node.arr (items ++ [Node.leaf value]))) = true := rfl
                      have hens : ensuredMicrotext doc2.front
                          = (doc2.front, .arr (items ++ [Node.leaf value])) := by
                        apply ensuredMicrotext_of_truthy _ _ _ htr
                        rw [← hdoc2]
                        exact objGet_objSet_self _ _ _
                      have hcs : childStore (Node.arr (items ++ [Node.leaf value])) id (.leaf value)
                          = some (.arr (items ++ [Node.leaf value])) := by
                        simp only [childStore, hci]
                        rw [if_pos (by simp)]
                        rw [list_set_of_get (items ++ [Node.leaf value]) items.length
                          (Node.leaf value)
                          (by simp [List.get?_eq_getElem?, List.getElem?_concat_length])]
                      have hfront : objSet doc2.front "microtext"
                          (Node.arr (items ++ [Node.leaf value])) = doc2.front := by
                        rw [← hdoc2]
                        exact objSet_objSet _ _ _ _
                      rw [microtextPost_eq_plain doc2 id value hid hdot, hens]
                      simp only [hcs, childGet_arr_append items id (.leaf value) hci, hfront]

/-- C9 counterexample: with microtext holding the array a and the id
a.b, the write lands on a non-index array property that YAML
serialization drops: the call succeeds (200) without changing the
file, and the reported previousValue of the repeated call is
undefined, not the written value y. -/
theorem setField_stale_previousValue :
    microtextPost ⟨[("microtext", .obj [("a", .arr [.leaf "x"])])], "BODY"⟩ "a.b" "y"
      = .ok ⟨[("microtext", .obj [("a", .arr [.leaf "x"])])], "BODY"⟩ none ∧
    (none : Option Node) ≠ some (.leaf "y") :=
  ⟨by decide, by decide⟩

/-- Witness for the setField idempotence theorem at a concrete
document and a nested object path. -/
theorem setField_idempotent_witness :
    setFieldFits (ensuredMicrotext
        [("microtext", Node.obj [("hero", .obj [("headline", .leaf "A")])])]).2
        "hero.headline" = true ∧
    microtextPost ⟨[("microtext", .obj [("hero", .obj [("headline", .leaf "A")])])], "B"⟩
        "hero.headline" "Z"
      = .ok ⟨[("microtext", .obj [("hero", .obj [("headline", .leaf "Z")])])], "B"⟩
          (some (.leaf "A")) ∧
    microtextPost ⟨[("microtext", .obj [("hero", .obj [("headline", .leaf "Z")])])], "B"⟩
        "hero.headline" "Z"
      = .ok ⟨[("microtext", .obj [("hero", .obj [("headline", .leaf "Z")])])], "B"⟩
          (some (.leaf "Z")) :=
  ⟨by decide, by decide,
   setField_idempotent
     ⟨[("microtext", .obj [("hero", .obj [("headline", .leaf "A")])])], "B"⟩
     ⟨[("microtext", .obj [("hero", .obj [("headline", .leaf "Z")])])], "B"⟩
     "hero.headline" "Z" (some (.leaf "A")) (by decide) (by decide)⟩

theorem getStep_eq_childGet (cur : Node) (s : String) (c : Node)
    (h : childGetForSet cur s = some c) : getStep (some cur) s = some c := by
  cases cur with
  | obj fs => exact h
  | leaf str => exact h
  | arr items =>
      simp only [childGetForSet] at h
      cases hci : canonIndex s with
      | none => rw [hci] at h; cases h
      | some i =>
          rw [hci] at h
          simp only [Option.bind] at h
          have hi : i < items.length := get?_lt h
          simp only [getStep, canonIndex_parseInt s i hci]
          rw [if_pos ⟨Int.natCast_nonneg i, by simpa using hi⟩]
          simpa using h

theorem getNestedSegs_fresh_none (x : String) (a : String) (l : List String) :
    getNestedSegs (freshFor x) (a :: l) = none := by
  rw [getNestedSegs_cons]
  have : getStep (some (freshFor x)) a = none := by
    unfold freshFor
    by_cases h : isIndexSeg x = true
    · simp only [if_pos h, getStep]
      cases hpi : jsParseInt a with
      | none => rfl
      | some i =>
          simp only [List.length_nil]
          rw [if_neg (by omega)]
    · simp only [if_neg h, getStep, objGet]
  rw [this]

/-- C8: when the setNestedValue walk must create a missing
intermediate container, the type of the new container is decided by
the next path segment, numeric (parseInt succeeds) giving an array
and anything else an object; and writing through an already existing
container keeps that container (and hence its type) rather than
replacing it. Stated over the visible tree, so the walk is required
to write visibly (pathFits). -/
theorem setNested_creation_heuristic :
    ∀ (pre : List String) (k nk : String) (rest : List String)
      (path : String) (t v t' : Node),
      jsSplitDot path = pre ++ k :: nk :: rest →
      pathFits t (pre ++ k :: nk :: rest) = true →
      setNestedValue t path v = some t' →
      ((getNestedSegs t (pre ++ [k]) = none →
          (isIndexSeg nk = true → ∃ l, getNestedSegs t' (pre ++ [k]) = some (.arr l)) ∧
          (isIndexSeg nk = false → ∃ fs, getNestedSegs t' (pre ++ [k]) = some (.obj fs))) ∧
       (∀ l, getNestedSegs t (pre ++ [k]) = some (.arr l) →
          ∃ l2, getNestedSegs t' (pre ++ [k]) = some (.arr l2)) ∧
       (∀ fs, getNestedSegs t (pre ++ [k]) = some (.obj fs) →
          ∃ fs2, getNestedSegs t' (pre ++ [k]) = some (.obj fs2))) := by
  have main : ∀ (pre : List String) (k nk : String) (rest : List String)
      (t v t' : Node),
      pathFits t (pre ++ k :: nk :: rest) = true →
      setSegs false t (pre ++ k :: nk :: rest) v = some t' →
      ((getNestedSegs t (pre ++ [k]) = none →
          (isIndexSeg nk = true → ∃ l, getNestedSegs t' (pre ++ [k]) = some (.arr l)) ∧
          (isIndexSeg nk = false → ∃ fs, getNestedSegs t' (pre ++ [k]) = some (.obj fs))) ∧
       (∀ l, getNestedSegs t (pre ++ [k]) = some (.arr l) →
          ∃ l2, getNestedSegs t' (pre ++ [k]) = some (.arr l2)) ∧
       (∀ fs, getNestedSegs t (pre ++ [k]) = some (.obj fs) →
          ∃ fs2, getNestedSegs t' (pre ++ [k]) = some (.obj fs2))) := by
    intro pre
    induction pre with
    | nil =>
        intro k nk rest t v t' hfit hset
        simp only [List.nil_append] at hfit hset ⊢
        cases hchild : childGetForSet t k with
        | some c =>
            simp only [setSegs, hchild] at hset
            have hfit2 : pathFits c (nk :: rest) = true := by
              simp only [pathFits, hchild] at hfit
              exact hfit
            cases hrec : setSegs false c (nk :: rest) v with
            | none => simp only [hrec] at hset; cases hset
            | some c2 =>
                simp only [hrec, Option.some.injEq] at hset
                subst hset
                have hkind := setSegs_not_leaf false rest nk c v c2 hrec
                have hg : getNestedSegs t [k] = some c := by
                  rw [getNestedSegs_cons, getStep_eq_childGet t k c hchild]
                  rfl
                refine ⟨?_, ?_, ?_⟩
                · intro hnone
                  rw [hg] at hnone
                  cases hnone
                · intro l hl
                  rw [hg] at hl
                  simp only [Option.some.injEq] at hl
                  subst hl
                  rcases hkind with ⟨fs, hc, _⟩ | ⟨l1, _, l2, ht2⟩
                  · cases hc
                  · cases t with
                    | leaf str =>
                        exfalso
                        rw [leaf_not_fits] at hfit
                        cases hfit
                    | obj fs =>
                        simp only [replaceAt]
                        refine ⟨l2, ?_⟩
                        rw [getNestedSegs_cons, getStep_obj_set, ht2]
                        rfl
                    | arr items =>
                        simp only [childGetForSet] at hchild
                        cases hci : canonIndex k with
                        | none => rw [hci] at hchild; cases hchild
                        | some i =>
                            rw [hci] at hchild
                            simp only [Option.bind] at hchild
                            have hi : i < items.length := get?_lt hchild
                            simp only [replaceAt, hci]
                            refine ⟨l2, ?_⟩
                            rw [getNestedSegs_cons,
                              getStep_arr_set items k i c2 hci hi, ht2]
                            rfl
                · intro fs hl
                  rw [hg] at hl
                  simp only [Option.some.injEq] at hl
                  subst hl
                  rcases hkind with ⟨fs1, _, fs2, ht2⟩ | ⟨l1, hc, _⟩
                  · cases t with
                    | leaf str =>
                        exfalso
                        rw [leaf_not_fits] at hfit
                        cases hfit
                    | obj fso =>
                        simp only [replaceAt]
                        refine ⟨fs2, ?_⟩
                        rw [getNestedSegs_cons, getStep_obj_set, ht2]
                        rfl
                    | arr items =>
                        simp only [childGetForSet] at hchild
                        cases hci : canonIndex k with
                        | none => rw [hci] at hchild; cases hchild
                        | some i =>
                            rw [hci] at hchild
                            simp only [Option.bind] at hchild
                            have hi : i < items.length := get?_lt hchild
                            simp only [replaceAt, hci]
                            refine ⟨fs2, ?_⟩
                            rw [getNestedSegs_cons,
                              getStep_arr_set items k i c2 hci hi, ht2]
                            rfl
                  · cases hc
        | none =>
            cases t with
            | leaf str => simp [setSegs, hchild] at hset
            | obj fs =>
                simp only [setSegs, hchild] at hset
                simp only [pathFits, hchild, Bool.true_and] at hfit
                cases hrec : setSegs false (freshFor nk) (nk :: rest) v with
                | none => simp only [hrec] at hset; cases hset
                | some c2 =>
                    simp only [hrec, Option.some.injEq] at hset
                    subst hset
                    have hkind := setSegs_not_leaf false rest nk (freshFor nk) v c2 hrec
                    have hg : getNestedSegs (.obj fs) [k] = none := by
                      rw [getNestedSegs_cons]
                      simp only [childGetForSet] at hchild
                      simp [getStep, hchild]
                    refine ⟨?_, ?_, ?_⟩
                    · intro _
                      constructor
                      · intro hidx
                        rcases hkind with ⟨fs1, hfr, _⟩ | ⟨l1, _, l2, ht2⟩
                        · rw [show freshFor nk = Node.arr [] by
                            unfold freshFor; rw [if_pos hidx]] at hfr
                          cases hfr
                        · refine ⟨l2, ?_⟩
                          rw [getNestedSegs_cons, getStep_obj_set, ht2]
                          rfl
                      · intro hidx
                        rcases hkind with ⟨fs1, _, fs2, ht2⟩ | ⟨l1, hfr, _⟩
                        · refine ⟨fs2, ?_⟩
                          rw [getNestedSegs_cons, getStep_obj_set, ht2]
                          rfl
                        · rw [show freshFor nk = Node.obj [] by
                            unfold freshFor; rw [if_neg (by simp [hidx])]] at hfr
                          cases hfr
                    · intro l hl
                      rw [hg] at hl
                      cases hl
                    · intro fso hl
                      rw [hg] at hl
                      cases hl
            | arr items =>
                simp only [setSegs, hchild] at hset
                simp only [pathFits, hchild, Bool.and_eq_true, decide_eq_true_eq] at hfit
                simp only [hfit.1] at hset
                rw [if_pos trivial] at hset
                cases hrec : setSegs false (freshFor nk) (nk :: rest) v with
                | none => simp only [hrec] at hset; cases hset
                | some c2 =>
                    simp only [hrec, Option.some.injEq] at hset
                    subst hset
                    have hkind := setSegs_not_leaf false rest nk (freshFor nk) v c2 hrec
                    have hg : getNestedSegs (.arr items) [k] = none := by
                      rw [getNestedSegs_cons]
                      simp only [getStep, canonIndex_parseInt k items.length hfit.1]
                      rw [if_neg (by omega)]
                    refine ⟨?_, ?_, ?_⟩
                    · intro _
                      constructor
                      · intro hidx
                        rcases hkind with ⟨fs1, hfr, _⟩ | ⟨l1, _, l2, ht2⟩
                        · rw [show freshFor nk = Node.arr [] by
                            unfold freshFor; rw [if_pos hidx]] at hfr
                          cases hfr
                        · refine ⟨l2, ?_⟩
                          rw [getNestedSegs_cons,
                            getStep_arr_append items k c2 hfit.1, ht2]
                          rfl
                      · intro hidx
                        rcases hkind with ⟨fs1, _, fs2, ht2⟩ | ⟨l1, hfr, _⟩
                        · refine ⟨fs2, ?_⟩
                          rw [getNestedSegs_cons,
                            getStep_arr_append items k c2 hfit.1, ht2]
                          rfl
                        · rw [show freshFor nk = Node.obj [] by
                            unfold freshFor; rw [if_neg (by simp [hidx])]] at hfr
                          cases hfr
                    · intro l hl
                      rw [hg] at hl
                      cases hl
                    · intro fso hl
                      rw [hg] at hl
                      cases hl
    | cons s pre2 ih =>
        intro k nk rest t v t' hfit hset
        simp only [List.cons_append] at hfit hset ⊢
        have htail : pre2 ++ k :: nk :: rest ≠ [] := by
          cases pre2 <;> simp
        cases hchild : childGetForSet t s with
        | some c =>
            obtain ⟨a, l0, hal⟩ : ∃ a l0, pre2 ++ k :: nk :: rest = a :: l0 := by
              cases hpl : pre2 ++ k :: nk :: rest with
              | nil => exact absurd hpl htail
              | cons a l0 => exact ⟨a, l0, rfl⟩
            rw [hal] at hfit hset
            simp only [setSegs, hchild] at hset
            have hfit2 : pathFits c (a :: l0) = true := by
              simp only [pathFits, hchild] at hfit
              exact hfit
            cases hrec : setSegs false c (a :: l0) v with
            | none => simp only [hrec] at hset; cases hset
            | some c2 =>
                simp only [hrec, Option.some.injEq] at hset
                subst hset
                rw [← hal] at hfit2 hrec
                have hIH := ih k nk rest c v c2 hfit2 hrec
                have hgt : getStep (some t) s = some c := getStep_eq_childGet t s c hchild
                have hgt2 : getStep (some (replaceAt t s c2)) s = some c2 := by
                  cases t with
                  | leaf str =>
                      exfalso
                      rw [leaf_not_fits] at hfit
                      cases hfit
                  | obj fs =>
                      simp only [replaceAt]
                      exact getStep_obj_set fs s c2
                  | arr items =>
                      simp only [childGetForSet] at hchild
                      cases hci : canonIndex s with
                      | none => rw [hci] at hchild; cases hchild
                      | some i =>
                          rw [hci] at hchild
                          simp only [Option.bind] at hchild
                          have hi : i < items.length := get?_lt hchild
                          simp only [replaceAt, hci]
                          exact getStep_arr_set items s i c2 hci hi
                have hchain : ∀ (segs : List String),
                    getNestedSegs t (s :: segs) = getNestedSegs c segs := by
                  intro segs
                  rw [getNestedSegs_cons, hgt]
                have hchain2 : ∀ (segs : List String),
                    getNestedSegs (replaceAt t s c2) (s :: segs) = getNestedSegs c2 segs := by
                  intro segs
                  rw [getNestedSegs_cons, hgt2]
                rw [hchain, hchain2]
                exact hIH
        | none =>
            obtain ⟨a, l0, hal⟩ : ∃ a l0, pre2 ++ k :: nk :: rest = a :: l0 := by
              cases hpl : pre2 ++ k :: nk :: rest with
              | nil => exact absurd hpl htail
              | cons a l0 => exact ⟨a, l0, rfl⟩
            rw [hal] at hfit hset
            cases t with
            | leaf str => simp [setSegs, hchild] at hset
            | obj fs =>
                simp only [setSegs, hchild] at hset
                simp only [pathFits, hchild, Bool.true_and] at hfit
                cases hrec : setSegs false (freshFor a) (a :: l0) v with
                | none => simp only [hrec] at hset; cases hset
                | some c2 =>
                    simp only [hrec, Option.some.injEq] at hset
                    subst hset
                    rw [← hal] at hfit hrec
                    have hIH := ih k nk rest (freshFor a) v c2 hfit hrec
                    have hgnone : getNestedSegs (.obj fs) (s :: (pre2 ++ [k])) = none := by
                      rw [getNestedSegs_cons]
                      simp only [childGetForSet] at hchild
                      simp [getStep, hchild, getSteps_none]
                    have hfreshnone : getNestedSegs (freshFor a) (pre2 ++ [k]) = none := by
                      obtain ⟨b, lb, hbl⟩ : ∃ b lb, pre2 ++ [k] = b :: lb := by
                        cases hpk : pre2 ++ [k] with
                        | nil => cases pre2 <;> simp_all
                        | cons b lb => exact ⟨b, lb, rfl⟩
                      rw [hbl]
                      exact getNestedSegs_fresh_none a b lb
                    have hchain2 : getNestedSegs (.obj (objSet fs s c2)) (s :: (pre2 ++ [k]))
                        = getNestedSegs c2 (pre2 ++ [k]) := by
                      rw [getNestedSegs_cons, getStep_obj_set]
                    rw [hgnone, hchain2]
                    refine ⟨fun _ => (hIH.1 hfreshnone), ?_, ?_⟩
                    · intro l hl; cases hl
                    · intro fso hl; cases hl
            | arr items =>
                simp only [setSegs, hchild] at hset
                simp only [pathFits, hchild, Bool.and_eq_true, decide_eq_true_eq] at hfit
                simp only [hfit.1] at hset
                rw [if_pos trivial] at hset
                cases hrec : setSegs false (freshFor a) (a :: l0) v with
                | none => simp only [hrec] at hset; cases hset
                | some c2 =>
                    simp only [hrec, Option.some.injEq] at hset
                    subst hset
                    rw [← hal] at hrec
                    have hfit2 : pathFits (freshFor a) (pre2 ++ k :: nk :: rest) = true := by
                      rw [hal]; exact hfit.2
                    have hIH := ih k nk rest (freshFor a) v c2 hfit2 hrec
                    have hgnone : getNestedSegs (.arr items) (s :: (pre2 ++ [k])) = none := by
                      rw [getNestedSegs_cons]
                      simp only [getStep, canonIndex_parseInt s items.length hfit.1]
                      rw [if_neg (by omega)]
                    have hfreshnone : getNestedSegs (freshFor a) (pre2 ++ [k]) = none := by
                      obtain ⟨b, lb, hbl⟩ : ∃ b lb, pre2 ++ [k] = b :: lb := by
                        cases hpk : pre2 ++ [k] with
                        | nil => cases pre2 <;> simp_all
                        | cons b lb => exact ⟨b, lb, rfl⟩
                      rw [hbl]
                      exact getNestedSegs_fresh_none a b lb
                    have hchain2 : getNestedSegs (.arr (items ++ [c2])) (s :: (pre2 ++ [k]))
                        = getNestedSegs c2 (pre2 ++ [k]) := by
                      rw [getNestedSegs_cons, getStep_arr_append items s c2 hfit.1]
                    rw [hgnone, hchain2]
                    refine ⟨fun _ => (hIH.1 hfreshnone), ?_, ?_⟩
                    · intro l hl; cases hl
                    · intro fso hl; cases hl
  intro pre k nk rest path t v t' hsplit hfit hset
  apply main pre k nk rest t v t' hfit
  rw [← hsplit]
  exact hset

/-- Witness for the creation heuristic: writing a.b.0 into a tree
whose a is an object creates the missing container b as an array,
because the next segment 0 is numeric. -/
theorem setNested_creation_heuristic_witness :
    jsSplitDot "a.b.0" = ["a"] ++ "b" :: "0" :: [] ∧
    pathFits (.obj [("a", .obj [("x", .leaf "v")])]) (["a"] ++ "b" :: "0" :: []) = true ∧
    setNestedValue (.obj [("a", .obj [("x", .leaf "v")])]) "a.b.0" (.leaf "w")
      = some (.obj [("a", .obj [("x", .leaf "v"), ("b", .arr [.leaf "w"])])]) ∧
    ((getNestedSegs (Node.obj [("a", .obj [("x", .leaf "v")])]) (["a"] ++ ["b"]) = none →
        (isIndexSeg "0" = true →
          ∃ l, getNestedSegs (Node.obj [("a", .obj [("x", .leaf "v"), ("b", .arr [.leaf "w"])])])
            (["a"] ++ ["b"]) = some (.arr l)) ∧
        (isIndexSeg "0" = false →
          ∃ fs, getNestedSegs (Node.obj [("a", .obj [("x", .leaf "v"), ("b", .arr [.leaf "w"])])])
            (["a"] ++ ["b"]) = some (.obj fs))) ∧
     (∀ l, getNestedSegs (Node.obj [("a", .obj [("x", .leaf "v")])]) (["a"] ++ ["b"])
          = some (.arr l) →
        ∃ l2, getNestedSegs (Node.obj [("a", .obj [("x", .leaf "v"), ("b", .arr [.leaf "w"])])])
          (["a"] ++ ["b"]) = some (.arr l2)) ∧
     (∀ fs, getNestedSegs (Node.obj [("a", .obj [("x", .leaf "v")])]) (["a"] ++ ["b"])
          = some (.obj fs) →
        ∃ fs2, getNestedSegs (Node.obj [("a", .obj [("x", .leaf "v"), ("b", .arr [.leaf "w"])])])
          (["a"] ++ ["b"]) = some (.obj fs2))) :=
  ⟨by decide, by decide, by decide,
   setNested_creation_heuristic ["a"] "b" "0" [] "a.b.0"
     (.obj [("a", .obj [("x", .leaf "v")])]) (.leaf "w")
     (.obj [("a", .obj [("x", .leaf "v"), ("b", .arr [.leaf "w"])])])
     (by decide) (by decide) (by decide)⟩

theorem objSet_self (fs : List (String × Node)) (k : String) (v : Node)
    (h : objGet fs k = some v) : objSet fs k v = fs := by
  induction fs with
  | nil => simp [objGet] at h
  | cons p fs ih =>
      obtain ⟨k1, v1⟩ := p
      by_cases h1 : k1 = k
      · subst h1
        simp only [objGet, if_pos rfl] at h
        simp at h
        simp [objSet, h]
      · simp only [objGet, if_neg h1] at h
        simp [objSet, h1, ih h]

/-- The getter walk never turns a string leaf into a container. -/
theorem getNestedSegs_leaf : ∀ (segs : List String) (str : String) (x : Node),
    getNestedSegs (.leaf str) segs = some x → ∃ s2, x = .leaf s2 := by
  intro segs
  induction segs with
  | nil =>
      intro str x h
      simp only [getNestedSegs, List.foldl_nil, Option.some.injEq] at h
      exact ⟨str, h.symm⟩
  | cons k ks ih =>
      intro str x h
      rw [getNestedSegs_cons] at h
      cases hg : getStep (some (.leaf str)) k with
      | none => simp only [hg] at h; cases h
      | some c =>
          simp only [hg] at h
          simp only [getStep] at hg
          cases hci : canonIndex k with
          | none => simp only [hci] at hg; cases hg
          | some i =>
              simp only [hci] at hg
              simp only [Option.bind] at hg
              cases hgc : str.data.get? i with
              | none => simp only [hgc] at hg; cases hg
              | some ch =>
                  simp only [hgc] at hg
                  simp only [Option.map, Option.some.injEq] at hg
                  rw [← hg] at h
                  exact ih _ x h

/-- Updating the tree at a getter-resolved location makes the getter
return the new value there; stated for array-valued resolutions, which
never pass through a string leaf. -/
theorem updateAtGet_get : ∀ (segs : List String) (cur : Node) (a : List Node) (y : Node),
    getNestedSegs cur segs = some (.arr a) →
    getNestedSegs (updateAtGet cur segs y) segs = some y := by
  intro segs
  induction segs with
  | nil =>
      intro cur a y _
      rfl
  | cons k ks ih =>
      intro cur a y h
      rw [getNestedSegs_cons] at h
      cases hg : getStep (some cur) k with
      | none => simp only [hg] at h; cases h
      | some c =>
          simp only [hg] at h
          cases cur with
          | leaf str =>
              exfalso
              have hx : getNestedSegs (.leaf str) (k :: ks) = some (.arr a) := by
                rw [getNestedSegs_cons, hg]
                exact h
              obtain ⟨s2, hs2⟩ := getNestedSegs_leaf (k :: ks) str (.arr a) hx
              cases hs2
          | obj fs =>
              have hobj : objGet fs k = some c := hg
              simp only [updateAtGet, hobj]
              rw [getNestedSegs_cons, getStep_obj_set]
              exact ih c a y h
          | arr items =>
              simp only [getStep] at hg
              cases hpi : jsParseInt k with
              | none => simp only [hpi] at hg; cases hg
              | some j =>
                  simp only [hpi] at hg
                  by_cases hcond : 0 ≤ j ∧ j.toNat < items.length
                  · rw [if_pos hcond] at hg
                    simp only [updateAtGet, hpi]
                    rw [if_pos hcond.1]
                    rw [show items.get? j.toNat = some c from hg]
                    rw [getNestedSegs_cons]
                    have hstep : getStep (some (.arr (items.set j.toNat
                        (updateAtGet c ks y)))) k = some (updateAtGet c ks y) := by
                      simp only [getStep, hpi, List.length_set]
                      rw [if_pos hcond]
                      simp [List.get?_eq_getElem?, List.getElem?_set_self, hcond.2,
                        List.getElem?_eq_getElem]
                    rw [hstep]
                    exact ih c a y h
                  · rw [if_neg hcond] at hg; cases hg

/-- Writing back a value the getter already resolves at the same path
is invisible: the raw-last-key setter returns the tree unchanged. -/
theorem setSegsRaw_self : ∀ (rest : List String) (k : String) (cur : Node) (a : List Node),
    getNestedSegs cur (k :: rest) = some (.arr a) →
    setSegs true cur (k :: rest) (.arr a) = some cur := by
  intro rest
  induction rest with
  | nil =>
      intro k cur a h
      rw [getNestedSegs_cons] at h
      cases hg : getStep (some cur) k with
      | none => simp only [hg] at h; cases h
      | some c =>
          simp only [hg] at h
          simp only [getNestedSegs, List.foldl_nil, Option.some.injEq] at h
          subst h
          cases cur with
          | leaf str =>
              exfalso
              have hx : getNestedSegs (.leaf str) [k] = some (.arr a) := by
                rw [getNestedSegs_cons, hg]
                rfl
              obtain ⟨s2, hs2⟩ := getNestedSegs_leaf [k] str (.arr a) hx
              cases hs2
          | obj fs =>
              have hobj : objGet fs k = some (.arr a) := hg
              simp only [setSegs, if_true, childStore, Option.some.injEq]
              rw [objSet_self fs k (.arr a) hobj]
          | arr items =>
              simp only [getStep] at hg
              cases hpi : jsParseInt k with
              | none => simp only [hpi] at hg; cases hg
              | some j =>
                  simp only [hpi] at hg
                  by_cases hcond : 0 ≤ j ∧ j.toNat < items.length
                  · rw [if_pos hcond] at hg
                    simp only [setSegs, if_true, childStore]
                    cases hci : canonIndex k with
                    | none => simp only [hci]
                    | some i =>
                        have hpi2 : jsParseInt k = some (i : Int) := canonIndex_parseInt k i hci
                        rw [hpi] at hpi2
                        simp only [Option.some.injEq] at hpi2
                        have hji : j.toNat = i := by omega
                        rw [hji] at hg
                        simp only [hci]
                        rw [if_pos (hji ▸ hcond.2)]
                        rw [list_set_of_get items i (.arr a) hg]
                  · rw [if_neg hcond] at hg; cases hg
  | cons next rest2 ih =>
      intro k cur a h
      rw [getNestedSegs_cons] at h
      cases hg : getStep (some cur) k with
      | none => simp only [hg] at h; cases h
      | some c =>
          simp only [hg] at h
          cases cur with
          | leaf str =>
              exfalso
              have hx : getNestedSegs (.leaf str) (k :: next :: rest2) = some (.arr a) := by
                rw [getNestedSegs_cons, hg]
                exact h
              obtain ⟨s2, hs2⟩ := getNestedSegs_leaf _ str (.arr a) hx
              cases hs2
          | obj fs =>
              have hobj : objGet fs k = some c := hg
              have hchild : childGetForSet (.obj fs) k = some c := hobj
              simp only [setSegs, hchild]
              rw [ih next c a h]
              simp only [replaceAt]
              rw [objSet_self fs k c hobj]
          | arr items =>
              simp only [getStep] at hg
              cases hpi : jsParseInt k with
              | none => simp only [hpi] at hg; cases hg
              | some j =>
                  simp only [hpi] at hg
                  by_cases hcond : 0 ≤ j ∧ j.toNat < items.length
                  · rw [if_pos hcond] at hg
                    cases hci : canonIndex k with
                    | none =>
                        have hchild : childGetForSet (.arr items) k = none := by
                          simp [childGetForSet, hci]
                        simp only [setSegs, hchild, hci]
                    | some i =>
                        have : jsParseInt k = some (i : Int) := canonIndex_parseInt k i hci
                        rw [hpi] at this
                        simp only [Option.some.injEq] at this
                        have hji : j.toNat = i := by omega
                        have hchild : childGetForSet (.arr items) k = some c := by
                          simp only [childGetForSet, hci, Option.bind]
                          rw [← hji]
                          exact hg
                        simp only [setSegs, hchild]
                        rw [ih next c a h]
                        simp only [replaceAt, hci]
                        rw [← hji]
                        rw [list_set_of_get items j.toNat c hg]
                  · rw [if_neg hcond] at hg; cases hg

/-- Counterexample for C7: the canonical-location checks of the routes
fall short of the claim in three ways. A slug whose candidate file
canonicalizes outside the pages directory is read by GET
/api/microtext with no containment check at all; the microtext-array
route reports the same out-of-root resolution as a 404 page-not-found,
not as an invalid-path failure; and the containment test itself is a
string-prefix test, so a candidate canonicalizing into the
prefix-sharing sibling directory src/pages-backup, outside the pages
directory, passes it and is read and written with a 200. -/
theorem path_safety_counterexample :
    (microtextGet fsOutW "/site" "evil"
      = some ⟨[("microtext", .obj [("k", .leaf "classified")])], "SECRET"⟩ ∧
    arrayRoute fsOutW "/site" "evil" "features" .remove (some 0) none
      = (fsOutW, 404, none) ∧
    (fsOutW.realpath (firstCandidate "/site" "evil") = some "/etc/secret.mdx" ∧
      Store.jsStartsWith "/etc/secret.mdx" (pagesDir "/site") = false)) ∧
    (fsSibW.realpath (firstCandidate "/site" "evil2")
        = some "/site/src/pages-backup/secret.mdx" ∧
      Store.jsStartsWith "/site/src/pages-backup/secret.mdx" (pagesDir "/site") = true ∧
      Store.jsStartsWith "/site/src/pages-backup/secret.mdx"
        (pagesDir "/site" ++ "/") = false ∧
      (microtextRoute fsSibW "/site" "evil2" "k" "new").2.1 = 200 ∧
      (microtextRoute fsSibW "/site" "evil2" "k" "new").1.contents
          "/site/src/pages-backup/secret.mdx"
        = some ⟨[("microtext", .obj [("k", .leaf "new")])], "B"⟩) := by
  refine ⟨⟨rfl, ?_, rfl, rfl⟩, rfl, rfl, rfl, rfl, rfl⟩
  unfold arrayRoute
  rw [if_neg (by decide), if_neg (by decide)]
  rfl

/-- C7: what the routes actually guarantee. POST /api/microtext fails
with 403 Invalid path and touches no file whenever resolution is
invalid; the array route answers an unresolved slug with 404 and
touches no file; and a first candidate whose canonical location lies
outside the pages directory makes the POST resolution invalid and the
array-route resolution null. GET /api/microtext is outside this
statement: it checks nothing (see the counterexample). -/
theorem path_safety_amended (fs : Fs) (cwd slug id value arrayPath : String)
    (action : ArrAction) (index : Option Int) (template : Option Node)
    (hid : ¬ id = "") (hap : ¬ arrayPath = "")
    (hact : ¬ (action = .remove ∧ index = none)) :
    (resolveMicrotextPost fs cwd slug = .invalid →
      microtextRoute fs cwd slug id value = (fs, 403, none)) ∧
    (getFilePath fs cwd slug = none →
      arrayRoute fs cwd slug arrayPath action index template = (fs, 404, none)) ∧
    (∀ rp, fs.realpath (firstCandidate cwd slug) = some rp →
      Store.jsStartsWith rp (pagesDir cwd) = false →
      resolveMicrotextPost fs cwd slug = .invalid ∧
      getFilePath fs cwd slug = none) := by
  refine ⟨?_, ?_, ?_⟩
  · intro h
    unfold microtextRoute
    rw [if_neg hid]
    simp only [h]
  · intro h
    unfold arrayRoute
    rw [if_neg hap, if_neg hact]
    simp only [h]
  · intro rp hrp hsw
    unfold firstCandidate at hrp
    constructor
    · unfold resolveMicrotextPost
      dsimp only
      rw [hrp]
      simp only [hsw]
      rfl
    · unfold getFilePath
      dsimp only
      rw [hrp]
      simp only [hsw]
      rfl

/-- Witness for the amended path-safety theorem on the concrete
out-of-root filesystem: the microtext POST answers 403 without
touching the filesystem and the array route answers 404 without
touching the filesystem. -/
theorem path_safety_amended_witness :
    (¬ ("title" : String) = "") ∧ (¬ ("features" : String) = "") ∧
    (¬ (ArrAction.remove = .remove ∧ (some (0 : Int) : Option Int) = none)) ∧
    resolveMicrotextPost fsOutW "/site" "evil" = .invalid ∧
    getFilePath fsOutW "/site" "evil" = none ∧
    microtextRoute fsOutW "/site" "evil" "title" "v" = (fsOutW, 403, none) ∧
    arrayRoute fsOutW "/site" "evil" "features" .remove (some 0) none
      = (fsOutW, 404, none) :=
  ⟨by decide, by decide, by decide, rfl, rfl,
   (path_safety_amended fsOutW "/site" "evil" "title" "v" "features"
      .remove (some 0) none (by decide) (by decide) (by decide)).1 rfl,
   (path_safety_amended fsOutW "/site" "evil" "title" "v" "features"
      .remove (some 0) none (by decide) (by decide) (by decide)).2.1 rfl⟩

theorem eraseIdx_get_lt {α : Type} : ∀ (l : List α) (i j : Nat), j < i →
    (l.eraseIdx i).get? j = l.get? j := by
  intro l
  induction l with
  | nil => intro i j _; rfl
  | cons x xs ih =>
      intro i j h
      cases i with
      | zero => omega
      | succ n =>
          cases j with
          | zero => rfl
          | succ m =>
              simp only [List.eraseIdx, List.get?]
              exact ih n m (by omega)

theorem eraseIdx_get_ge {α : Type} : ∀ (l : List α) (i j : Nat), i ≤ j → i < l.length →
    (l.eraseIdx i).get? j = l.get? (j + 1) := by
  intro l
  induction l with
  | nil => intro i j _ hl; simp at hl
  | cons x xs ih =>
      intro i j hij hl
      cases i with
      | zero => simp [List.eraseIdx]
      | succ n =>
          cases j with
          | zero => omega
          | succ m =>
              simp only [List.eraseIdx, List.get?]
              exact ih n m (by omega) (by simpa using hl)

theorem eraseIdx_length {α : Type} : ∀ (l : List α) (i : Nat), i < l.length →
    (l.eraseIdx i).length + 1 = l.length := by
  intro l
  induction l with
  | nil => intro i h; simp at h
  | cons x xs ih =>
      intro i h
      cases i with
      | zero => simp [List.eraseIdx]
      | succ n =>
          simp only [List.eraseIdx, List.length_cons]
          rw [ih n (by simpa using h)]

theorem arrayFinish_true_eq (front1 : List (String × Node)) (body : String)
    (mt : Node) (arrayPath : String) (arr1 : List Node) (out : ArrayOpOut) :
    arrayFinish front1 body mt true arrayPath arr1 out
      = match ArrayApi.setNestedValue (updateAtGet mt (jsSplitDot arrayPath) (.arr arr1))
            arrayPath (.arr arr1) with
        | none => .err 500 "Failed to modify array"
        | some mtFin => .ok ⟨objSet front1 "microtext" mtFin, body⟩ out := by
  unfold arrayFinish
  dsimp only
  rw [if_pos rfl]

theorem arrayPost_remove_eq (doc : MdxDoc) (arrayPath : String) (i : Int)
    (l : List Node) (hne : ¬ arrayPath = "")
    (hpath : ArrayApi.getNestedValue (ensuredMicrotext doc.front).2 arrayPath
      = some (.arr l)) :
    arrayPost doc arrayPath .remove (some i) none
      = if i < 0 ∨ (l.length : Int) ≤ i then .err 400 "Index out of bounds"
        else match l.get? i.toNat with
          | none => .err 400 "Index out of bounds"
          | some removed =>
              arrayFinish (ensuredMicrotext doc.front).1 doc.body
                (ensuredMicrotext doc.front).2 true arrayPath (l.eraseIdx i.toNat)
                ⟨.remove, arrayPath, i, removed, (l.eraseIdx i.toNat).length⟩ := by
  unfold arrayPost
  rw [if_neg hne, if_neg (by simp)]
  dsimp only
  simp only [hpath]

/-- C4: removing index i from the array of length L at arrayPath:
when 0 ≤ i < L the item at i is removed, every later item shifts down
by one, the response carries the removed item and the new length L-1,
and the file now holds the shortened array at arrayPath; when i is out
of that range the operation fails with the out-of-bounds error and the
document is left unchanged. -/
theorem array_remove_spec (doc : MdxDoc) (arrayPath : String) (i : Int)
    (l : List Node) (hne : ¬ arrayPath = "")
    (hpath : ArrayApi.getNestedValue (ensuredMicrotext doc.front).2 arrayPath
      = some (.arr l)) :
    ((0 ≤ i ∧ i < (l.length : Int)) →
      ∃ removed, l.get? i.toNat = some removed ∧
        arrayPost doc arrayPath .remove (some i) none
          = .ok ⟨objSet (ensuredMicrotext doc.front).1 "microtext"
                  (updateAtGet (ensuredMicrotext doc.front).2 (jsSplitDot arrayPath)
                    (.arr (l.eraseIdx i.toNat))), doc.body⟩
              ⟨.remove, arrayPath, i, removed, (l.eraseIdx i.toNat).length⟩ ∧
        ArrayApi.getNestedValue (updateAtGet (ensuredMicrotext doc.front).2
            (jsSplitDot arrayPath) (.arr (l.eraseIdx i.toNat))) arrayPath
          = some (.arr (l.eraseIdx i.toNat)) ∧
        (l.eraseIdx i.toNat).length + 1 = l.length ∧
        (∀ j : Nat, j < i.toNat → (l.eraseIdx i.toNat).get? j = l.get? j) ∧
        (∀ j : Nat, i.toNat ≤ j → (l.eraseIdx i.toNat).get? j = l.get? (j + 1))) ∧
    ((i < 0 ∨ (l.length : Int) ≤ i) →
      arrayPost doc arrayPath .remove (some i) none = .err 400 "Index out of bounds" ∧
      afterDoc (arrayPost doc arrayPath .remove (some i) none) doc = doc) := by
  have hg : getNestedSegs (ensuredMicrotext doc.front).2 (jsSplitDot arrayPath)
      = some (.arr l) := by
    unfold ArrayApi.getNestedValue at hpath
    rw [if_neg hne] at hpath
    exact hpath
  constructor
  · intro hin
    have hlt : i.toNat < l.length := by omega
    obtain ⟨removed, hrm⟩ : ∃ r, l.get? i.toNat = some r := by
      rw [List.get?_eq_getElem?, List.getElem?_eq_getElem hlt]
      exact ⟨_, rfl⟩
    refine ⟨removed, hrm, ?_, ?_, ?_, ?_, ?_⟩
    · rw [arrayPost_remove_eq doc arrayPath i l hne hpath]
      rw [if_neg (by omega)]
      simp only [hrm]
      rw [arrayFinish_true_eq]
      have hmid := updateAtGet_get (jsSplitDot arrayPath)
        (ensuredMicrotext doc.front).2 l (.arr (l.eraseIdx i.toNat)) hg
      obtain ⟨k0, r0, hkr⟩ : ∃ a b, jsSplitDot arrayPath = a :: b := by
        cases hsp : jsSplitDot arrayPath with
        | nil => exact absurd hsp (jsSplitDot_ne_nil arrayPath)
        | cons a b => exact ⟨a, b, rfl⟩
      have hself : ArrayApi.setNestedValue
          (updateAtGet (ensuredMicrotext doc.front).2 (jsSplitDot arrayPath)
            (.arr (l.eraseIdx i.toNat))) arrayPath (.arr (l.eraseIdx i.toNat))
          = some (updateAtGet (ensuredMicrotext doc.front).2 (jsSplitDot arrayPath)
              (.arr (l.eraseIdx i.toNat))) := by
        unfold ArrayApi.setNestedValue
        rw [hkr]
        apply setSegsRaw_self r0 k0
        rw [← hkr]
        exact hmid
      rw [hself]
    · unfold ArrayApi.getNestedValue
      rw [if_neg hne]
      exact updateAtGet_get (jsSplitDot arrayPath) _ l _ hg
    · exact eraseIdx_length l i.toNat hlt
    · intro j hj
      exact eraseIdx_get_lt l i.toNat j hj
    · intro j hj
      exact eraseIdx_get_ge l i.toNat j hj hlt
  · intro hout
    have heq : arrayPost doc arrayPath .remove (some i) none
        = .err 400 "Index out of bounds" := by
      rw [arrayPost_remove_eq doc arrayPath i l hne hpath]
      rw [if_pos hout]
    exact ⟨heq, by rw [heq]; rfl⟩

/-- Witness for the array removal theorem on a three-item array:
removing index 1 succeeds and shifts the tail down; removing index 99
fails and leaves the document unchanged. -/
theorem array_remove_spec_witness :
    (¬ ("features" : String) = "") ∧
    ArrayApi.getNestedValue (ensuredMicrotext
        [("microtext", Node.obj [("features", .arr [.leaf "a", .leaf "b", .leaf "c"])])]).2
        "features" = some (.arr [.leaf "a", .leaf "b", .leaf "c"]) ∧
    (∃ removed, ([Node.leaf "a", .leaf "b", .leaf "c"]).get? (1 : Int).toNat = some removed ∧
      arrayPost ⟨[("microtext", .obj [("features", .arr [.leaf "a", .leaf "b", .leaf "c"])])], "BODY"⟩
          "features" .remove (some 1) none
        = .ok ⟨objSet (ensuredMicrotext
                [("microtext", Node.obj [("features", .arr [.leaf "a", .leaf "b", .leaf "c"])])]).1
                "microtext"
                (updateAtGet (ensuredMicrotext
                  [("microtext", Node.obj [("features", .arr [.leaf "a", .leaf "b", .leaf "c"])])]).2
                  (jsSplitDot "features")
                  (.arr (([Node.leaf "a", .leaf "b", .leaf "c"]).eraseIdx (1 : Int).toNat))), "BODY"⟩
            ⟨.remove, "features", 1, removed,
              (([Node.leaf "a", .leaf "b", .leaf "c"]).eraseIdx (1 : Int).toNat).length⟩ ∧
      ArrayApi.getNestedValue (updateAtGet (ensuredMicrotext
            [("microtext", Node.obj [("features", .arr [.leaf "a", .leaf "b", .leaf "c"])])]).2
            (jsSplitDot "features")
            (.arr (([Node.leaf "a", .leaf "b", .leaf "c"]).eraseIdx (1 : Int).toNat))) "features"
        = some (.arr (([Node.leaf "a", .leaf "b", .leaf "c"]).eraseIdx (1 : Int).toNat)) ∧
      (([Node.leaf "a", .leaf "b", .leaf "c"]).eraseIdx (1 : Int).toNat).length + 1
        = ([Node.leaf "a", .leaf "b", .leaf "c"]).length ∧
      (∀ j : Nat, j < (1 : Int).toNat →
        (([Node.leaf "a", .leaf "b", .leaf "c"]).eraseIdx (1 : Int).toNat).get? j
          = ([Node.leaf "a", .leaf "b", .leaf "c"]).get? j) ∧
      (∀ j : Nat, (1 : Int).toNat ≤ j →
        (([Node.leaf "a", .leaf "b", .leaf "c"]).eraseIdx (1 : Int).toNat).get? j
          = ([Node.leaf "a", .leaf "b", .leaf "c"]).get? (j + 1))) ∧
    (arrayPost ⟨[("microtext", .obj [("features", .arr [.leaf "a", .leaf "b", .leaf "c"])])], "BODY"⟩
        "features" .remove (some 99) none = .err 400 "Index out of bounds") :=
  ⟨by decide, by decide,
   (array_remove_spec
      ⟨[("microtext", .obj [("features", .arr [.leaf "a", .leaf "b", .leaf "c"])])], "BODY"⟩
      "features" 1 [Node.leaf "a", .leaf "b", .leaf "c"] (by decide) (by decide)).1
     (by constructor <;> decide),
   ((array_remove_spec
      ⟨[("microtext", .obj [("features", .arr [.leaf "a", .leaf "b", .leaf "c"])])], "BODY"⟩
      "features" 99 [Node.leaf "a", .leaf "b", .leaf "c"] (by decide) (by decide)).2
     (by right; decide)).1⟩

/-- Counterexample for C2: the flatten and replay pair is not the
identity on every all-string-leaf tree. An empty array vanishes since
it emits no entry; a numeric object key is replayed as an array index
and the replay fails; a dotted object key is replayed as a nested
path, reshaping the tree. -/
theorem flatten_roundtrip_counterexample :
    (roundTrip (.obj [("a", .arr [])]) = some (.obj []) ∧
      (Node.obj [] : Node) ≠ .obj [("a", .arr [])]) ∧
    roundTrip (.obj [("a", .obj [("3", .leaf "x")])]) = none ∧
    (roundTrip (.obj [("a.b", .leaf "x")])
        = some (.obj [("a", .obj [("b", .leaf "x")])]) ∧
      (Node.obj [("a", .obj [("b", .leaf "x")])] : Node) ≠ .obj [("a.b", .leaf "x")]) := by
  decide

theorem natDigits_zero : ∀ fuel, natDigits fuel 0 = []
  | 0 => rfl
  | _ + 1 => by simp [natDigits]

theorem digitChar_isDigit (d : Nat) : (digitChar d).isDigit = true := by
  rcases d with _|_|_|_|_|_|_|_|_|d
  · decide
  · decide
  · decide
  · decide
  · decide
  · decide
  · decide
  · decide
  · decide
  · show ('9').isDigit = true
    decide

theorem digitChar_toNat (d : Nat) (h : d < 10) : (digitChar d).toNat = 48 + d := by
  rcases d with _|_|_|_|_|_|_|_|_|d
  · decide
  · decide
  · decide
  · decide
  · decide
  · decide
  · decide
  · decide
  · decide
  · obtain rfl : d = 0 := by omega
    decide

theorem digit_not_dot (c : Char) (h : c.isDigit = true) : (c != '.') = true := by
  by_cases hc : c = '.'
  · subst hc; exact absurd h (by decide)
  · simp [bne_iff_ne, hc]

theorem natDigits_all_digit : ∀ fuel n, (natDigits fuel n).all Char.isDigit = true
  | 0, _ => rfl
  | fuel + 1, n => by
      unfold natDigits
      by_cases h : n = 0
      · simp [h]
      · rw [if_neg h, List.all_append, natDigits_all_digit fuel (n / 10)]
        simp [digitChar_isDigit]

theorem digitsVal_append (ds : List Char) (c : Char) :
    digitsVal (ds ++ [c]) = digitsVal ds * 10 + (c.toNat - 48) := by
  unfold digitsVal
  rw [List.foldl_append]
  rfl

theorem natDigits_val : ∀ fuel n, n ≤ fuel → digitsVal (natDigits fuel n) = n
  | 0, n, h => by
      obtain rfl : n = 0 := by omega
      rfl
  | fuel + 1, n, h => by
      unfold natDigits
      by_cases h0 : n = 0
      · subst h0; simp [digitsVal]
      · rw [if_neg h0, digitsVal_append]
        have hdiv : n / 10 ≤ fuel := by
          have := Nat.div_lt_self (Nat.pos_of_ne_zero h0) (by omega : 1 < 10)
          omega
        rw [natDigits_val fuel (n / 10) hdiv]
        rw [digitChar_toNat (n % 10) (Nat.mod_lt n (by omega))]
        omega

theorem natDigits_head : ∀ fuel n, 0 < n → n ≤ fuel →
    ∃ c cs, natDigits fuel n = c :: cs ∧ ¬ c = '0'
  | 0, _, h, hle => absurd rfl (by omega : ¬ (0 : Nat) = 0)
  | fuel + 1, n, h, hle => by
      unfold natDigits
      rw [if_neg (by omega : ¬ n = 0)]
      by_cases hlt : n < 10
      · have h10 : n / 10 = 0 := Nat.div_eq_of_lt hlt
        rw [h10, natDigits_zero]
        refine ⟨digitChar (n % 10), [], rfl, ?_⟩
        rw [Nat.mod_eq_of_lt hlt]
        rcases n with _|_|_|_|_|_|_|_|_|n
        · omega
        · decide
        · decide
        · decide
        · decide
        · decide
        · decide
        · decide
        · decide
        · obtain rfl : n = 0 := by omega
          decide
      · have hpos : 0 < n / 10 := Nat.div_pos (by omega) (by omega)
        have hle2 : n / 10 ≤ fuel := by
          have := Nat.div_lt_self h (by omega : 1 < 10)
          omega
        obtain ⟨c, cs, heq, hc⟩ := natDigits_head fuel (n / 10) hpos hle2
        rw [heq]
        exact ⟨c, cs ++ [digitChar (n % 10)], rfl, hc⟩

theorem natStr_data (n : Nat) (h : 0 < n) : (natStr n).data = natDigits n n := by
  unfold natStr
  rw [if_neg (by omega)]

theorem canonIndex_natStr (n : Nat) : canonIndex (natStr n) = some n := by
  by_cases h0 : n = 0
  · subst h0; decide
  · have hpos : 0 < n := by omega
    obtain ⟨c, cs, heq, hc0⟩ := natDigits_head n n hpos (Nat.le_refl n)
    have hall : (c :: cs).all Char.isDigit = true := by
      rw [← heq]; exact natDigits_all_digit n n
    rw [List.all_cons, Bool.and_eq_true] at hall
    unfold canonIndex
    rw [natStr_data n hpos, heq]
    dsimp only
    rw [if_neg hc0, if_pos ⟨hall.1, hall.2⟩]
    rw [← heq, natDigits_val n n (Nat.le_refl n)]

theorem jsParseInt_natStr (n : Nat) : jsParseInt (natStr n) = some (n : Int) :=
  canonIndex_parseInt (natStr n) n (canonIndex_natStr n)

theorem isIndexSeg_natStr (n : Nat) : isIndexSeg (natStr n) = true := by
  unfold isIndexSeg
  rw [jsParseInt_natStr]
  rfl

theorem natStr_ne_empty (n : Nat) : ¬ natStr n = "" := by
  by_cases h0 : n = 0
  · subst h0; decide
  · have hpos : 0 < n := by omega
    obtain ⟨c, cs, heq, _⟩ := natDigits_head n n hpos (Nat.le_refl n)
    intro h
    have hdata : (natStr n).data = [] := by rw [h]
    rw [natStr_data n hpos, heq] at hdata
    exact absurd hdata (by simp)

theorem natStr_no_dot (n : Nat) : (natStr n).data.all (fun c => c != '.') = true := by
  by_cases h0 : n = 0
  · subst h0; decide
  · rw [natStr_data n (by omega)]
    have hall := natDigits_all_digit n n
    rw [List.all_eq_true] at hall ⊢
    intro c hcmem
    exact digit_not_dot c (hall c hcmem)

theorem splitDotAux_no_dot (xs : List Char) :
    ∀ acc, xs.all (fun c => c != '.') = true →
    splitDotAux xs acc = [String.mk (acc.reverse ++ xs)] := by
  induction xs with
  | nil => intro acc _; simp [splitDotAux]
  | cons x xs ih =>
      intro acc h
      rw [List.all_cons, Bool.and_eq_true] at h
      have hx : ¬ x = '.' := by simpa [bne_iff_ne] using h.1
      unfold splitDotAux
      rw [if_neg hx, ih (x :: acc) h.2]
      simp [List.reverse_cons, List.append_assoc]

theorem splitDotAux_dot (xs ys : List Char) :
    ∀ acc, xs.all (fun c => c != '.') = true →
    splitDotAux (xs ++ '.' :: ys) acc
      = String.mk (acc.reverse ++ xs) :: splitDotAux ys [] := by
  induction xs with
  | nil => intro acc _; simp [splitDotAux]
  | cons x xs ih =>
      intro acc h
      rw [List.all_cons, Bool.and_eq_true] at h
      have hx : ¬ x = '.' := by simpa [bne_iff_ne] using h.1
      show splitDotAux (x :: (xs ++ '.' :: ys)) acc = _
      rw [show splitDotAux (x :: (xs ++ '.' :: ys)) acc
            = if x = '.' then String.mk acc.reverse :: splitDotAux (xs ++ '.' :: ys) []
              else splitDotAux (xs ++ '.' :: ys) (x :: acc) from rfl]
      rw [if_neg hx, ih (x :: acc) h.2]
      simp [List.reverse_cons, List.append_assoc]

theorem jsSplitDot_single (s : String)
    (h : s.data.all (fun c => c != '.') = true) : jsSplitDot s = [s] := by
  unfold jsSplitDot
  rw [splitDotAux_no_dot s.data [] h]
  rfl

theorem jsSplitDot_dotJoin : ∀ (segs : List String), segs ≠ [] →
    (∀ s ∈ segs, s.data.all (fun c => c != '.') = true) →
    jsSplitDot (dotJoin segs) = segs
  | [], h, _ => absurd rfl h
  | [s], _, hall => jsSplitDot_single s (hall s (by simp))
  | s :: s2 :: rest, _, hall => by
      have hrec := jsSplitDot_dotJoin (s2 :: rest) (by simp)
        (fun x hx => hall x (by simp [hx]))
      show jsSplitDot (s ++ "." ++ dotJoin (s2 :: rest)) = s :: s2 :: rest
      unfold jsSplitDot
      have hdata : (s ++ "." ++ dotJoin (s2 :: rest)).data
          = s.data ++ '.' :: (dotJoin (s2 :: rest)).data := by
        rw [String.data_append, String.data_append]
        simp [List.append_assoc]
      rw [hdata]
      rw [splitDotAux_dot s.data (dotJoin (s2 :: rest)).data [] (hall s (by simp))]
      rw [show splitDotAux (dotJoin (s2 :: rest)).data []
            = jsSplitDot (dotJoin (s2 :: rest)) from rfl]
      rw [hrec]
      rfl

theorem joinKey_empty_pre (k : String) : joinKey "" k = k := by
  unfold joinKey
  rw [if_pos rfl]

theorem joinKey_ne (pre k : String) (h : ¬ pre = "") :
    joinKey pre k = pre ++ "." ++ k := by
  unfold joinKey
  rw [if_neg h]

theorem append_dot_ne_empty (pre s : String) : ¬ (pre ++ "." ++ s) = "" := by
  intro h
  have hdata : (pre ++ "." ++ s).data = [] := by rw [h]
  rw [String.data_append, String.data_append] at hdata
  simp at hdata

theorem dotJoin_shift (pre s : String) (rest : List String) :
    dotJoin ((pre ++ "." ++ s) :: rest) = pre ++ "." ++ dotJoin (s :: rest) := by
  cases rest with
  | nil => rfl
  | cons r rs =>
      show (pre ++ "." ++ s) ++ "." ++ dotJoin (r :: rs)
        = pre ++ "." ++ (s ++ "." ++ dotJoin (r :: rs))
      simp [String.append_assoc]

theorem foldl_joinKey : ∀ (segs : List String) (pre : String), ¬ pre = "" →
    segs.foldl joinKey pre = dotJoin (pre :: segs)
  | [], _, _ => rfl
  | s :: rest, pre, hpre => by
      show rest.foldl joinKey (joinKey pre s) = dotJoin (pre :: s :: rest)
      rw [joinKey_ne pre s hpre]
      rw [foldl_joinKey rest (pre ++ "." ++ s) (append_dot_ne_empty pre s)]
      rw [dotJoin_shift]
      rfl

theorem set_get_self {α : Type} (l : List α) (i : Nat) (a : α) (h : i < l.length) :
    (l.set i a).get? i = some a := by
  rw [List.get?_eq_getElem?, List.getElem?_set_self]
  exact h

theorem get_concat_length {α : Type} (l : List α) (x : α) :
    (l ++ [x]).get? l.length = some x := by
  rw [List.get?_eq_getElem?, List.getElem?_concat_length]

theorem set_concat_length {α : Type} : ∀ (l : List α) (x y : α),
    (l ++ [x]).set l.length y = l ++ [y]
  | [], _, _ => rfl
  | a :: l, x, y => by
      show a :: (l ++ [x]).set l.length y = a :: (l ++ [y])
      rw [set_concat_length l x y]

theorem setSegs_cons_found (lastRaw : Bool) (cur c : Node) (key next : String)
    (rest : List String) (v : Node) (h : childGetForSet cur key = some c) :
    setSegs lastRaw cur (key :: next :: rest) v
      = match setSegs lastRaw c (next :: rest) v with
        | none => none
        | some c2 => some (replaceAt cur key c2) := by
  simp only [setSegs, h]

theorem setSegs_cons_missing_obj (lastRaw : Bool) (fs : List (String × Node))
    (key next : String) (rest : List String) (v : Node)
    (h : objGet fs key = none) :
    setSegs lastRaw (.obj fs) (key :: next :: rest) v
      = match setSegs lastRaw (freshFor next) (next :: rest) v with
        | none => none
        | some c2 => some (.obj (objSet fs key c2)) := by
  have hc : childGetForSet (.obj fs) key = none := h
  simp only [setSegs, hc]

theorem setSegs_cons_missing_arr (lastRaw : Bool) (items : List Node)
    (key next : String) (rest : List String) (v : Node) (i : Nat)
    (hci : canonIndex key = some i) (hget : items.get? i = none)
    (hi : i = items.length) :
    setSegs lastRaw (.arr items) (key :: next :: rest) v
      = match setSegs lastRaw (freshFor next) (next :: rest) v with
        | none => none
        | some c2 => some (.arr (items ++ [c2])) := by
  have hc : childGetForSet (.arr items) key = none := by
    show (canonIndex key).bind (fun j => items.get? j) = none
    rw [hci]
    exact hget
  simp only [setSegs, hc, hci]
  rw [if_pos hi]

theorem setSegs_last_obj (fs : List (String × Node)) (k : String) (v : Node) :
    setSegs false (.obj fs) [k] v = some (.obj (objSet fs k v)) := rfl

theorem setSegs_last_arr_append (items : List Node) (n : Nat) (s : String)
    (v : Node) (hps : jsParseInt s = some (n : Int)) (hlen : n = items.length) :
    setSegs false (.arr items) [s] v = some (.arr (items ++ [v])) := by
  show setLastParsed (.arr items) s v = _
  simp only [setLastParsed, hps]
  rw [if_neg (by omega : ¬ (n : Int) < 0)]
  rw [Int.toNat_natCast]
  rw [if_neg (by omega : ¬ n < items.length), if_pos hlen]

theorem foldl_applySegEntry_none : ∀ (es : List (List String × String)),
    es.foldl applySegEntry none = none
  | [] => rfl
  | e :: es => by
      show es.foldl applySegEntry (applySegEntry none e) = none
      rw [show applySegEntry none e = none from rfl]
      exact foldl_applySegEntry_none es

theorem replaySegs_cons_none (e : List String × String)
    (es : List (List String × String)) (t : Node)
    (h : setSegs false t e.1 (.leaf e.2) = none) :
    replaySegs (e :: es) t = none := by
  show es.foldl applySegEntry (applySegEntry (some t) e) = none
  rw [show applySegEntry (some t) e = setSegs false t e.1 (.leaf e.2) from rfl, h]
  exact foldl_applySegEntry_none es

theorem replaySegs_cons_some (e : List String × String)
    (es : List (List String × String)) (t t2 : Node)
    (h : setSegs false t e.1 (.leaf e.2) = some t2) :
    replaySegs (e :: es) t = replaySegs es t2 := by
  show es.foldl applySegEntry (applySegEntry (some t) e) = _
  rw [show applySegEntry (some t) e = setSegs false t e.1 (.leaf e.2) from rfl, h]
  rfl

theorem replaySegs_append (es1 es2 : List (List String × String)) (t : Node) :
    replaySegs (es1 ++ es2) t
      = match replaySegs es1 t with
        | none => none
        | some t2 => replaySegs es2 t2 := by
  unfold replaySegs
  rw [List.foldl_append]
  cases h : List.foldl applySegEntry (some t) es1 with
  | none => exact foldl_applySegEntry_none es2
  | some t2 => rfl

theorem replay_obj_existing : ∀ (es : List (List String × String))
    (fs : List (String × Node)) (k : String) (c0 : Node),
    (∀ e ∈ es, e.1 ≠ []) → objGet fs k = some c0 →
    replaySegs (es.map (fun e => (k :: e.1, e.2))) (.obj fs)
      = (replaySegs es c0).map (fun c => Node.obj (objSet fs k c))
  | [], fs, k, c0, _, hget => by
      show some (Node.obj fs) = some (.obj (objSet fs k c0))
      rw [objSet_self fs k c0 hget]
  | e :: es, fs, k, c0, hne, hget => by
      obtain ⟨s, r, hsr⟩ : ∃ a b, e.1 = a :: b := by
        cases he : e.1 with
        | nil => exact absurd he (hne e (by simp))
        | cons a b => exact ⟨a, b, rfl⟩
      have hcg : childGetForSet (.obj fs) k = some c0 := hget
      rw [List.map_cons]
      cases hset : setSegs false c0 e.1 (.leaf e.2) with
      | none =>
          have hstep : setSegs false (.obj fs) (k :: e.1) (.leaf e.2) = none := by
            rw [hsr] at hset ⊢
            rw [setSegs_cons_found false (.obj fs) c0 k s r (.leaf e.2) hcg, hset]
          rw [replaySegs_cons_none (k :: e.1, e.2) _ _ hstep]
          rw [replaySegs_cons_none e es c0 hset]
          rfl
      | some c2 =>
          have hstep : setSegs false (.obj fs) (k :: e.1) (.leaf e.2)
              = some (.obj (objSet fs k c2)) := by
            rw [hsr] at hset ⊢
            rw [setSegs_cons_found false (.obj fs) c0 k s r (.leaf e.2) hcg, hset]
            rfl
          rw [replaySegs_cons_some (k :: e.1, e.2) _ _ _ hstep]
          rw [replay_obj_existing es (objSet fs k c2) k c2
            (fun x hx => hne x (by simp [hx])) (objGet_objSet_self fs k c2)]
          rw [replaySegs_cons_some e es c0 c2 hset]
          cases replaySegs es c2 with
          | none => rfl
          | some c =>
              show some (Node.obj (objSet (objSet fs k c2) k c))
                = some (Node.obj (objSet fs k c))
              rw [objSet_objSet]

theorem replay_arr_existing : ∀ (es : List (List String × String))
    (items : List Node) (i : Nat) (c0 : Node),
    (∀ e ∈ es, e.1 ≠ []) → items.get? i = some c0 →
    replaySegs (es.map (fun e => (natStr i :: e.1, e.2))) (.arr items)
      = (replaySegs es c0).map (fun c => Node.arr (items.set i c))
  | [], items, i, c0, _, hget => by
      show some (Node.arr items) = some (.arr (items.set i c0))
      rw [list_set_of_get items i c0 hget]
  | e :: es, items, i, c0, hne, hget => by
      obtain ⟨s, r, hsr⟩ : ∃ a b, e.1 = a :: b := by
        cases he : e.1 with
        | nil => exact absurd he (hne e (by simp))
        | cons a b => exact ⟨a, b, rfl⟩
      have hcg : childGetForSet (.arr items) (natStr i) = some c0 := by
        show (canonIndex (natStr i)).bind (fun j => items.get? j) = some c0
        rw [canonIndex_natStr]
        exact hget
      have hlt : i < items.length := get?_lt hget
      rw [List.map_cons]
      cases hset : setSegs false c0 e.1 (.leaf e.2) with
      | none =>
          have hstep : setSegs false (.arr items) (natStr i :: e.1) (.leaf e.2)
              = none := by
            rw [hsr] at hset ⊢
            rw [setSegs_cons_found false (.arr items) c0 (natStr i) s r
              (.leaf e.2) hcg, hset]
          rw [replaySegs_cons_none (natStr i :: e.1, e.2) _ _ hstep]
          rw [replaySegs_cons_none e es c0 hset]
          rfl
      | some c2 =>
          have hstep : setSegs false (.arr items) (natStr i :: e.1) (.leaf e.2)
              = some (.arr (items.set i c2)) := by
            rw [hsr] at hset ⊢
            rw [setSegs_cons_found false (.arr items) c0 (natStr i) s r
              (.leaf e.2) hcg, hset]
            simp only [replaceAt, canonIndex_natStr]
          rw [replaySegs_cons_some (natStr i :: e.1, e.2) _ _ _ hstep]
          rw [replay_arr_existing es (items.set i c2) i c2
            (fun x hx => hne x (by simp [hx]))
            (set_get_self items i c2 hlt)]
          rw [replaySegs_cons_some e es c0 c2 hset]
          cases replaySegs es c2 with
          | none => rfl
          | some c =>
              show some (Node.arr ((items.set i c2).set i c))
                = some (Node.arr (items.set i c))
              rw [List.set_set]

theorem freshFor_index (n : Nat) : freshFor (natStr n) = .arr [] := by
  unfold freshFor
  rw [isIndexSeg_natStr]
  rfl

theorem freshFor_goodKey (k : String) (h : goodKey k = true) : freshFor k = .obj [] := by
  unfold goodKey at h
  rw [Bool.and_eq_true, Bool.and_eq_true] at h
  have hidx : isIndexSeg k = false := by
    have := h.2
    cases hi : isIndexSeg k
    · rfl
    · rw [hi] at this; exact absurd this (by decide)
  unfold freshFor
  rw [hidx]
  rfl

theorem objSet_append : ∀ (acc : List (String × Node)) (k : String) (v : Node),
    objGet acc k = none → objSet acc k v = acc ++ [(k, v)]
  | [], _, _, _ => rfl
  | (k1, v1) :: acc, k, v, h => by
      have h1 : ¬ k1 = k := by
        intro hk
        unfold objGet at h
        rw [if_pos hk] at h
        exact absurd h (by simp)
      have h2 : objGet acc k = none := by
        unfold objGet at h
        rw [if_neg h1] at h
        exact h
      show objSet ((k1, v1) :: acc) k v = (k1, v1) :: (acc ++ [(k, v)])
      unfold objSet
      rw [if_neg h1, objSet_append acc k v h2]

theorem objGet_append_none : ∀ (acc : List (String × Node)) (k key : String) (v : Node),
    objGet acc key = none → ¬ key = k →
    objGet (acc ++ [(k, v)]) key = none
  | [], k, key, v, _, hne => by
      show objGet [(k, v)] key = none
      unfold objGet
      rw [if_neg (fun h => hne h.symm)]
      rfl
  | (k1, v1) :: acc, k, key, v, h, hne => by
      have h1 : ¬ k1 = key := by
        intro hk
        unfold objGet at h
        rw [if_pos hk] at h
        exact absurd h (by simp)
      have h2 : objGet acc key = none := by
        unfold objGet at h
        rw [if_neg h1] at h
        exact h
      show objGet ((k1, v1) :: (acc ++ [(k, v)])) key = none
      unfold objGet
      rw [if_neg h1]
      exact objGet_append_none acc k key v h2 hne

theorem segItems_entry_cons : ∀ (its : List Node) (i : Nat),
    ∀ e ∈ segItems its i, e.1 ≠ ([] : List String)
  | [], _, e, he => absurd he (by simp [segItems])
  | it :: its, i, e, he => by
      rw [show segItems (it :: its) i
            = (segFlattenVal it).map (fun e => (natStr i :: e.1, e.2))
              ++ segItems its (i + 1) from rfl] at he
      rw [List.mem_append] at he
      cases he with
      | inl h =>
          obtain ⟨a, _, rfl⟩ := List.mem_map.mp h
          simp
      | inr h => exact segItems_entry_cons its (i + 1) e h

theorem segFields_entry_cons : ∀ (fs : List (String × Node)),
    ∀ e ∈ segFields fs, e.1 ≠ ([] : List String)
  | [], e, he => absurd he (by simp [segFields])
  | (k, v) :: fs, e, he => by
      rw [show segFields ((k, v) :: fs)
            = (segFlattenVal v).map (fun e => (k :: e.1, e.2)) ++ segFields fs from rfl] at he
      rw [List.mem_append] at he
      cases he with
      | inl h =>
          obtain ⟨a, _, rfl⟩ := List.mem_map.mp h
          simp
      | inr h => exact segFields_entry_cons fs e h

theorem replay_obj_fresh (e : List String × String) (es : List (List String × String))
    (fs : List (String × Node)) (k s : String) (r : List String)
    (hsr : e.1 = s :: r) (hne : ∀ x ∈ e :: es, x.1 ≠ ([] : List String))
    (hget : objGet fs k = none) :
    replaySegs ((e :: es).map (fun x => (k :: x.1, x.2))) (.obj fs)
      = (replaySegs (e :: es) (freshFor s)).map (fun c => Node.obj (objSet fs k c)) := by
  rw [List.map_cons]
  cases hset : setSegs false (freshFor s) e.1 (.leaf e.2) with
  | none =>
      have hstep : setSegs false (.obj fs) (k :: e.1) (.leaf e.2) = none := by
        rw [hsr] at hset ⊢
        rw [setSegs_cons_missing_obj false fs k s r (.leaf e.2) hget, hset]
      rw [replaySegs_cons_none (k :: e.1, e.2) _ _ hstep]
      rw [replaySegs_cons_none e es (freshFor s) hset]
      rfl
  | some c2 =>
      have hstep : setSegs false (.obj fs) (k :: e.1) (.leaf e.2)
          = some (.obj (objSet fs k c2)) := by
        rw [hsr] at hset ⊢
        rw [setSegs_cons_missing_obj false fs k s r (.leaf e.2) hget, hset]
      rw [replaySegs_cons_some (k :: e.1, e.2) _ _ _ hstep]
      rw [replay_obj_existing es (objSet fs k c2) k c2
        (fun x hx => hne x (by simp [hx])) (objGet_objSet_self fs k c2)]
      rw [replaySegs_cons_some e es (freshFor s) c2 hset]
      cases replaySegs es c2 with
      | none => rfl
      | some c =>
          show some (Node.obj (objSet (objSet fs k c2) k c))
            = some (Node.obj (objSet fs k c))
          rw [objSet_objSet]

theorem replay_arr_append (e : List String × String) (es : List (List String × String))
    (items : List Node) (s : String) (r : List String)
    (hsr : e.1 = s :: r) (hne : ∀ x ∈ e :: es, x.1 ≠ ([] : List String)) :
    replaySegs ((e :: es).map (fun x => (natStr items.length :: x.1, x.2))) (.arr items)
      = (replaySegs (e :: es) (freshFor s)).map (fun c => Node.arr (items ++ [c])) := by
  have hci := canonIndex_natStr items.length
  have hget : items.get? items.length = none := List.get?_eq_none.mpr (Nat.le_refl _)
  rw [List.map_cons]
  cases hset : setSegs false (freshFor s) e.1 (.leaf e.2) with
  | none =>
      have hstep : setSegs false (.arr items) (natStr items.length :: e.1) (.leaf e.2)
          = none := by
        rw [hsr] at hset ⊢
        rw [setSegs_cons_missing_arr false items (natStr items.length) s r (.leaf e.2)
          items.length hci hget rfl, hset]
      rw [replaySegs_cons_none (natStr items.length :: e.1, e.2) _ _ hstep]
      rw [replaySegs_cons_none e es (freshFor s) hset]
      rfl
  | some c2 =>
      have hstep : setSegs false (.arr items) (natStr items.length :: e.1) (.leaf e.2)
          = some (.arr (items ++ [c2])) := by
        rw [hsr] at hset ⊢
        rw [setSegs_cons_missing_arr false items (natStr items.length) s r (.leaf e.2)
          items.length hci hget rfl, hset]
      rw [replaySegs_cons_some (natStr items.length :: e.1, e.2) _ _ _ hstep]
      rw [replay_arr_existing es (items ++ [c2]) items.length c2
        (fun x hx => hne x (by simp [hx])) (get_concat_length items c2)]
      rw [replaySegs_cons_some e es (freshFor s) c2 hset]
      cases replaySegs es c2 with
      | none => rfl
      | some c =>
          show some (Node.arr ((items ++ [c2]).set items.length c))
            = some (Node.arr (items ++ [c]))
          rw [set_concat_length]

theorem segFlattenVal_ne_nil : ∀ v, goodVal v = true → segFlattenVal v ≠ [] := by
  intro v
  induction v using Node.inductionOn with
  | hleaf s => intro _; simp [segFlattenVal]
  | harr items ih =>
      intro hg
      rw [show goodVal (.arr items) = (!items.isEmpty && goodItems items) from rfl,
        Bool.and_eq_true] at hg
      cases items with
      | nil => exact absurd hg.1 (by decide)
      | cons it its =>
          have hgit : goodVal it = true := by
            have := hg.2
            rw [show goodItems (it :: its) = (goodVal it && goodItems its) from rfl,
              Bool.and_eq_true] at this
            exact this.1
          have hne := ih it (by simp) hgit
          show segItems (it :: its) 0 ≠ []
          rw [show segItems (it :: its) 0
                = (segFlattenVal it).map (fun e => (natStr 0 :: e.1, e.2))
                  ++ segItems its 1 from rfl]
          cases hm : segFlattenVal it with
          | nil => exact absurd hm hne
          | cons a l => simp
  | hobj fs ih =>
      intro hg
      rw [show goodVal (.obj fs)
            = ((!fs.isEmpty && distinctKeys fs) && goodFields fs) from rfl,
        Bool.and_eq_true, Bool.and_eq_true] at hg
      cases fs with
      | nil => exact absurd hg.1.1 (by decide)
      | cons p fs2 =>
          obtain ⟨k, v⟩ := p
          have hgv : goodVal v = true := by
            have := hg.2
            rw [show goodFields ((k, v) :: fs2)
                  = (goodKey k && goodVal v && goodFields fs2) from rfl,
              Bool.and_eq_true, Bool.and_eq_true] at this
            exact this.1.2
          have hne := ih (k, v) (by simp) hgv
          show segFields ((k, v) :: fs2) ≠ []
          rw [show segFields ((k, v) :: fs2)
                = (segFlattenVal v).map (fun e => (k :: e.1, e.2))
                  ++ segFields fs2 from rfl]
          cases hm : segFlattenVal v with
          | nil => exact absurd hm hne
          | cons a l => simp

theorem natStr_goodSeg (n : Nat) : goodSeg (natStr n) = true := by
  unfold goodSeg
  rw [natStr_no_dot]
  have h2 : (natStr n == "") = false := by
    cases hb : (natStr n == "")
    · rfl
    · exact absurd (by simpa using hb) (natStr_ne_empty n)
  rw [h2]
  rfl

theorem goodKey_goodSeg (k : String) (h : goodKey k = true) : goodSeg k = true := by
  unfold goodKey at h
  rw [Bool.and_eq_true, Bool.and_eq_true] at h
  unfold goodSeg
  rw [h.1.1, h.1.2]
  rfl

theorem segs_good_items_aux : ∀ (its : List Node),
    (∀ x ∈ its, goodVal x = true →
      ∀ e ∈ segFlattenVal x, ∀ s ∈ e.1, goodSeg s = true) →
    goodItems its = true →
    ∀ (i : Nat), ∀ e ∈ segItems its i, ∀ s ∈ e.1, goodSeg s = true
  | [], _, _, i, e, he, _, _ => absurd he (by simp [segItems])
  | it :: its, hx, hg, i, e, he, s, hs => by
      rw [show goodItems (it :: its) = (goodVal it && goodItems its) from rfl,
        Bool.and_eq_true] at hg
      rw [show segItems (it :: its) i
            = (segFlattenVal it).map (fun e => (natStr i :: e.1, e.2))
              ++ segItems its (i + 1) from rfl, List.mem_append] at he
      cases he with
      | inl h =>
          obtain ⟨a, ha, rfl⟩ := List.mem_map.mp h
          rcases List.mem_cons.mp hs with rfl | hmem
          · exact natStr_goodSeg i
          · exact hx it (by simp) hg.1 a ha s hmem
      | inr h =>
          exact segs_good_items_aux its (fun x hxm => hx x (by simp [hxm]))
            hg.2 (i + 1) e h s hs

theorem segs_good_fields_aux : ∀ (fs : List (String × Node)),
    (∀ p ∈ fs, goodVal p.2 = true →
      ∀ e ∈ segFlattenVal p.2, ∀ s ∈ e.1, goodSeg s = true) →
    goodFields fs = true →
    ∀ e ∈ segFields fs, ∀ s ∈ e.1, goodSeg s = true
  | [], _, _, e, he, _, _ => absurd he (by simp [segFields])
  | (k, v) :: fs, hx, hg, e, he, s, hs => by
      rw [show goodFields ((k, v) :: fs)
            = ((goodKey k && goodVal v) && goodFields fs) from rfl,
        Bool.and_eq_true, Bool.and_eq_true] at hg
      rw [show segFields ((k, v) :: fs)
            = (segFlattenVal v).map (fun e => (k :: e.1, e.2))
              ++ segFields fs from rfl, List.mem_append] at he
      cases he with
      | inl h =>
          obtain ⟨a, ha, rfl⟩ := List.mem_map.mp h
          rcases List.mem_cons.mp hs with heq | hmem
          · rw [heq]; exact goodKey_goodSeg k hg.1.1
          · exact hx (k, v) (by simp) hg.1.2 a ha s hmem
      | inr h =>
          exact segs_good_fields_aux fs (fun x hxm => hx x (by simp [hxm]))
            hg.2 e h s hs

theorem segs_good_val : ∀ v, goodVal v = true →
    ∀ e ∈ segFlattenVal v, ∀ s ∈ e.1, goodSeg s = true := by
  intro v
  induction v using Node.inductionOn with
  | hleaf str =>
      intro _ e he s hs
      rw [show segFlattenVal (.leaf str) = [(([] : List String), str)] from rfl,
        List.mem_singleton] at he
      subst he
      simp at hs
  | harr items ih =>
      intro hg e he s hs
      rw [show goodVal (.arr items) = (!items.isEmpty && goodItems items) from rfl,
        Bool.and_eq_true] at hg
      exact segs_good_items_aux items (fun x hx => ih x hx) hg.2 0 e he s hs
  | hobj fs ih =>
      intro hg e he s hs
      rw [show goodVal (.obj fs)
            = ((!fs.isEmpty && distinctKeys fs) && goodFields fs) from rfl,
        Bool.and_eq_true] at hg
      exact segs_good_fields_aux fs (fun p hp => ih p hp) hg.2 e he s hs

theorem segFlattenVal_head_arr (items : List Node)
    (hg : goodVal (.arr items) = true) :
    ∃ e rest r0, segFlattenVal (.arr items) = e :: rest ∧ e.1 = natStr 0 :: r0 := by
  rw [show goodVal (.arr items) = (!items.isEmpty && goodItems items) from rfl,
    Bool.and_eq_true] at hg
  cases items with
  | nil => exact absurd hg.1 (by decide)
  | cons it its =>
      have hgit : goodVal it = true := by
        have := hg.2
        rw [show goodItems (it :: its) = (goodVal it && goodItems its) from rfl,
          Bool.and_eq_true] at this
        exact this.1
      show ∃ e rest r0, segItems (it :: its) 0 = e :: rest ∧ e.1 = natStr 0 :: r0
      rw [show segItems (it :: its) 0
            = (segFlattenVal it).map (fun e => (natStr 0 :: e.1, e.2))
              ++ segItems its 1 from rfl]
      cases hm : segFlattenVal it with
      | nil => exact absurd hm (segFlattenVal_ne_nil it hgit)
      | cons a l =>
          exact ⟨(natStr 0 :: a.1, a.2),
            l.map (fun e => (natStr 0 :: e.1, e.2)) ++ segItems its 1, a.1,
            by simp, rfl⟩

theorem segFlattenVal_head_obj (fs : List (String × Node))
    (hg : goodVal (.obj fs) = true) :
    ∃ e rest k0 r0, segFlattenVal (.obj fs) = e :: rest ∧ e.1 = k0 :: r0 ∧
      goodKey k0 = true := by
  rw [show goodVal (.obj fs)
        = ((!fs.isEmpty && distinctKeys fs) && goodFields fs) from rfl,
    Bool.and_eq_true] at hg
  cases fs with
  | nil => exact absurd hg.1 (by decide)
  | cons p fs2 =>
      obtain ⟨k, v⟩ := p
      have hkv : goodKey k = true ∧ goodVal v = true := by
        have := hg.2
        rw [show goodFields ((k, v) :: fs2)
              = ((goodKey k && goodVal v) && goodFields fs2) from rfl,
          Bool.and_eq_true, Bool.and_eq_true] at this
        exact this.1
      show ∃ e rest k0 r0, segFields ((k, v) :: fs2) = e :: rest ∧ _
      rw [show segFields ((k, v) :: fs2)
            = (segFlattenVal v).map (fun e => (k :: e.1, e.2))
              ++ segFields fs2 from rfl]
      cases hm : segFlattenVal v with
      | nil => exact absurd hm (segFlattenVal_ne_nil v hkv.2)
      | cons a l =>
          exact ⟨(k :: a.1, a.2),
            l.map (fun e => (k :: e.1, e.2)) ++ segFields fs2, k, a.1,
            by simp, rfl, hkv.1⟩

mutual
theorem flattenVal_seg : ∀ (v : Node) (pre : String),
    flattenVal v pre = (segFlattenVal v).map (fun e => (e.1.foldl joinKey pre, e.2))
  | .leaf _, _ => rfl
  | .arr items, pre => by
      show flattenItems items pre 0 = _
      rw [flattenItems_seg items pre 0]
      rfl
  | .obj fs, pre => by
      show flattenFields fs pre = _
      rw [flattenFields_seg fs pre]
      rfl

theorem flattenFields_seg : ∀ (fs : List (String × Node)) (pre : String),
    flattenFields fs pre = (segFields fs).map (fun e => (e.1.foldl joinKey pre, e.2))
  | [], _ => rfl
  | (k, v) :: fs, pre => by
      show flattenVal v (joinKey pre k) ++ flattenFields fs pre = _
      rw [flattenVal_seg v (joinKey pre k), flattenFields_seg fs pre]
      rw [show segFields ((k, v) :: fs)
            = (segFlattenVal v).map (fun e => (k :: e.1, e.2)) ++ segFields fs from rfl]
      rw [List.map_append, List.map_map]
      rfl

theorem flattenItems_seg : ∀ (its : List Node) (pre : String) (i : Nat),
    flattenItems its pre i = (segItems its i).map (fun e => (e.1.foldl joinKey pre, e.2))
  | [], _, _ => rfl
  | it :: its, pre, i => by
      show flattenVal it (joinKey pre (natStr i)) ++ flattenItems its pre (i + 1) = _
      rw [flattenVal_seg it (joinKey pre (natStr i)), flattenItems_seg its pre (i + 1)]
      rw [show segItems (it :: its) i
            = (segFlattenVal it).map (fun e => (natStr i :: e.1, e.2))
              ++ segItems its (i + 1) from rfl]
      rw [List.map_append, List.map_map]
      rfl
end

theorem replay_arr_acc : ∀ (its : List Node) (acc : List Node),
    goodItems its = true →
    (∀ x ∈ its, goodVal x = true →
      replaySegs (segFlattenVal x) (emptyLike x) = some x) →
    replaySegs (segItems its acc.length) (.arr acc) = some (.arr (acc ++ its))
  | [], acc, _, _ => by
      show replaySegs [] (.arr acc) = some (.arr (acc ++ []))
      rw [show acc ++ ([] : List Node) = acc from by simp]
      rfl
  | it :: its, acc, hg, hIH => by
      rw [show goodItems (it :: its) = (goodVal it && goodItems its) from rfl,
        Bool.and_eq_true] at hg
      rw [show segItems (it :: its) acc.length
            = (segFlattenVal it).map (fun e => (natStr acc.length :: e.1, e.2))
              ++ segItems its (acc.length + 1) from rfl]
      rw [replaySegs_append]
      have hblock : replaySegs ((segFlattenVal it).map
          (fun e => (natStr acc.length :: e.1, e.2))) (.arr acc)
          = some (.arr (acc ++ [it])) := by
        cases it with
        | leaf s =>
            show replaySegs [([natStr acc.length], s)] (.arr acc) = _
            rw [replaySegs_cons_some ([natStr acc.length], s) [] _ _
              (setSegs_last_arr_append acc acc.length (natStr acc.length) (.leaf s)
                (jsParseInt_natStr acc.length) rfl)]
            rfl
        | arr items2 =>
            obtain ⟨e0, rest0, r0, heq, hr0⟩ := segFlattenVal_head_arr items2 hg.1
            have hne2 : ∀ x ∈ e0 :: rest0, x.1 ≠ ([] : List String) := by
              intro x hx
              have hx2 : x ∈ segFlattenVal (.arr items2) := by rw [heq]; exact hx
              exact segItems_entry_cons items2 0 x hx2
            rw [heq, replay_arr_append e0 rest0 acc (natStr 0) r0 hr0 hne2]
            rw [freshFor_index 0]
            have hrep : replaySegs (segFlattenVal (.arr items2)) (.arr [])
                = some (.arr items2) := hIH (.arr items2) (by simp) hg.1
            rw [← heq, hrep]
            rfl
        | obj fs2 =>
            obtain ⟨e0, rest0, k0, r0, heq, hr0, hk0⟩ := segFlattenVal_head_obj fs2 hg.1
            have hne2 : ∀ x ∈ e0 :: rest0, x.1 ≠ ([] : List String) := by
              intro x hx
              have hx2 : x ∈ segFlattenVal (.obj fs2) := by rw [heq]; exact hx
              exact segFields_entry_cons fs2 x hx2
            rw [heq, replay_arr_append e0 rest0 acc k0 r0 hr0 hne2]
            rw [freshFor_goodKey k0 hk0]
            have hrep : replaySegs (segFlattenVal (.obj fs2)) (.obj [])
                = some (.obj fs2) := hIH (.obj fs2) (by simp) hg.1
            rw [← heq, hrep]
            rfl
      simp only [hblock]
      rw [show acc.length + 1 = (acc ++ [it]).length from by simp]
      rw [replay_arr_acc its (acc ++ [it]) hg.2 (fun x hx h => hIH x (by simp [hx]) h)]
      rw [show (acc ++ [it]) ++ its = acc ++ it :: its from by simp]

theorem replay_obj_acc : ∀ (fs acc : List (String × Node)),
    goodFields fs = true → distinctKeys fs = true →
    (∀ p ∈ fs, objGet acc p.1 = none) →
    (∀ p ∈ fs, goodVal p.2 = true →
      replaySegs (segFlattenVal p.2) (emptyLike p.2) = some p.2) →
    replaySegs (segFields fs) (.obj acc) = some (.obj (acc ++ fs))
  | [], acc, _, _, _, _ => by
      show replaySegs [] (.obj acc) = some (.obj (acc ++ []))
      rw [show acc ++ ([] : List (String × Node)) = acc from by simp]
      rfl
  | (k, v) :: fs, acc, hgf, hdk, habs, hIH => by
      rw [show goodFields ((k, v) :: fs)
            = ((goodKey k && goodVal v) && goodFields fs) from rfl,
        Bool.and_eq_true, Bool.and_eq_true] at hgf
      rw [show distinctKeys ((k, v) :: fs)
            = (!(fs.any (fun e => e.1 == k)) && distinctKeys fs) from rfl,
        Bool.and_eq_true] at hdk
      rw [show segFields ((k, v) :: fs)
            = (segFlattenVal v).map (fun e => (k :: e.1, e.2))
              ++ segFields fs from rfl]
      rw [replaySegs_append]
      have hknone : objGet acc k = none := habs (k, v) (by simp)
      have hblock : replaySegs ((segFlattenVal v).map
          (fun e => (k :: e.1, e.2))) (.obj acc)
          = some (.obj (acc ++ [(k, v)])) := by
        cases v with
        | leaf s =>
            show replaySegs [([k], s)] (.obj acc) = _
            rw [replaySegs_cons_some ([k], s) [] _ _ (setSegs_last_obj acc k (.leaf s))]
            show some (Node.obj (objSet acc k (.leaf s))) = _
            rw [objSet_append acc k (.leaf s) hknone]
        | arr items2 =>
            obtain ⟨e0, rest0, r0, heq, hr0⟩ := segFlattenVal_head_arr items2 hgf.1.2
            have hne2 : ∀ x ∈ e0 :: rest0, x.1 ≠ ([] : List String) := by
              intro x hx
              have hx2 : x ∈ segFlattenVal (.arr items2) := by rw [heq]; exact hx
              exact segItems_entry_cons items2 0 x hx2
            rw [heq, replay_obj_fresh e0 rest0 acc k (natStr 0) r0 hr0 hne2 hknone]
            rw [freshFor_index 0]
            have hrep : replaySegs (segFlattenVal (.arr items2)) (.arr [])
                = some (.arr items2) := hIH (k, .arr items2) (by simp) hgf.1.2
            rw [← heq, hrep]
            show some (Node.obj (objSet acc k (.arr items2))) = _
            rw [objSet_append acc k (.arr items2) hknone]
        | obj fs2 =>
            obtain ⟨e0, rest0, k0, r0, heq, hr0, hk0⟩ :=
              segFlattenVal_head_obj fs2 hgf.1.2
            have hne2 : ∀ x ∈ e0 :: rest0, x.1 ≠ ([] : List String) := by
              intro x hx
              have hx2 : x ∈ segFlattenVal (.obj fs2) := by rw [heq]; exact hx
              exact segFields_entry_cons fs2 x hx2
            rw [heq, replay_obj_fresh e0 rest0 acc k k0 r0 hr0 hne2 hknone]
            rw [freshFor_goodKey k0 hk0]
            have hrep : replaySegs (segFlattenVal (.obj fs2)) (.obj [])
                = some (.obj fs2) := hIH (k, .obj fs2) (by simp) hgf.1.2
            rw [← heq, hrep]
            show some (Node.obj (objSet acc k (.obj fs2))) = _
            rw [objSet_append acc k (.obj fs2) hknone]
      simp only [hblock]
      have habs2 : ∀ p ∈ fs, objGet (acc ++ [(k, v)]) p.1 = none := by
        intro p hp
        have hfalse : fs.any (fun e => e.1 == k) = false := by
          have := hdk.1
          cases hx : fs.any (fun e => e.1 == k)
          · rfl
          · rw [hx] at this; exact absurd this (by decide)
        have hne : ¬ p.1 = k := by
          intro hpk
          have hmem : fs.any (fun e => e.1 == k) = true :=
            List.any_eq_true.mpr ⟨p, hp, by simp [hpk]⟩
          rw [hmem] at hfalse
          exact absurd hfalse (by decide)
        exact objGet_append_none acc k p.1 v (habs p (by simp [hp])) hne
      rw [replay_obj_acc fs (acc ++ [(k, v)]) hgf.2 hdk.2 habs2
        (fun p hp h => hIH p (by simp [hp]) h)]
      rw [show (acc ++ [(k, v)]) ++ fs = acc ++ (k, v) :: fs from by simp]

theorem replay_good : ∀ v, goodVal v = true →
    replaySegs (segFlattenVal v) (emptyLike v) = some v := by
  intro v
  induction v using Node.inductionOn with
  | hleaf s =>
      intro _
      show replaySegs [(([] : List String), s)] (.leaf s) = some (.leaf s)
      rw [replaySegs_cons_some ([], s) [] (.leaf s) (.leaf s) rfl]
      rfl
  | harr items ih =>
      intro hg
      rw [show goodVal (.arr items) = (!items.isEmpty && goodItems items) from rfl,
        Bool.and_eq_true] at hg
      show replaySegs (segItems items 0) (.arr []) = some (.arr items)
      rw [show segItems items 0 = segItems items ([] : List Node).length from rfl]
      rw [replay_arr_acc items [] hg.2 (fun x hx h => ih x hx h)]
      rw [show ([] : List Node) ++ items = items from by simp]
  | hobj fs ih =>
      intro hg
      rw [show goodVal (.obj fs)
            = ((!fs.isEmpty && distinctKeys fs) && goodFields fs) from rfl,
        Bool.and_eq_true, Bool.and_eq_true] at hg
      show replaySegs (segFields fs) (.obj []) = some (.obj fs)
      rw [replay_obj_acc fs [] hg.2 hg.1.2 (fun p _ => rfl) (fun p hp h => ih p hp h)]
      rw [show ([] : List (String × Node)) ++ fs = fs from by simp]

theorem replayFlat_map_foldl : ∀ (es : List (List String × String)) (acc : Option Node),
    (∀ e ∈ es, jsSplitDot (e.1.foldl joinKey "") = e.1) →
    (es.map (fun e => (e.1.foldl joinKey "", e.2))).foldl applyEntry acc
      = es.foldl applySegEntry acc
  | [], _, _ => rfl
  | e :: es, acc, h => by
      rw [List.map_cons]
      show (es.map _).foldl applyEntry (applyEntry acc (e.1.foldl joinKey "", e.2))
        = es.foldl applySegEntry (applySegEntry acc e)
      have hstep : applyEntry acc (e.1.foldl joinKey "", e.2) = applySegEntry acc e := by
        unfold applyEntry applySegEntry setNestedValue
        rw [h e (by simp)]
      rw [hstep]
      exact replayFlat_map_foldl es _ (fun x hx => h x (by simp [hx]))

/-- C2: what the flatten and targeted-unflatten pair actually
satisfies. On a good tree — the root an object, every container below
it nonempty, every object key nonempty, dot-free, non-numeric under
parseInt and distinct among its siblings — replaying every flattened
entry with setNestedValue starting from an empty tree reproduces the
tree exactly, structure and element order included. The counterexample
shows the unrestricted claim fails on empty containers, numeric object
keys and dotted object keys. -/
theorem flatten_roundtrip_good (root : Node) (h : goodRoot root = true) :
    roundTrip root = some root := by
  cases root with
  | leaf s => simp [goodRoot] at h
  | arr l => simp [goodRoot] at h
  | obj fs =>
      rw [show goodRoot (.obj fs) = (distinctKeys fs && goodFields fs) from rfl,
        Bool.and_eq_true] at h
      show replayFlat (flattenVal (.obj fs) "") (.obj []) = some (.obj fs)
      rw [show flattenVal (.obj fs) "" = flattenFields fs "" from rfl]
      rw [flattenFields_seg fs ""]
      have hsplit : ∀ e ∈ segFields fs, jsSplitDot (e.1.foldl joinKey "") = e.1 := by
        intro e he
        obtain ⟨k, r, hkr⟩ : ∃ a b, e.1 = a :: b := by
          cases hc : e.1 with
          | nil => exact absurd hc (segFields_entry_cons fs e he)
          | cons a b => exact ⟨a, b, rfl⟩
        have hgood : ∀ s ∈ e.1, goodSeg s = true :=
          segs_good_fields_aux fs (fun p _ => segs_good_val p.2) h.2 e he
        rw [hkr]
        rw [show (k :: r).foldl joinKey "" = r.foldl joinKey (joinKey "" k) from rfl]
        rw [joinKey_empty_pre k]
        have hkgood : goodSeg k = true := hgood k (by rw [hkr]; simp)
        have hkne : ¬ k = "" := by
          unfold goodSeg at hkgood
          rw [Bool.and_eq_true] at hkgood
          intro hke
          have h1 := hkgood.1
          rw [hke] at h1
          exact absurd h1 (by decide)
        rw [foldl_joinKey r k hkne]
        apply jsSplitDot_dotJoin (k :: r) (by simp)
        intro s hs
        have hsg := hgood s (by rw [hkr]; exact hs)
        unfold goodSeg at hsg
        rw [Bool.and_eq_true] at hsg
        exact hsg.2
      show ((segFields fs).map
          (fun e => (e.1.foldl joinKey "", e.2))).foldl applyEntry (some (.obj []))
        = some (.obj fs)
      rw [replayFlat_map_foldl (segFields fs) (some (.obj [])) hsplit]
      show replaySegs (segFields fs) (.obj []) = some (.obj fs)
      rw [replay_obj_acc fs [] h.2 h.1 (fun p _ => rfl)
        (fun p _ hg => replay_good p.2 hg)]
      rw [show ([] : List (String × Node)) ++ fs = fs from by simp]

/-- Witness for the good-tree round-trip on a tree with nested
objects, arrays of leaves and an array of objects. -/
theorem flatten_roundtrip_good_witness :
    goodRoot (.obj [("hero", .obj [("title", .leaf "Hi"),
        ("tags", .arr [.leaf "a", .leaf "b"])]),
      ("items", .arr [.obj [("t", .leaf "x")]])]) = true ∧
    roundTrip (.obj [("hero", .obj [("title", .leaf "Hi"),
        ("tags", .arr [.leaf "a", .leaf "b"])]),
      ("items", .arr [.obj [("t", .leaf "x")]])])
      = some (.obj [("hero", .obj [("title", .leaf "Hi"),
          ("tags", .arr [.leaf "a", .leaf "b"])]),
        ("items", .arr [.obj [("t", .leaf "x")]])]) :=
  ⟨by decide,
   flatten_roundtrip_good
     (.obj [("hero", .obj [("title", .leaf "Hi"),
         ("tags", .arr [.leaf "a", .leaf "b"])]),
       ("items", .arr [.obj [("t", .leaf "x")]])]) (by decide)⟩

theorem diverges_nil_left (cur : Node) (q : List String) : diverges cur [] q = false := by
  cases q <;> rfl

theorem diverges_nil_right (cur : Node) (p : List String) : diverges cur p [] = false := by
  cases p <;> rfl

theorem diverges_leaf (s a b : String) (as bs : List String) :
    diverges (.leaf s) (a :: as) (b :: bs) = true := by
  simp [diverges, stepDiverges]

theorem diverges_shape (cur : Node) (p q : List String)
    (h : diverges cur p q = true) : ∃ a as b bs, p = a :: as ∧ q = b :: bs := by
  cases p with
  | nil => rw [diverges_nil_left] at h; exact absurd h (by decide)
  | cons a as =>
      cases q with
      | nil => rw [diverges_nil_right] at h; exact absurd h (by decide)
      | cons b bs => exact ⟨a, as, b, bs, rfl, rfl⟩

theorem contains_false_all_ne (l : List Char) (c : Char)
    (h : l.contains c = false) : l.all (fun x => x != c) = true := by
  rw [List.all_eq_true]
  intro x hx
  simp only [bne_iff_ne]
  intro hxc
  subst hxc
  simp [List.contains_eq_any_beq, List.any_eq_true] at h
  exact h hx

theorem getsegs_obj_set_ne (fs : List (String × Node)) (k k2 : String) (w : Node)
    (rest2 : List String) (h : ¬ k2 = k) :
    getNestedSegs (.obj (objSet fs k w)) (k2 :: rest2)
      = getNestedSegs (.obj fs) (k2 :: rest2) := by
  rw [getNestedSegs_cons, getNestedSegs_cons]
  rw [show getStep (some (.obj (objSet fs k w))) k2 = objGet (objSet fs k w) k2 from rfl]
  rw [show getStep (some (.obj fs)) k2 = objGet fs k2 from rfl]
  rw [objGet_objSet_ne fs k k2 w h]

theorem getsegs_arr_set_ne (items : List Node) (i : Nat) (k2 : String) (w : Node)
    (rest2 : List String) (h : jsParseInt k2 ≠ some (i : Int)) :
    getNestedSegs (.arr (items.set i w)) (k2 :: rest2)
      = getNestedSegs (.arr items) (k2 :: rest2) := by
  rw [getNestedSegs_cons, getNestedSegs_cons]
  have hstep : getStep (some (.arr (items.set i w))) k2
      = getStep (some (.arr items)) k2 := by
    simp only [getStep]
    cases hp : jsParseInt k2 with
    | none => rfl
    | some j =>
        dsimp only
        rw [List.length_set]
        by_cases hb : 0 ≤ j ∧ j.toNat < items.length
        · rw [if_pos hb, if_pos hb]
          have hji : ¬ i = j.toNat := by
            intro he
            apply h
            rw [hp]
            have hj : j = (i : Int) := by omega
            rw [hj]
          rw [List.get?_eq_getElem?, List.get?_eq_getElem?]
          rw [List.getElem?_set_ne hji]
        · rw [if_neg hb, if_neg hb]
  rw [hstep]

theorem getsegs_arr_append_ne (items : List Node) (k2 : String) (w : Node)
    (rest2 : List String) (h : jsParseInt k2 ≠ some (items.length : Int)) :
    getNestedSegs (.arr (items ++ [w])) (k2 :: rest2)
      = getNestedSegs (.arr items) (k2 :: rest2) := by
  rw [getNestedSegs_cons, getNestedSegs_cons]
  have hstep : getStep (some (.arr (items ++ [w]))) k2
      = getStep (some (.arr items)) k2 := by
    simp only [getStep]
    cases hp : jsParseInt k2 with
    | none => rfl
    | some j =>
        dsimp only
        simp only [List.length_append, List.length_cons, List.length_nil]
        by_cases hb0 : (0 : Int) ≤ j
        · have hjne : ¬ j.toNat = items.length := by
            intro he
            apply h
            rw [hp]
            have hj : j = (items.length : Int) := by omega
            rw [hj]
          by_cases hb : j.toNat < items.length
          · rw [if_pos ⟨hb0, by omega⟩, if_pos ⟨hb0, hb⟩]
            rw [List.get?_eq_getElem?, List.get?_eq_getElem?]
            rw [List.getElem?_append]
            rw [if_pos hb]
          · have h1 : ¬ ((0 : Int) ≤ j ∧ j.toNat < items.length + 0 + 1) := by omega
            have h2 : ¬ ((0 : Int) ≤ j ∧ j.toNat < items.length) := by omega
            rw [if_neg h1, if_neg h2]
        · rw [if_neg (fun hc => hb0 hc.1), if_neg (fun hc => hb0 hc.1)]
  rw [hstep]

theorem getsegs_obj_swap (fs : List (String × Node)) (k : String) (c c2 : Node)
    (rest2 : List String) (hc : objGet fs k = some c)
    (heq : getNestedSegs c2 rest2 = getNestedSegs c rest2) :
    getNestedSegs (.obj (objSet fs k c2)) (k :: rest2)
      = getNestedSegs (.obj fs) (k :: rest2) := by
  rw [getNestedSegs_cons, getNestedSegs_cons]
  rw [show getStep (some (.obj (objSet fs k c2))) k = objGet (objSet fs k c2) k from rfl]
  rw [objGet_objSet_self]
  rw [show getStep (some (.obj fs)) k = objGet fs k from rfl, hc]
  exact heq

theorem getsegs_arr_swap (items : List Node) (k : String) (i : Nat) (c c2 : Node)
    (rest2 : List String) (hci : canonIndex k = some i)
    (hc : items.get? i = some c)
    (heq : getNestedSegs c2 rest2 = getNestedSegs c rest2) :
    getNestedSegs (.arr (items.set i c2)) (k :: rest2)
      = getNestedSegs (.arr items) (k :: rest2) := by
  rw [getNestedSegs_cons, getNestedSegs_cons]
  rw [getStep_arr_set items k i c2 hci (get?_lt hc)]
  rw [getStep_eq_childGet (.arr items) k c (by
    show (canonIndex k).bind (fun j => items.get? j) = some c
    rw [hci]
    exact hc)]
  exact heq

theorem setSegs_obj_shape (lastRaw : Bool) (fs : List (String × Node)) (k2 : String)
    (rest2 : List String) (v cur2 : Node)
    (h : setSegs lastRaw (.obj fs) (k2 :: rest2) v = some cur2) :
    ∃ w2, cur2 = .obj (objSet fs k2 w2) ∧
      ((rest2 = [] ∧ w2 = v) ∨
       (∃ next r2, rest2 = next :: r2 ∧
         ((∃ c0, objGet fs k2 = some c0 ∧ setSegs lastRaw c0 rest2 v = some w2) ∨
          (objGet fs k2 = none ∧ setSegs lastRaw (freshFor next) rest2 v = some w2)))) := by
  cases rest2 with
  | nil =>
      have hsv : setSegs lastRaw (.obj fs) [k2] v = some (.obj (objSet fs k2 v)) := by
        cases lastRaw <;> rfl
      rw [hsv, Option.some.injEq] at h
      exact ⟨v, h.symm, Or.inl ⟨rfl, rfl⟩⟩
  | cons next r2 =>
      cases hcg : childGetForSet (.obj fs) k2 with
      | some c0 =>
          rw [setSegs_cons_found lastRaw (.obj fs) c0 k2 next r2 v hcg] at h
          cases hrec : setSegs lastRaw c0 (next :: r2) v with
          | none => simp only [hrec] at h; exact Option.noConfusion h
          | some w2 =>
              simp only [hrec, Option.some.injEq] at h
              refine ⟨w2, ?_, Or.inr ⟨next, r2, rfl, Or.inl ⟨c0, hcg, hrec⟩⟩⟩
              rw [← h]
              rfl
      | none =>
          have hobj : objGet fs k2 = none := hcg
          rw [setSegs_cons_missing_obj lastRaw fs k2 next r2 v hobj] at h
          cases hrec : setSegs lastRaw (freshFor next) (next :: r2) v with
          | none => simp only [hrec] at h; exact Option.noConfusion h
          | some w2 =>
              simp only [hrec, Option.some.injEq] at h
              exact ⟨w2, h.symm, Or.inr ⟨next, r2, rfl, Or.inr ⟨hobj, hrec⟩⟩⟩

theorem setSegs_arr_shape (lastRaw : Bool) (items : List Node) (k2 : String)
    (rest2 : List String) (v cur2 : Node)
    (h : setSegs lastRaw (.arr items) (k2 :: rest2) v = some cur2) :
    cur2 = .arr items ∨
    (∃ i w2, cur2 = .arr (items.set i w2) ∧ jsParseInt k2 = some (i : Int) ∧
      i < items.length ∧
      ((rest2 = [] ∧ w2 = v) ∨
       (∃ c0, canonIndex k2 = some i ∧ items.get? i = some c0 ∧
         setSegs lastRaw c0 rest2 v = some w2))) ∨
    (∃ w2, cur2 = .arr (items ++ [w2]) ∧
      jsParseInt k2 = some (items.length : Int) ∧
      ((rest2 = [] ∧ w2 = v) ∨
       (∃ next r2, rest2 = next :: r2 ∧
         setSegs lastRaw (freshFor next) rest2 v = some w2))) := by
  cases rest2 with
  | nil =>
      cases lastRaw with
      | false =>
          have h2 : setLastParsed (.arr items) k2 v = some cur2 := h
          unfold setLastParsed at h2
          cases hp : jsParseInt k2 with
          | none =>
              simp only [hp, Option.some.injEq] at h2
              exact Or.inl h2.symm
          | some iZ =>
              simp only [hp] at h2
              by_cases h1 : iZ < 0
              · rw [if_pos h1, Option.some.injEq] at h2
                exact Or.inl h2.symm
              · rw [if_neg h1] at h2
                by_cases hlt : iZ.toNat < items.length
                · rw [if_pos hlt, Option.some.injEq] at h2
                  have hparse : (some iZ : Option Int) = some ((iZ.toNat : Nat) : Int) := by
                    have hz : iZ = ((iZ.toNat : Nat) : Int) := by omega
                    rw [← hz]
                  exact Or.inr (Or.inl ⟨iZ.toNat, v, h2.symm, hparse, hlt,
                    Or.inl ⟨rfl, rfl⟩⟩)
                · rw [if_neg hlt] at h2
                  by_cases heq : iZ.toNat = items.length
                  · rw [if_pos heq, Option.some.injEq] at h2
                    have hparse : (some iZ : Option Int)
                        = some ((items.length : Nat) : Int) := by
                      have hz : iZ = ((items.length : Nat) : Int) := by omega
                      rw [← hz]
                    exact Or.inr (Or.inr ⟨v, h2.symm, hparse, Or.inl ⟨rfl, rfl⟩⟩)
                  · rw [if_neg heq] at h2
                    cases h2
      | true =>
          have h2 : childStore (.arr items) k2 v = some cur2 := h
          unfold childStore at h2
          cases hci : canonIndex k2 with
          | none =>
              simp only [hci, Option.some.injEq] at h2
              exact Or.inl h2.symm
          | some i =>
              simp only [hci] at h2
              by_cases hlt : i < items.length
              · rw [if_pos hlt, Option.some.injEq] at h2
                exact Or.inr (Or.inl ⟨i, v, h2.symm, canonIndex_parseInt k2 i hci,
                  hlt, Or.inl ⟨rfl, rfl⟩⟩)
              · rw [if_neg hlt] at h2
                by_cases heq : i = items.length
                · rw [if_pos heq, Option.some.injEq] at h2
                  refine Or.inr (Or.inr ⟨v, h2.symm, ?_, Or.inl ⟨rfl, rfl⟩⟩)
                  rw [← heq]
                  exact canonIndex_parseInt k2 i hci
                · rw [if_neg heq] at h2
                  cases h2
  | cons next r2 =>
      cases hcg : childGetForSet (.arr items) k2 with
      | some c0 =>
          have hcg2 := hcg
          simp only [childGetForSet] at hcg2
          cases hci : canonIndex k2 with
          | none => rw [hci] at hcg2; cases hcg2
          | some i =>
              rw [hci] at hcg2
              simp only [Option.bind] at hcg2
              rw [setSegs_cons_found lastRaw (.arr items) c0 k2 next r2 v hcg] at h
              cases hrec : setSegs lastRaw c0 (next :: r2) v with
              | none => simp only [hrec] at h; exact Option.noConfusion h
              | some w2 =>
                  simp only [hrec, Option.some.injEq] at h
                  refine Or.inr (Or.inl ⟨i, w2, ?_, canonIndex_parseInt k2 i hci,
                    get?_lt hcg2, Or.inr ⟨c0, rfl, hcg2, hrec⟩⟩)
                  rw [← h]
                  simp only [replaceAt, hci]
      | none =>
          simp only [setSegs, hcg] at h
          cases hci : canonIndex k2 with
          | none =>
              simp only [hci, Option.some.injEq] at h
              exact Or.inl h.symm
          | some i =>
              simp only [hci] at h
              by_cases hil : i = items.length
              · rw [if_pos hil] at h
                cases hrec : setSegs lastRaw (freshFor next) (next :: r2) v with
                | none => simp only [hrec] at h; exact Option.noConfusion h
                | some w2 =>
                    simp only [hrec, Option.some.injEq] at h
                    refine Or.inr (Or.inr ⟨w2, h.symm, ?_,
                      Or.inr ⟨next, r2, rfl, hrec⟩⟩)
                    rw [← hil]
                    exact canonIndex_parseInt k2 i hci
              · rw [if_neg hil] at h
                cases h

theorem stepDiverges_obj_ne (fs : List (String × Node)) (k k2 : String)
    (h : stepDiverges (.obj fs) k k2 = true) : ¬ k2 = k := by
  simp only [stepDiverges] at h
  simpa using h

theorem stepDiverges_arr_ne (items : List Node) (k k2 : String)
    (h : stepDiverges (.arr items) k k2 = true) : jsParseInt k2 ≠ jsParseInt k := by
  simp only [stepDiverges] at h
  simpa using h

theorem setSegs_frame (lastRaw : Bool) (v : Node) : ∀ (p : List String)
    (cur cur2 : Node) (q : List String),
    setSegs lastRaw cur p v = some cur2 →
    diverges cur p q = true →
    getNestedSegs cur2 q = getNestedSegs cur q
  | [], _, _, q, _, hdiv => by
      rw [diverges_nil_left] at hdiv
      exact absurd hdiv (by decide)
  | k :: rest, cur, cur2, q, hset, hdiv => by
      cases q with
      | nil =>
          rw [diverges_nil_right] at hdiv
          exact absurd hdiv (by decide)
      | cons k2 rest2 =>
          cases cur with
          | leaf s =>
              rw [setSegs_leaf_none lastRaw rest k s v] at hset
              exact Option.noConfusion hset
          | obj fs =>
              obtain ⟨w2, hcur2, hsub⟩ := setSegs_obj_shape lastRaw fs k rest v cur2 hset
              subst hcur2
              simp only [diverges] at hdiv
              rw [Bool.or_eq_true] at hdiv
              cases hdiv with
              | inl hstep =>
                  exact getsegs_obj_set_ne fs k k2 w2 rest2
                    (stepDiverges_obj_ne fs k k2 hstep)
              | inr hsame =>
                  rw [Bool.and_eq_true] at hsame
                  obtain ⟨hk2, hmatch⟩ := hsame
                  have hkk : k2 = k := by simpa using hk2
                  subst hkk
                  cases hcg : childGetForSet (.obj fs) k2 with
                  | none =>
                      simp only [hcg] at hmatch
                      exact absurd hmatch (by decide)
                  | some c =>
                      simp only [hcg] at hmatch
                      rcases hsub with ⟨hrest, _⟩ | ⟨next, r2, hrest, hinner⟩
                      · subst hrest
                        rw [diverges_nil_left] at hmatch
                        exact absurd hmatch (by decide)
                      · rcases hinner with ⟨c0, hc0, hrec⟩ | ⟨hnone, _⟩
                        · have hco : objGet fs k2 = some c := hcg
                          have hcc : c0 = c := by
                            rw [hc0] at hco
                            exact Option.some.inj hco
                          subst hcc
                          subst hrest
                          exact getsegs_obj_swap fs k2 c0 w2 rest2 hc0
                            (setSegs_frame lastRaw v (next :: r2) c0 w2 rest2 hrec hmatch)
                        · have hco : objGet fs k2 = some c := hcg
                          rw [hnone] at hco
                          exact Option.noConfusion hco
          | arr items =>
              rcases setSegs_arr_shape lastRaw items k rest v cur2 hset with
                hcur2 | ⟨i, w2, hcur2, hpi, hlen, hsub⟩ | ⟨w2, hcur2, hpi, hsub⟩
              · subst hcur2; rfl
              · subst hcur2
                simp only [diverges] at hdiv
                rw [Bool.or_eq_true] at hdiv
                cases hdiv with
                | inl hstep =>
                    apply getsegs_arr_set_ne items i k2 w2 rest2
                    have hne := stepDiverges_arr_ne items k k2 hstep
                    rw [hpi] at hne
                    exact hne
                | inr hsame =>
                    rw [Bool.and_eq_true] at hsame
                    obtain ⟨hk2, hmatch⟩ := hsame
                    have hkk : k2 = k := by simpa using hk2
                    subst hkk
                    cases hcg : childGetForSet (.arr items) k2 with
                    | none =>
                        simp only [hcg] at hmatch
                        exact absurd hmatch (by decide)
                    | some c =>
                        simp only [hcg] at hmatch
                        rcases hsub with ⟨hrest, _⟩ | ⟨c0, hciW, hc0, hrec⟩
                        · subst hrest
                          rw [diverges_nil_left] at hmatch
                          exact absurd hmatch (by decide)
                        · have hcg2 := hcg
                          simp only [childGetForSet] at hcg2
                          rw [hciW] at hcg2
                          simp only [Option.bind] at hcg2
                          have hcc : c0 = c := by
                            rw [hc0] at hcg2
                            exact Option.some.inj hcg2
                          subst hcc
                          exact getsegs_arr_swap items k2 i c0 w2 rest2 hciW hc0
                            (setSegs_frame lastRaw v rest c0 w2 rest2 hrec hmatch)
              · subst hcur2
                simp only [diverges] at hdiv
                rw [Bool.or_eq_true] at hdiv
                cases hdiv with
                | inl hstep =>
                    apply getsegs_arr_append_ne items k2 w2 rest2
                    have hne := stepDiverges_arr_ne items k k2 hstep
                    rw [hpi] at hne
                    exact hne
                | inr hsame =>
                    exfalso
                    rw [Bool.and_eq_true] at hsame
                    obtain ⟨_, hmatch⟩ := hsame
                    cases hcg : childGetForSet (.arr items) k with
                    | none =>
                        simp only [hcg] at hmatch
                        exact absurd hmatch (by decide)
                    | some c =>
                        have hcg2 := hcg
                        simp only [childGetForSet] at hcg2
                        cases hci : canonIndex k with
                        | none => rw [hci] at hcg2; exact Option.noConfusion hcg2
                        | some i0 =>
                            rw [hci] at hcg2
                            simp only [Option.bind] at hcg2
                            have hlt := get?_lt hcg2
                            have hp2 := canonIndex_parseInt k i0 hci
                            rw [hpi] at hp2
                            have hii : (items.length : Int) = (i0 : Int) :=
                              Option.some.inj hp2
                            omega

theorem updateAtGet_frame : ∀ (p : List String) (cur newv : Node) (q : List String),
    diverges cur p q = true →
    getNestedSegs (updateAtGet cur p newv) q = getNestedSegs cur q
  | [], _, _, q, hdiv => by
      rw [diverges_nil_left] at hdiv
      exact absurd hdiv (by decide)
  | k :: rest, cur, newv, q, hdiv => by
      cases q with
      | nil =>
          rw [diverges_nil_right] at hdiv
          exact absurd hdiv (by decide)
      | cons k2 rest2 =>
          simp only [diverges] at hdiv
          rw [Bool.or_eq_true] at hdiv
          cases cur with
          | leaf s => rfl
          | obj fs =>
              show getNestedSegs (match objGet fs k with
                    | some c => Node.obj (objSet fs k (updateAtGet c rest newv))
                    | none => Node.obj fs) (k2 :: rest2) = _
              cases hcg : objGet fs k with
              | none => simp only [hcg]
              | some c =>
                  simp only [hcg]
                  cases hdiv with
                  | inl hstep =>
                      exact getsegs_obj_set_ne fs k k2 (updateAtGet c rest newv) rest2
                        (stepDiverges_obj_ne fs k k2 hstep)
                  | inr hsame =>
                      rw [Bool.and_eq_true] at hsame
                      obtain ⟨hk2, hmatch⟩ := hsame
                      have hkk : k2 = k := by simpa using hk2
                      subst hkk
                      have hcg2 : childGetForSet (.obj fs) k2 = some c := hcg
                      simp only [hcg2] at hmatch
                      exact getsegs_obj_swap fs k2 c (updateAtGet c rest newv) rest2 hcg
                        (updateAtGet_frame rest c newv rest2 hmatch)
          | arr items =>
              show getNestedSegs (match jsParseInt k with
                    | some i =>
                        if 0 ≤ i then
                          match items.get? i.toNat with
                          | some c => Node.arr (items.set i.toNat (updateAtGet c rest newv))
                          | none => Node.arr items
                        else Node.arr items
                    | none => Node.arr items) (k2 :: rest2) = _
              cases hp : jsParseInt k with
              | none => simp only [hp]
              | some iZ =>
                  simp only [hp]
                  by_cases h0 : (0 : Int) ≤ iZ
                  · rw [if_pos h0]
                    cases hg : items.get? iZ.toNat with
                    | none => simp only [hg]
                    | some c =>
                        simp only [hg]
                        cases hdiv with
                        | inl hstep =>
                            apply getsegs_arr_set_ne items iZ.toNat k2
                              (updateAtGet c rest newv) rest2
                            have hne := stepDiverges_arr_ne items k k2 hstep
                            rw [hp] at hne
                            intro hc
                            apply hne
                            rw [hc]
                            have hz : ((iZ.toNat : Nat) : Int) = iZ := by omega
                            rw [hz]
                        | inr hsame =>
                            rw [Bool.and_eq_true] at hsame
                            obtain ⟨hk2, hmatch⟩ := hsame
                            have hkk : k2 = k := by simpa using hk2
                            subst hkk
                            cases hcg : childGetForSet (.arr items) k2 with
                            | none =>
                                simp only [hcg] at hmatch
                                exact absurd hmatch (by decide)
                            | some c2 =>
                                simp only [hcg] at hmatch
                                have hcg2 := hcg
                                simp only [childGetForSet] at hcg2
                                cases hci : canonIndex k2 with
                                | none => rw [hci] at hcg2; exact Option.noConfusion hcg2
                                | some i0 =>
                                    rw [hci] at hcg2
                                    simp only [Option.bind] at hcg2
                                    have hp0 := canonIndex_parseInt k2 i0 hci
                                    rw [hp] at hp0
                                    have hzz : iZ = (i0 : Int) := Option.some.inj hp0
                                    have htn : iZ.toNat = i0 := by omega
                                    rw [htn] at hg
                                    have hcc : c = c2 := by
                                      rw [hcg2] at hg
                                      exact (Option.some.inj hg).symm
                                    subst hcc
                                    rw [htn]
                                    exact getsegs_arr_swap items k2 i0 c
                                      (updateAtGet c rest newv) rest2 hci hcg2
                                      (updateAtGet_frame rest c newv rest2 hmatch)
                  · rw [if_neg h0]

theorem diverges_transfer (lastRaw : Bool) (val : String) : ∀ (p : List String)
    (cur cur2 : Node) (w q : List String),
    setSegs lastRaw cur w (.leaf val) = some cur2 →
    diverges cur p q = true → diverges cur2 p q = true
  | [], _, _, _, q, _, hdiv => by
      rw [diverges_nil_left] at hdiv
      exact absurd hdiv (by decide)
  | k :: rest, cur, cur2, w, q, hset, hdiv => by
      cases q with
      | nil =>
          rw [diverges_nil_right] at hdiv
          exact absurd hdiv (by decide)
      | cons k2 rest2 =>
          cases w with
          | nil =>
              have hc2 : cur2 = cur := by
                rw [show setSegs lastRaw cur [] (.leaf val) = some cur from rfl] at hset
                exact (Option.some.inj hset).symm
              rw [hc2]
              exact hdiv
          | cons kw restw =>
              cases cur with
              | leaf s =>
                  rw [setSegs_leaf_none lastRaw restw kw s (.leaf val)] at hset
                  exact Option.noConfusion hset
              | obj fs =>
                  obtain ⟨w2, hcur2, hsub⟩ :=
                    setSegs_obj_shape lastRaw fs kw restw (.leaf val) cur2 hset
                  subst hcur2
                  simp only [diverges] at hdiv ⊢
                  rw [Bool.or_eq_true] at hdiv ⊢
                  cases hdiv with
                  | inl hstep => exact Or.inl hstep
                  | inr hsame =>
                      rw [Bool.and_eq_true] at hsame
                      obtain ⟨hk2, hmatch⟩ := hsame
                      refine Or.inr ?_
                      rw [Bool.and_eq_true]
                      refine ⟨hk2, ?_⟩
                      cases hcg : childGetForSet (.obj fs) k with
                      | none =>
                          simp only [hcg] at hmatch
                          exact absurd hmatch (by decide)
                      | some c =>
                          simp only [hcg] at hmatch
                          by_cases hkw : kw = k
                          · subst hkw
                            have hnew : childGetForSet (.obj (objSet fs kw w2)) kw
                                = some w2 := childGet_obj_set fs kw w2
                            simp only [hnew]
                            rcases hsub with ⟨hrw, hw2⟩ | ⟨next, r2, hrw, hinner⟩
                            · subst hw2
                              obtain ⟨a, as, b, bs, hp1, hq1⟩ :=
                                diverges_shape c rest rest2 hmatch
                              subst hp1
                              subst hq1
                              exact diverges_leaf val a b as bs
                            · rcases hinner with ⟨c0, hc0, hrec⟩ | ⟨hnone, _⟩
                              · have hco : objGet fs kw = some c := hcg
                                have hcc : c0 = c := by
                                  rw [hc0] at hco
                                  exact Option.some.inj hco
                                subst hcc
                                exact diverges_transfer lastRaw val rest c0 w2 restw
                                  rest2 hrec hmatch
                              · have hco : objGet fs kw = some c := hcg
                                rw [hnone] at hco
                                exact Option.noConfusion hco
                          · have hnew : childGetForSet (.obj (objSet fs kw w2)) k
                                = some c := by
                              show objGet (objSet fs kw w2) k = some c
                              rw [objGet_objSet_ne fs kw k w2 (fun hh => hkw hh.symm)]
                              exact hcg
                            simp only [hnew]
                            exact hmatch
              | arr items =>
                  rcases setSegs_arr_shape lastRaw items kw restw (.leaf val) cur2 hset with
                    hcur2 | ⟨iw, w2, hcur2, hpiw, hlenw, hsubw⟩ | ⟨w2, hcur2, hpiw, hsubw⟩
                  · rw [hcur2]
                    exact hdiv
                  · subst hcur2
                    simp only [diverges] at hdiv ⊢
                    rw [Bool.or_eq_true] at hdiv ⊢
                    cases hdiv with
                    | inl hstep => exact Or.inl hstep
                    | inr hsame =>
                        rw [Bool.and_eq_true] at hsame
                        obtain ⟨hk2, hmatch⟩ := hsame
                        refine Or.inr ?_
                        rw [Bool.and_eq_true]
                        refine ⟨hk2, ?_⟩
                        cases hcg : childGetForSet (.arr items) k with
                        | none =>
                            simp only [hcg] at hmatch
                            exact absurd hmatch (by decide)
                        | some c =>
                            simp only [hcg] at hmatch
                            have hcg2 := hcg
                            simp only [childGetForSet] at hcg2
                            cases hci : canonIndex k with
                            | none => rw [hci] at hcg2; exact Option.noConfusion hcg2
                            | some i =>
                                rw [hci] at hcg2
                                simp only [Option.bind] at hcg2
                                have hilen := get?_lt hcg2
                                by_cases hieq : iw = i
                                · subst hieq
                                  have hnew : childGetForSet (.arr (items.set iw w2)) k
                                      = some w2 :=
                                    childGet_arr_set items k iw w2 hci
                                      (by omega)
                                  simp only [hnew]
                                  rcases hsubw with ⟨hrw, hw2⟩ | ⟨c0, hciw, hc0, hrec⟩
                                  · subst hw2
                                    obtain ⟨a, as, b, bs, hp1, hq1⟩ :=
                                      diverges_shape c rest rest2 hmatch
                                    subst hp1
                                    subst hq1
                                    exact diverges_leaf val a b as bs
                                  · have hcc : c0 = c := by
                                      rw [hc0] at hcg2
                                      exact Option.some.inj hcg2
                                    subst hcc
                                    exact diverges_transfer lastRaw val rest c0 w2
                                      restw rest2 hrec hmatch
                                · have hnew : childGetForSet (.arr (items.set iw w2)) k
                                      = some c := by
                                    show (canonIndex k).bind
                                      (fun j => (items.set iw w2).get? j) = some c
                                    rw [hci]
                                    show (items.set iw w2).get? i = some c
                                    rw [List.get?_eq_getElem?,
                                      List.getElem?_set_ne hieq]
                                    rw [← List.get?_eq_getElem?]
                                    exact hcg2
                                  simp only [hnew]
                                  exact hmatch
                  · subst hcur2
                    simp only [diverges] at hdiv ⊢
                    rw [Bool.or_eq_true] at hdiv ⊢
                    cases hdiv with
                    | inl hstep => exact Or.inl hstep
                    | inr hsame =>
                        rw [Bool.and_eq_true] at hsame
                        obtain ⟨hk2, hmatch⟩ := hsame
                        refine Or.inr ?_
                        rw [Bool.and_eq_true]
                        refine ⟨hk2, ?_⟩
                        cases hcg : childGetForSet (.arr items) k with
                        | none =>
                            simp only [hcg] at hmatch
                            exact absurd hmatch (by decide)
                        | some c =>
                            simp only [hcg] at hmatch
                            have hcg2 := hcg
                            simp only [childGetForSet] at hcg2
                            cases hci : canonIndex k with
                            | none => rw [hci] at hcg2; exact Option.noConfusion hcg2
                            | some i =>
                                rw [hci] at hcg2
                                simp only [Option.bind] at hcg2
                                have hilen := get?_lt hcg2
                                have hnew : childGetForSet (.arr (items ++ [w2])) k
                                    = some c := by
                                  show (canonIndex k).bind
                                    (fun j => (items ++ [w2]).get? j) = some c
                                  rw [hci]
                                  show (items ++ [w2]).get? i = some c
                                  rw [List.get?_eq_getElem?, List.getElem?_append]
                                  rw [if_pos hilen]
                                  rw [← List.get?_eq_getElem?]
                                  exact hcg2
                                simp only [hnew]
                                exact hmatch

theorem foldl_frame (q : List String) : ∀ (chs : List MicrotextChange) (mt mt2 : Node),
    chs.foldlM (fun t ch => setNestedValue t ch.id (.leaf ch.newValue)) mt = some mt2 →
    (∀ ch ∈ chs, diverges mt (jsSplitDot ch.id) q = true) →
    getNestedSegs mt2 q = getNestedSegs mt q
  | [], mt, mt2, hf, _ => by
      simp only [List.foldlM_nil] at hf
      obtain rfl : mt = mt2 := Option.some.inj hf
      rfl
  | ch :: chs, mt, mt2, hf, hdiv => by
      simp only [List.foldlM_cons] at hf
      cases hset : setNestedValue mt ch.id (.leaf ch.newValue) with
      | none =>
          rw [hset] at hf
          exact Option.noConfusion hf
      | some mt1 =>
          rw [hset] at hf
          have hf2 : chs.foldlM (fun t ch => setNestedValue t ch.id (.leaf ch.newValue)) mt1
              = some mt2 := hf
          have hstep : getNestedSegs mt1 q = getNestedSegs mt q :=
            setSegs_frame false (.leaf ch.newValue) (jsSplitDot ch.id) mt mt1 q hset
              (hdiv ch (by simp))
          have hdiv2 : ∀ ch2 ∈ chs, diverges mt1 (jsSplitDot ch2.id) q = true :=
            fun ch2 hm => diverges_transfer false ch.newValue (jsSplitDot ch2.id) mt mt1
              (jsSplitDot ch.id) q hset (hdiv ch2 (by simp [hm]))
          rw [foldl_frame q chs mt1 mt2 hf2 hdiv2, hstep]

theorem microtextPost_microtext_frame (doc : MdxDoc) (id value : String)
    (doc2 : MdxDoc) (prev : Option Node) (q : List String)
    (h : microtextPost doc id value = .ok doc2 prev)
    (hdiv : diverges (ensuredMicrotext doc.front).2 (jsSplitDot id) q = true) :
    getNestedSegs (microtextOf doc2) q
      = getNestedSegs (ensuredMicrotext doc.front).2 q := by
  unfold microtextPost at h
  by_cases hid : id = ""
  · rw [if_pos hid] at h
    exact RouteResult.noConfusion h
  · rw [if_neg hid] at h
    dsimp only at h
    by_cases hdot : id.data.contains '.' = true
    · simp only [hdot, if_true] at h
      cases hset : setNestedValue (ensuredMicrotext doc.front).2 id (.leaf value) with
      | none =>
          rw [hset] at h
          exact RouteResult.noConfusion h
      | some mt2 =>
          simp only [hset] at h
          injection h with h1 h2
          rw [← h1]
          have hmf : microtextOf ⟨objSet (ensuredMicrotext doc.front).1 "microtext" mt2,
              doc.body⟩ = mt2 := by
            unfold microtextOf
            dsimp only
            rw [objGet_objSet_self]
            rfl
          rw [hmf]
          exact setSegs_frame false (.leaf value) (jsSplitDot id)
            (ensuredMicrotext doc.front).2 mt2 q hset hdiv
    · have hdf : id.data.contains '.' = false := by
        cases hc : id.data.contains '.'
        · rfl
        · exact absurd hc hdot
      have hsplit : jsSplitDot id = [id] :=
        jsSplitDot_single id (contains_false_all_ne id.data '.' hdf)
      simp only [hdf, Bool.false_eq_true, if_false] at h
      cases hset : childStore (ensuredMicrotext doc.front).2 id (.leaf value) with
      | none =>
          rw [hset] at h
          exact RouteResult.noConfusion h
      | some mt2 =>
          simp only [hset] at h
          injection h with h1 h2
          rw [← h1]
          have hmf : microtextOf ⟨objSet (ensuredMicrotext doc.front).1 "microtext" mt2,
              doc.body⟩ = mt2 := by
            unfold microtextOf
            dsimp only
            rw [objGet_objSet_self]
            rfl
          rw [hmf]
          have hset2 : setSegs true (ensuredMicrotext doc.front).2 [id] (.leaf value)
              = some mt2 := hset
          rw [hsplit] at hdiv
          exact setSegs_frame true (.leaf value) [id]
            (ensuredMicrotext doc.front).2 mt2 q hset2 hdiv

theorem arrayFinish_aliased_microtext (front1 : List (String × Node)) (body : String)
    (mt : Node) (arrayPath : String) (l arr1 : List Node) (out out2 : ArrayOpOut)
    (doc2 : MdxDoc)
    (hfound : getNestedSegs mt (jsSplitDot arrayPath) = some (.arr l))
    (h : arrayFinish front1 body mt true arrayPath arr1 out = .ok doc2 out2) :
    microtextOf doc2 = updateAtGet mt (jsSplitDot arrayPath) (.arr arr1) := by
  rw [arrayFinish_true_eq] at h
  have hmid : getNestedSegs (updateAtGet mt (jsSplitDot arrayPath) (.arr arr1))
      (jsSplitDot arrayPath) = some (.arr arr1) :=
    updateAtGet_get (jsSplitDot arrayPath) mt l (.arr arr1) hfound
  obtain ⟨k0, r0, hkr⟩ : ∃ a b, jsSplitDot arrayPath = a :: b := by
    cases hsp : jsSplitDot arrayPath with
    | nil => exact absurd hsp (jsSplitDot_ne_nil arrayPath)
    | cons a b => exact ⟨a, b, rfl⟩
  have hself : ArrayApi.setNestedValue (updateAtGet mt (jsSplitDot arrayPath) (.arr arr1))
      arrayPath (.arr arr1)
      = some (updateAtGet mt (jsSplitDot arrayPath) (.arr arr1)) := by
    unfold ArrayApi.setNestedValue
    rw [hkr]
    apply setSegsRaw_self r0 k0
    rw [← hkr]
    exact hmid
  rw [hself] at h
  injection h with h1 h2
  rw [← h1]
  unfold microtextOf
  dsimp only
  rw [objGet_objSet_self]
  rfl

theorem arrayFinish_plain_microtext (front1 : List (String × Node)) (body : String)
    (mt : Node) (arrayPath : String) (arr1 : List Node) (out out2 : ArrayOpOut)
    (doc2 : MdxDoc)
    (h : arrayFinish front1 body mt false arrayPath arr1 out = .ok doc2 out2) :
    ∃ mtFin, setSegs true mt (jsSplitDot arrayPath) (.arr arr1) = some mtFin ∧
      microtextOf doc2 = mtFin := by
  unfold arrayFinish at h
  dsimp only at h
  rw [if_neg (by decide : ¬ false = true)] at h
  cases hset : ArrayApi.setNestedValue mt arrayPath (.arr arr1) with
  | none =>
      simp only [hset] at h
      exact RouteResult.noConfusion h
  | some mtFin =>
      simp only [hset] at h
      injection h with h1 h2
      refine ⟨mtFin, hset, ?_⟩
      rw [← h1]
      unfold microtextOf
      dsimp only
      rw [objGet_objSet_self]
      rfl

theorem arrayPost_microtext_frame (doc : MdxDoc) (arrayPath : String)
    (action : ArrAction) (index : Option Int) (template : Option Node)
    (doc2 : MdxDoc) (out : ArrayOpOut) (q : List String)
    (h : arrayPost doc arrayPath action index template = .ok doc2 out)
    (hdiv : diverges (ensuredMicrotext doc.front).2 (jsSplitDot arrayPath) q = true) :
    getNestedSegs (microtextOf doc2) q
      = getNestedSegs (ensuredMicrotext doc.front).2 q := by
  unfold arrayPost at h
  by_cases hap : arrayPath = ""
  · rw [if_pos hap] at h
    exact RouteResult.noConfusion h
  · rw [if_neg hap] at h
    by_cases hval : action = .remove ∧ index = none
    · rw [if_pos hval] at h
      exact RouteResult.noConfusion h
    · rw [if_neg hval] at h
      dsimp only at h
      cases hfound : ArrayApi.getNestedValue (ensuredMicrotext doc.front).2 arrayPath with
      | none =>
          simp only [hfound] at h
          cases action with
          | add =>
              dsimp only at h
              obtain ⟨mtFin, hset, hmf⟩ := arrayFinish_plain_microtext
                (ensuredMicrotext doc.front).1 doc.body (ensuredMicrotext doc.front).2
                arrayPath _ _ out doc2 h
              rw [hmf]
              exact setSegs_frame true _ (jsSplitDot arrayPath)
                (ensuredMicrotext doc.front).2 mtFin q hset hdiv
          | remove =>
              dsimp only at h
              cases hidx : index with
              | none => exact absurd ⟨rfl, hidx⟩ hval
              | some i =>
                  rw [hidx] at h
                  dsimp only at h
                  rw [if_pos (by simp only [List.length_nil, Nat.cast_zero]; omega)] at h
                  exact RouteResult.noConfusion h
      | some node =>
          cases node with
          | leaf s =>
              simp only [hfound] at h
              cases action with
              | add =>
                  dsimp only at h
                  obtain ⟨mtFin, hset, hmf⟩ := arrayFinish_plain_microtext
                    (ensuredMicrotext doc.front).1 doc.body (ensuredMicrotext doc.front).2
                    arrayPath _ _ out doc2 h
                  rw [hmf]
                  exact setSegs_frame true _ (jsSplitDot arrayPath)
                    (ensuredMicrotext doc.front).2 mtFin q hset hdiv
              | remove =>
                  dsimp only at h
                  cases hidx : index with
                  | none => exact absurd ⟨rfl, hidx⟩ hval
                  | some i =>
                      rw [hidx] at h
                      dsimp only at h
                      rw [if_pos (by simp only [List.length_nil, Nat.cast_zero]; omega)] at h
                      exact RouteResult.noConfusion h
          | obj fs2 =>
              simp only [hfound] at h
              cases action with
              | add =>
                  dsimp only at h
                  obtain ⟨mtFin, hset, hmf⟩ := arrayFinish_plain_microtext
                    (ensuredMicrotext doc.front).1 doc.body (ensuredMicrotext doc.front).2
                    arrayPath _ _ out doc2 h
                  rw [hmf]
                  exact setSegs_frame true _ (jsSplitDot arrayPath)
                    (ensuredMicrotext doc.front).2 mtFin q hset hdiv
              | remove =>
                  dsimp only at h
                  cases hidx : index with
                  | none => exact absurd ⟨rfl, hidx⟩ hval
                  | some i =>
                      rw [hidx] at h
                      dsimp only at h
                      rw [if_pos (by simp only [List.length_nil, Nat.cast_zero]; omega)] at h
                      exact RouteResult.noConfusion h
          | arr l =>
              simp only [hfound] at h
              have hfound2 : getNestedSegs (ensuredMicrotext doc.front).2
                  (jsSplitDot arrayPath) = some (.arr l) := by
                unfold ArrayApi.getNestedValue at hfound
                rw [if_neg hap] at hfound
                exact hfound
              cases action with
              | add =>
                  dsimp only at h
                  have hmf := arrayFinish_aliased_microtext
                    (ensuredMicrotext doc.front).1 doc.body (ensuredMicrotext doc.front).2
                    arrayPath l _ _ out doc2 hfound2 h
                  rw [hmf]
                  exact updateAtGet_frame (jsSplitDot arrayPath)
                    (ensuredMicrotext doc.front).2 _ q hdiv
              | remove =>
                  dsimp only at h
                  cases hidx : index with
                  | none => exact absurd ⟨rfl, hidx⟩ hval
                  | some i =>
                      rw [hidx] at h
                      dsimp only at h
                      by_cases hb : i < 0 ∨ ((l.length : Nat) : Int) ≤ i
                      · rw [if_pos hb] at h
                        exact RouteResult.noConfusion h
                      · rw [if_neg hb] at h
                        cases hget : l.get? i.toNat with
                        | none =>
                            simp only [hget] at h
                            exact RouteResult.noConfusion h
                        | some removed =>
                            simp only [hget] at h
                            have hmf := arrayFinish_aliased_microtext
                              (ensuredMicrotext doc.front).1 doc.body
                              (ensuredMicrotext doc.front).2
                              arrayPath l _ _ out doc2 hfound2 h
                            rw [hmf]
                            exact updateAtGet_frame (jsSplitDot arrayPath)
                              (ensuredMicrotext doc.front).2 _ q hdiv

theorem applyChanges_microtext_frame (doc : MdxDoc) (changes : List MicrotextChange)
    (doc2 : MdxDoc) (q : List String)
    (h : applyChanges doc changes = some doc2)
    (hdiv : ∀ ch ∈ changes, diverges (microtextOf doc) (jsSplitDot ch.id) q = true) :
    getNestedSegs (microtextOf doc2) q = getNestedSegs (microtextOf doc) q := by
  unfold applyChanges at h
  cases hmt : objGet doc.front "microtext" with
  | none =>
      rw [hmt] at h
      exact Option.noConfusion h
  | some mt =>
      simp only [hmt] at h
      by_cases ht : truthy (some mt) = false
      · rw [if_pos ht] at h
        exact Option.noConfusion h
      · rw [if_neg ht] at h
        have hmtOf : microtextOf doc = mt := by
          unfold microtextOf
          rw [hmt]
          rfl
        cases hf : changes.foldlM
            (fun t ch => setNestedValue t ch.id (.leaf ch.newValue)) mt with
        | none =>
            rw [hf] at h
            exact Option.noConfusion h
        | some mt2 =>
            simp only [hf] at h
            have h1 := Option.some.inj h
            rw [← h1]
            have hmf : microtextOf ⟨objSet doc.front "microtext" mt2, doc.body⟩ = mt2 := by
              unfold microtextOf
              dsimp only
              rw [objGet_objSet_self]
              rfl
            rw [hmf, hmtOf]
            rw [hmtOf] at hdiv
            exact foldl_frame q changes mt mt2 hf hdiv

/-- C3: every mutation of a content document (field write via the
microtext route, array add or remove via the microtext-array route,
applied instruction edits) preserves the opaque body and all
non-content header fields verbatim, same bindings in the same order; a
failed request leaves the document as it was; only the microtext field
changes. Within the microtext tree, only the addressed part changes:
every path q that diverges from the written path inside the existing
tree (a different property on an object step, a different parseInt
reading on an array step, anything on a string leaf) reads the same
value after the mutation as before; for applied instruction edits, a q
diverging from every applied path is likewise untouched. -/
theorem mutation_frame (doc : MdxDoc) (id value arrayPath : String)
    (action : ArrAction) (index : Option Int) (template : Option Node)
    (changes : List MicrotextChange) (q : List String) :
    ((afterDoc (microtextPost doc id value) doc).body = doc.body ∧
      headerFields (afterDoc (microtextPost doc id value) doc).front
        = headerFields doc.front) ∧
    ((afterDoc (arrayPost doc arrayPath action index template) doc).body = doc.body ∧
      headerFields (afterDoc (arrayPost doc arrayPath action index template) doc).front
        = headerFields doc.front) ∧
    (((applyChanges doc changes).getD doc).body = doc.body ∧
      headerFields ((applyChanges doc changes).getD doc).front = headerFields doc.front) ∧
    (∀ doc2 prev, microtextPost doc id value = .ok doc2 prev →
      diverges (ensuredMicrotext doc.front).2 (jsSplitDot id) q = true →
      getNestedSegs (microtextOf doc2) q
        = getNestedSegs (ensuredMicrotext doc.front).2 q) ∧
    (∀ doc2 out, arrayPost doc arrayPath action index template = .ok doc2 out →
      diverges (ensuredMicrotext doc.front).2 (jsSplitDot arrayPath) q = true →
      getNestedSegs (microtextOf doc2) q
        = getNestedSegs (ensuredMicrotext doc.front).2 q) ∧
    (∀ doc2, applyChanges doc changes = some doc2 →
      (∀ ch ∈ changes, diverges (microtextOf doc) (jsSplitDot ch.id) q = true) →
      getNestedSegs (microtextOf doc2) q = getNestedSegs (microtextOf doc) q) :=
  ⟨microtextPost_preserves doc id value,
   arrayPost_preserves doc arrayPath action index template,
   applyChanges_preserves doc changes,
   fun doc2 prev h hdiv => microtextPost_microtext_frame doc id value doc2 prev q h hdiv,
   fun doc2 out h hdiv => arrayPost_microtext_frame doc arrayPath action index template
     doc2 out q h hdiv,
   fun doc2 h hdiv => applyChanges_microtext_frame doc changes doc2 q h hdiv⟩

/-- Witness for the mutation frame: a field write at a, an array
removal at arr and an applied edit at a all succeed on the frameW
document, the sibling path b.c diverges from each written path, and
its value is unchanged by each of the three mutations. -/
theorem mutation_frame_witness :
    (microtextPost frameW "a" "NEW"
        = .ok ⟨[("title", .leaf "T"),
            ("microtext", .obj [("a", .leaf "NEW"), ("b", .obj [("c", .leaf "2")]),
              ("arr", .arr [.leaf "x", .leaf "y"])])], "BODY"⟩ (some (.leaf "1")) ∧
      diverges (ensuredMicrotext frameW.front).2 (jsSplitDot "a") ["b", "c"] = true ∧
      getNestedSegs (microtextOf ⟨[("title", .leaf "T"),
            ("microtext", .obj [("a", .leaf "NEW"), ("b", .obj [("c", .leaf "2")]),
              ("arr", .arr [.leaf "x", .leaf "y"])])], "BODY"⟩) ["b", "c"]
        = getNestedSegs (ensuredMicrotext frameW.front).2 ["b", "c"]) ∧
    (arrayPost frameW "arr" .remove (some 0) none
        = .ok ⟨[("title", .leaf "T"),
            ("microtext", .obj [("a", .leaf "1"), ("b", .obj [("c", .leaf "2")]),
              ("arr", .arr [.leaf "y"])])], "BODY"⟩
          ⟨.remove, "arr", 0, .leaf "x", 1⟩ ∧
      diverges (ensuredMicrotext frameW.front).2 (jsSplitDot "arr") ["b", "c"] = true ∧
      getNestedSegs (microtextOf ⟨[("title", .leaf "T"),
            ("microtext", .obj [("a", .leaf "1"), ("b", .obj [("c", .leaf "2")]),
              ("arr", .arr [.leaf "y"])])], "BODY"⟩) ["b", "c"]
        = getNestedSegs (ensuredMicrotext frameW.front).2 ["b", "c"]) ∧
    (applyChanges frameW [⟨"a", "1", "Z", "r"⟩]
        = some ⟨[("title", .leaf "T"),
            ("microtext", .obj [("a", .leaf "Z"), ("b", .obj [("c", .leaf "2")]),
              ("arr", .arr [.leaf "x", .leaf "y"])])], "BODY"⟩ ∧
      (∀ ch ∈ [(⟨"a", "1", "Z", "r"⟩ : MicrotextChange)],
        diverges (microtextOf frameW) (jsSplitDot ch.id) ["b", "c"] = true) ∧
      getNestedSegs (microtextOf ⟨[("title", .leaf "T"),
            ("microtext", .obj [("a", .leaf "Z"), ("b", .obj [("c", .leaf "2")]),
              ("arr", .arr [.leaf "x", .leaf "y"])])], "BODY"⟩) ["b", "c"]
        = getNestedSegs (microtextOf frameW) ["b", "c"]) :=
  ⟨⟨by decide, by decide,
    (mutation_frame frameW "a" "NEW" "arr" .remove (some 0) none
        [⟨"a", "1", "Z", "r"⟩] ["b", "c"]).2.2.2.1
      ⟨[("title", .leaf "T"),
        ("microtext", .obj [("a", .leaf "NEW"), ("b", .obj [("c", .leaf "2")]),
          ("arr", .arr [.leaf "x", .leaf "y"])])], "BODY"⟩ (some (.leaf "1"))
      (by decide) (by decide)⟩,
   ⟨by decide, by decide,
    (mutation_frame frameW "a" "NEW" "arr" .remove (some 0) none
        [⟨"a", "1", "Z", "r"⟩] ["b", "c"]).2.2.2.2.1
      ⟨[("title", .leaf "T"),
        ("microtext", .obj [("a", .leaf "1"), ("b", .obj [("c", .leaf "2")]),
          ("arr", .arr [.leaf "y"])])], "BODY"⟩
      ⟨.remove, "arr", 0, .leaf "x", 1⟩ (by decide) (by decide)⟩,
   ⟨by decide, by decide,
    (mutation_frame frameW "a" "NEW" "arr" .remove (some 0) none
        [⟨"a", "1", "Z", "r"⟩] ["b", "c"]).2.2.2.2.2
      ⟨[("title", .leaf "T"),
        ("microtext", .obj [("a", .leaf "Z"), ("b", .obj [("c", .leaf "2")]),
          ("arr", .arr [.leaf "x", .leaf "y"])])], "BODY"⟩
      (by decide) (by decide)⟩⟩

end VibeEditor
